import Mathlib

/-!
# A verification development for `raycast.c`

The C program reads a scene description (a restricted JSON dialect), casts one ray per
pixel against the spheres and planes of the scene and writes a P3 image.

## Conventions of the embedding

* A C `double` is a value of `Dbl F`: a finite value, an element of `F`, or one of the three
  special values `+inf`, `-inf`, `NaN`.  The functions of `raycast.c` are written once, over
  the operations of the class `DblArith`, and are read in two arithmetics.  In `Dbl B64` the
  operations are those of IEEE 754 binary64: rounding to nearest with ties to even, overflow
  to the infinities, subnormal numbers and signed zeros; this is what the program computes.
  In `Dbl F` for an ordered field `F` the operations are exact and zero is unsigned; this is
  the arithmetic of the real numbers, used where a statement is about the formulas and says
  so.
* The C library `sqrt` is a parameter `sqrt : F → F`: `B64.sqrt` for binary64; over an ordered
  field the theorems that need it assume `SqrtSpec` or `SqrtAt`.
* `exit(1)` is the result `Res.err`, a `while (1)` loop carries fuel and `Res.outOfFuel` is the
  result of a loop that is still running when the fuel is used up.
* The input file is a `List Char`; `fgetc` at the end of the list returns EOF, which is
  neither `]` nor `{`.
* `fscanf(json, "%lf", &value)` is a field of `Stdio`; `scanf_lf_decimal` is a model of it for
  decimal numbers.  The value of an uninitialised `double` is `Stdio.indeterminate`.
* The array `objects` is a list whose length is the constant `maxObjects` of `raycast.h`; an
  access past its end is the result `Res.err Err.outOfBounds`.
-/

namespace Raycast

/-! ## Doubles -/

/-- A C `double`: a finite value or one of the IEEE special values. -/
inductive Dbl (F : Type) where
  | fin (x : F)
  | pinf
  | ninf
  | nan
  deriving DecidableEq, Repr

/-- The operations of C on the type `double`, for doubles whose finite values are the
elements of `F`.  The functions of `raycast.c` are written over these operations; the
development gives them two meanings: the binary64 arithmetic of IEEE 754 (`B64`, with rounding
to nearest, overflow and signed zeros) and real arithmetic (an ordered field, without
rounding). -/
class DblArith (F : Type) where
  /-- The sum `a + b`. -/
  add : Dbl F → Dbl F → Dbl F
  /-- Unary minus. -/
  neg : Dbl F → Dbl F
  /-- The product `a * b`. -/
  mul : Dbl F → Dbl F → Dbl F
  /-- The quotient `a / b`. -/
  div : Dbl F → Dbl F → Dbl F
  /-- The C library `sqrt`, from its restriction to the finite values that are not negative. -/
  sqrt : (F → F) → Dbl F → Dbl F
  /-- The comparison `a < b`. -/
  lt : Dbl F → Dbl F → Bool
  /-- The comparison `a != b`. -/
  ne : Dbl F → Dbl F → Bool
  /-- The conversion of a non-negative integer, as for an integer literal. -/
  ofNat : Nat → Dbl F
  /-- The conversion `(double) i` of an `int`. -/
  ofInt : Int → Dbl F
  /-- The literal `0.5`. -/
  half : Dbl F

/-- The conversion `(unsigned char)` of a `double`. -/
class DblConv (F : Type) where
  /-- The conversion `(unsigned char) v`. -/
  to_uchar : Dbl F → Nat

namespace Dbl

variable {F : Type} [DblArith F]

/-- The C library `sqrt`. -/
def sqrt (sqrtF : F → F) (a : Dbl F) : Dbl F := DblArith.sqrt sqrtF a

/-- The comparison `a < b`. -/
def lt (a b : Dbl F) : Bool := DblArith.lt a b

/-- The comparison `a > b`. -/
def gt (a b : Dbl F) : Bool := lt b a

/-- The comparison `a != b`. -/
def ne (a b : Dbl F) : Bool := DblArith.ne a b

instance : Add (Dbl F) := ⟨DblArith.add⟩
instance : Sub (Dbl F) := ⟨fun a b => DblArith.add a (DblArith.neg b)⟩
instance : Mul (Dbl F) := ⟨DblArith.mul⟩
instance : Div (Dbl F) := ⟨DblArith.div⟩
instance : Neg (Dbl F) := ⟨DblArith.neg⟩

/-- A numeric literal of the C source. -/
def lit (n : Nat) : Dbl F := DblArith.ofNat n

/-- The conversion of an `int` to `double`. -/
def ofInt (i : Int) : Dbl F := DblArith.ofInt i

end Dbl

/-! ## Real arithmetic

Doubles over an ordered field: arithmetic on finite values is exact (no rounding, no overflow)
and zero is unsigned, so that a division by zero behaves as a division by `+0`.  The special
values follow IEEE 754. -/

namespace Exact

variable {F : Type} [LinearOrderedField F]

/-- Unary minus. -/
def neg : Dbl F → Dbl F
  | Dbl.fin x => Dbl.fin (-x)
  | Dbl.pinf => Dbl.ninf
  | Dbl.ninf => Dbl.pinf
  | Dbl.nan => Dbl.nan

/-- Addition of doubles. -/
def add : Dbl F → Dbl F → Dbl F
  | Dbl.fin x, Dbl.fin y => Dbl.fin (x + y)
  | Dbl.fin _, Dbl.pinf => Dbl.pinf
  | Dbl.fin _, Dbl.ninf => Dbl.ninf
  | Dbl.pinf, Dbl.fin _ => Dbl.pinf
  | Dbl.pinf, Dbl.pinf => Dbl.pinf
  | Dbl.ninf, Dbl.fin _ => Dbl.ninf
  | Dbl.ninf, Dbl.ninf => Dbl.ninf
  | _, _ => Dbl.nan

/-- The infinity whose sign is the sign of `x`, or NaN when `x = 0`. -/
def infOfSign (x : F) : Dbl F :=
  if 0 < x then Dbl.pinf else if x < 0 then Dbl.ninf else Dbl.nan

/-- Multiplication of doubles. -/
def mul : Dbl F → Dbl F → Dbl F
  | Dbl.fin x, Dbl.fin y => Dbl.fin (x * y)
  | Dbl.fin x, Dbl.pinf => infOfSign x
  | Dbl.fin x, Dbl.ninf => infOfSign (-x)
  | Dbl.pinf, Dbl.fin y => infOfSign y
  | Dbl.ninf, Dbl.fin y => infOfSign (-y)
  | Dbl.pinf, Dbl.pinf => Dbl.pinf
  | Dbl.ninf, Dbl.ninf => Dbl.pinf
  | Dbl.pinf, Dbl.ninf => Dbl.ninf
  | Dbl.ninf, Dbl.pinf => Dbl.ninf
  | _, _ => Dbl.nan

/-- Division of doubles; a zero divisor counts as `+0`. -/
def div : Dbl F → Dbl F → Dbl F
  | Dbl.fin x, Dbl.fin y => if y = 0 then infOfSign x else Dbl.fin (x / y)
  | Dbl.fin _, Dbl.pinf => Dbl.fin 0
  | Dbl.fin _, Dbl.ninf => Dbl.fin 0
  | Dbl.pinf, Dbl.fin y => if y < 0 then Dbl.ninf else Dbl.pinf
  | Dbl.ninf, Dbl.fin y => if y < 0 then Dbl.pinf else Dbl.ninf
  | _, _ => Dbl.nan

/-- The C library `sqrt` lifted to the special values. -/
def sqrt (sqrtF : F → F) : Dbl F → Dbl F
  | Dbl.fin x => if x < 0 then Dbl.nan else Dbl.fin (sqrtF x)
  | Dbl.pinf => Dbl.pinf
  | _ => Dbl.nan

/-- The comparison `a < b`; false as soon as one side is NaN. -/
def lt : Dbl F → Dbl F → Bool
  | Dbl.fin x, Dbl.fin y => decide (x < y)
  | Dbl.fin _, Dbl.pinf => true
  | Dbl.ninf, Dbl.fin _ => true
  | Dbl.ninf, Dbl.pinf => true
  | _, _ => false

/-- The comparison `a != b`; true as soon as one side is NaN. -/
def ne : Dbl F → Dbl F → Bool
  | Dbl.fin x, Dbl.fin y => decide (x ≠ y)
  | Dbl.pinf, Dbl.pinf => false
  | Dbl.ninf, Dbl.ninf => false
  | _, _ => true

/-- The conversion `(unsigned char)` of a `double`: the value is truncated toward zero.  For a
value outside the range of `unsigned char` C leaves the conversion undefined; the model keeps
the low byte of the truncated value, and `0` for a value that is not finite. -/
def to_uchar [FloorRing F] : Dbl F → Nat
  | Dbl.fin x => ((if 0 ≤ x then ⌊x⌋ else ⌈x⌉) % 256).toNat
  | _ => 0

end Exact

/-- Real arithmetic as a meaning of the operations on doubles. -/
instance exactArith {F : Type} [LinearOrderedField F] : DblArith F where
  add := Exact.add
  neg := Exact.neg
  mul := Exact.mul
  div := Exact.div
  sqrt := Exact.sqrt
  lt := Exact.lt
  ne := Exact.ne
  ofNat := fun n => Dbl.fin (n : F)
  ofInt := fun i => Dbl.fin (i : F)
  half := Dbl.fin (1 / 2)

/-- Truncation toward zero as the conversion to `unsigned char` in real arithmetic. -/
instance exactConv {F : Type} [LinearOrderedField F] [FloorRing F] : DblConv F where
  to_uchar := Exact.to_uchar

/-! ## Binary64 arithmetic

The doubles of IEEE 754: binary64 values with rounding to nearest (ties to even), overflow to
the infinities, subnormal numbers and signed zeros. -/

/-- A finite binary64 value `(-1)^sign * m * 2^e`.  The operations produce the canonical form:
`m < 2^53`, `-1074 ≤ e ≤ 971`, and `2^52 ≤ m` unless `e = -1074` (zero and the subnormal
numbers). -/
structure B64 where
  sign : Bool
  m : Nat
  e : Int
  deriving DecidableEq, Repr

namespace B64

/-- The loop of `bits`: a binary search for the leading digit, `2^k` digits at a time. -/
def bits_loop : Nat → Nat → Nat → Nat
  | 0, n, acc => if n = 0 then acc else acc + 1
  | k + 1, n, acc =>
    if 2 ^ 2 ^ k ≤ n then bits_loop k (n / 2 ^ 2 ^ k) (acc + 2 ^ k) else bits_loop k n acc

/-- The number of binary digits of `n`, for `n < 2^8191`. -/
def bits (n : Nat) : Nat := bits_loop 13 n 0

/-- The infinity of the given sign. -/
def inf (sign : Bool) : Dbl B64 := if sign then Dbl.ninf else Dbl.pinf

/-- The zero of the given sign. -/
def zero (sign : Bool) : B64 := ⟨sign, 0, -1074⟩

/-- The quotient `q` of a division by `2 * h` that left the remainder `r`, rounded to nearest
with ties to even. -/
def round_up (q r h : Nat) : Nat := if h < r ∨ (r = h ∧ q % 2 = 1) then q + 1 else q

/-- The double `(-1)^sign * q * 2^e` for a rounded significand `q ≤ 2^53`: the significand
`2^53` is written with the next exponent, and an exponent above 971 gives an infinity. -/
def pack (sign : Bool) (q : Nat) (e : Int) : Dbl B64 :=
  if q = 2 ^ 53 then (if 971 < e + 1 then inf sign else Dbl.fin ⟨sign, 2 ^ 52, e + 1⟩)
  else if 971 < e then inf sign else Dbl.fin ⟨sign, q, e⟩

/-- Rounding to nearest, ties to even: the double nearest to `(-1)^sign * M * 2^E`, an
infinity when the rounded value exceeds the largest finite double.  The significand keeps 53
binary digits, fewer when the exponent would fall below `-1074`. -/
def round (sign : Bool) (M : Nat) (E : Int) : Dbl B64 :=
  if M = 0 then Dbl.fin (zero sign)
  else
    let shift : Int := max ((bits M : Int) - 53) (-1074 - E)
    if shift ≤ 0 then
      if 971 < E + shift then inf sign
      else Dbl.fin ⟨sign, M * 2 ^ (-shift).toNat, E + shift⟩
    else
      pack sign
        (round_up (M / 2 ^ shift.toNat) (M % 2 ^ shift.toNat) (2 ^ (shift.toNat - 1)))
        (E + shift)

/-- The value of `x` in units of `2^E`, for an exponent `E` not above the exponent of `x`. -/
def scaled (x : B64) (E : Int) : Int :=
  if x.sign then -((x.m * 2 ^ (x.e - E).toNat : Nat) : Int)
  else ((x.m * 2 ^ (x.e - E).toNat : Nat) : Int)

/-- The sum of two finite values. -/
def add (x y : B64) : Dbl B64 :=
  let E := min x.e y.e
  let S := scaled x E + scaled y E
  if S = 0 then Dbl.fin (zero (x.sign && y.sign))
  else round (decide (S < 0)) S.natAbs E

/-- The product of two finite values. -/
def mul (x y : B64) : Dbl B64 := round (x.sign != y.sign) (x.m * y.m) (x.e + y.e)

/-- The quotient of two finite values: 128 more binary digits than the dividend, and one
digit that records whether the division left a remainder. -/
def div (x y : B64) : Dbl B64 :=
  if y.m = 0 then (if x.m = 0 then Dbl.nan else inf (x.sign != y.sign))
  else if x.m = 0 then Dbl.fin (zero (x.sign != y.sign))
  else
    let n := x.m * 2 ^ 128
    let q := n / y.m
    let r := n % y.m
    round (x.sign != y.sign) (2 * q + (if r = 0 then 0 else 1)) (x.e - y.e - 129)

/-- The loop of the integer square root: the binary digits from `2^(i-1)` down. -/
def isqrt_loop (M : Nat) : Nat → Nat → Nat
  | 0, r => r
  | i + 1, r => if (r + 2 ^ i) * (r + 2 ^ i) ≤ M then isqrt_loop M i (r + 2 ^ i)
      else isqrt_loop M i r

/-- The integer square root: the largest `r` with `r * r ≤ M`. -/
def isqrt (M : Nat) : Nat := isqrt_loop M (bits M / 2 + 1) 0

/-- The square root of a finite value that is not negative, correctly rounded. -/
def sqrt (x : B64) : B64 :=
  if x.m = 0 then x
  else
    let k : Int := if x.e % 2 = 0 then 128 else 129
    let M := x.m * 2 ^ k.toNat
    let s := isqrt M
    match round false (2 * s + (if s * s = M then 0 else 1)) ((x.e - k) / 2 - 1) with
    | Dbl.fin r => r
    | _ => x

/-- The comparison `x < y` of two finite values; the two zeros are equal. -/
def lt (x y : B64) : Bool := decide (scaled x (min x.e y.e) < scaled y (min x.e y.e))

/-- The comparison `x != y` of two finite values; the two zeros are equal. -/
def ne (x y : B64) : Bool := decide (scaled x (min x.e y.e) ≠ scaled y (min x.e y.e))

/-- The value of a finite double as a rational number. -/
def toRat (x : B64) : ℚ := (if x.sign then -1 else 1) * (x.m : ℚ) * (2 : ℚ) ^ x.e

end B64

namespace IEEE

/-- Unary minus: the sign is flipped, also on a zero. -/
def neg : Dbl B64 → Dbl B64
  | Dbl.fin x => Dbl.fin ⟨!x.sign, x.m, x.e⟩
  | Dbl.pinf => Dbl.ninf
  | Dbl.ninf => Dbl.pinf
  | Dbl.nan => Dbl.nan

/-- Addition of doubles. -/
def add : Dbl B64 → Dbl B64 → Dbl B64
  | Dbl.fin x, Dbl.fin y => B64.add x y
  | Dbl.fin _, Dbl.pinf => Dbl.pinf
  | Dbl.fin _, Dbl.ninf => Dbl.ninf
  | Dbl.pinf, Dbl.fin _ => Dbl.pinf
  | Dbl.pinf, Dbl.pinf => Dbl.pinf
  | Dbl.ninf, Dbl.fin _ => Dbl.ninf
  | Dbl.ninf, Dbl.ninf => Dbl.ninf
  | _, _ => Dbl.nan

/-- The product of an infinity of sign `s` and the finite value `x`. -/
def infTimes (s : Bool) (x : B64) : Dbl B64 :=
  if x.m = 0 then Dbl.nan else B64.inf (s != x.sign)

/-- Multiplication of doubles. -/
def mul : Dbl B64 → Dbl B64 → Dbl B64
  | Dbl.fin x, Dbl.fin y => B64.mul x y
  | Dbl.fin x, Dbl.pinf => infTimes false x
  | Dbl.fin x, Dbl.ninf => infTimes true x
  | Dbl.pinf, Dbl.fin y => infTimes false y
  | Dbl.ninf, Dbl.fin y => infTimes true y
  | Dbl.pinf, Dbl.pinf => Dbl.pinf
  | Dbl.ninf, Dbl.ninf => Dbl.pinf
  | Dbl.pinf, Dbl.ninf => Dbl.ninf
  | Dbl.ninf, Dbl.pinf => Dbl.ninf
  | _, _ => Dbl.nan

/-- Division of doubles; the sign of a zero divisor counts. -/
def div : Dbl B64 → Dbl B64 → Dbl B64
  | Dbl.fin x, Dbl.fin y => B64.div x y
  | Dbl.fin x, Dbl.pinf => Dbl.fin (B64.zero x.sign)
  | Dbl.fin x, Dbl.ninf => Dbl.fin (B64.zero (!x.sign))
  | Dbl.pinf, Dbl.fin y => B64.inf y.sign
  | Dbl.ninf, Dbl.fin y => B64.inf (!y.sign)
  | _, _ => Dbl.nan

/-- The C library `sqrt` lifted to the special values; `sqrt(-0.0)` is `-0.0`. -/
def sqrt (sqrtF : B64 → B64) : Dbl B64 → Dbl B64
  | Dbl.fin x => if x.sign = true ∧ x.m ≠ 0 then Dbl.nan else Dbl.fin (sqrtF x)
  | Dbl.pinf => Dbl.pinf
  | _ => Dbl.nan

/-- The comparison `a < b`; false as soon as one side is NaN. -/
def lt : Dbl B64 → Dbl B64 → Bool
  | Dbl.fin x, Dbl.fin y => B64.lt x y
  | Dbl.fin _, Dbl.pinf => true
  | Dbl.ninf, Dbl.fin _ => true
  | Dbl.ninf, Dbl.pinf => true
  | _, _ => false

/-- The comparison `a != b`; true as soon as one side is NaN. -/
def ne : Dbl B64 → Dbl B64 → Bool
  | Dbl.fin x, Dbl.fin y => B64.ne x y
  | Dbl.pinf, Dbl.pinf => false
  | Dbl.ninf, Dbl.ninf => false
  | _, _ => true

/-- The conversion `(unsigned char)` of a `double`: the value is truncated toward zero.  For a
value outside the range of `unsigned char` C leaves the conversion undefined; the model keeps
the low byte of the truncated value, and `0` for a value that is not finite. -/
def to_uchar : Dbl B64 → Nat
  | Dbl.fin x =>
    let t : Nat := if 0 ≤ x.e then x.m * 2 ^ x.e.toNat else x.m / 2 ^ (-x.e).toNat
    ((if x.sign then -(t : Int) else (t : Int)) % 256).toNat
  | _ => 0

end IEEE

/-- The binary64 arithmetic of IEEE 754 as a meaning of the operations on doubles. -/
instance ieeeArith : DblArith B64 where
  add := IEEE.add
  neg := IEEE.neg
  mul := IEEE.mul
  div := IEEE.div
  sqrt := IEEE.sqrt
  lt := IEEE.lt
  ne := IEEE.ne
  ofNat := fun n => B64.round false n 0
  ofInt := fun i => B64.round (decide (i < 0)) i.natAbs 0
  half := Dbl.fin ⟨false, 2 ^ 52, -53⟩

/-- Truncation toward zero as the conversion to `unsigned char` of a binary64 value. -/
instance ieeeConv : DblConv B64 where
  to_uchar := IEEE.to_uchar

/-- Facts about the comparisons and about a division by zero that hold in both arithmetics;
the statements about the loop of `raycast` over the objects rest on these alone. -/
structure DblLaws (F : Type) [DblArith F] : Prop where
  lt_asymm : ∀ a b : Dbl F, Dbl.lt a b = true → Dbl.lt b a = false
  ne_of_lt : ∀ a b : Dbl F, Dbl.lt a b = true → Dbl.ne a b = true
  ne_pinf : Dbl.ne (Dbl.pinf : Dbl F) Dbl.pinf = false
  lt_pinf_left : ∀ b : Dbl F, Dbl.lt Dbl.pinf b = false
  lt_ninf_right : ∀ a : Dbl F, Dbl.lt a Dbl.ninf = false
  lt_nan_right : ∀ a : Dbl F, Dbl.lt a Dbl.nan = false
  gt_minus_one : Dbl.gt (-(Dbl.lit 1) : Dbl F) (Dbl.lit 0) = false
  div_zero : ∀ a z : Dbl F, Dbl.ne z (Dbl.lit 0) = false →
    a / z = Dbl.pinf ∨ a / z = Dbl.ninf ∨ a / z = Dbl.nan

/-- What the development assumes of the C library `sqrt` on non-negative finite values. -/
def SqrtSpec {F : Type} [LinearOrderedField F] (sqrt : F → F) : Prop :=
  ∀ x : F, 0 ≤ x → 0 ≤ sqrt x ∧ sqrt x * sqrt x = x

/-! ## Vectors and the helpers of `raycast.h` -/

/-- A `double[3]`. -/
structure Vec3 (F : Type) where
  x : Dbl F
  y : Dbl F
  z : Dbl F
  deriving DecidableEq, Repr

/-- A vector of three finite components. -/
def Vec3.ofFin {F : Type} (a b c : F) : Vec3 F := ⟨Dbl.fin a, Dbl.fin b, Dbl.fin c⟩

section Intersections

variable {F : Type} [DblArith F]

/-- Modelled from the spec: the header `raycast.h` is not part of the sources; `sqr` is its
squaring helper ("squared-length helpers"), `sqr(v) = v * v`. -/
def sqr (v : Dbl F) : Dbl F := v * v

/-- Modelled from the spec: the header `raycast.h` is not part of the sources; `normalize` is
its "3-component vector normalize", which divides each component by the Euclidean length. -/
def normalize (sqrt : F → F) (v : Vec3 F) : Vec3 F :=
  let len := Dbl.sqrt sqrt (sqr v.x + sqr v.y + sqr v.z)
  ⟨v.x / len, v.y / len, v.z / len⟩

/-- The function `sphere_intersection` of `raycast.c`. -/
def sphere_intersection (sqrt : F → F) (Ro Rd C : Vec3 F) (r : Dbl F) : Dbl F :=
  let a := sqr Rd.x + sqr Rd.y + sqr Rd.z
  let b := Dbl.lit 2 * (Rd.x * (Ro.x - C.x) + Rd.y * (Ro.y - C.y) + Rd.z * (Ro.z - C.z))
  let c := sqr (Ro.x - C.x) + sqr (Ro.y - C.y) + sqr (Ro.z - C.z) - sqr r
  let det := sqr b - Dbl.lit 4 * a * c
  if Dbl.lt det (Dbl.lit 0) then -(Dbl.lit 1)
  else
    let det := Dbl.sqrt sqrt det
    let t0 := (-b - det) / (Dbl.lit 2 * a)
    if Dbl.gt t0 (Dbl.lit 0) then t0
    else
      let t1 := (-b + det) / (Dbl.lit 2 * a)
      if Dbl.gt t1 (Dbl.lit 0) then t1
      else -(Dbl.lit 1)

/-- The function `plane_intersection` of `raycast.c`. -/
def plane_intersection (Ro Rd P N : Vec3 F) : Dbl F :=
  let D := -(N.x * P.x + N.y * P.y + N.z * P.z)
  let t := -(N.x * Ro.x + N.y * Ro.y + N.z * Ro.z + D) /
    (N.x * Rd.x + N.y * Rd.y + N.z * Rd.z)
  if Dbl.gt t (Dbl.lit 0) then t
  else -(Dbl.lit 1)

end Intersections

/-! ## The scene and the results of a run -/

/-- The `struct Object` of `raycast.h`, with the members `raycast.c` reads and writes:
`kind`, `color`, `plane.position`, `plane.normal`, `sphere.position`, `sphere.radius`.  The
members of `plane` and of `sphere` are kept apart. -/
structure Object (F : Type) where
  kind : Int
  color : Vec3 F
  plane_position : Vec3 F
  plane_normal : Vec3 F
  sphere_position : Vec3 F
  sphere_radius : Dbl F
  deriving DecidableEq, Repr

/-- One constructor for each message the program prints.  All of them but `worstSceneFile`
are followed by `exit(1)`.  `outOfBounds` stands for an access `objects[numObjects]` past the
end of the array, and `uninitObject` for a read through the unset pointer `object`. -/
inductive Err where
  | unexpectedEOF (line : Int)
  | expected (d : Char) (line : Int)
  | expectedString (line : Int)
  | stringTooLong
  | stringEscape
  | stringNotAscii
  | couldNotOpen
  | worstSceneFile
  | expectedTypeKey (line : Int)
  | unknownType (value : List Char) (line : Int)
  | unexpectedAttribute (key : List Char) (line : Int)
  | unknownProperty (key : List Char) (line : Int)
  | unexpectedValue (line : Int)
  | expectingCommaOrBracket (line : Int)
  | unrecognizedObject
  | outOfBounds
  | uninitObject
  deriving DecidableEq, Repr

/-- The outcome of a call: a normal return, `exit(1)` after a message, or a loop that is
still running when the fuel is used up. -/
inductive Res (α : Type) where
  | ok (a : α)
  | err (e : Err)
  | outOfFuel
  deriving DecidableEq, Repr

/-- Sequencing of calls: `exit(1)` and non-termination end the run. -/
def Res.bind {α β : Type} (r : Res α) (f : α → Res β) : Res β :=
  match r with
  | Res.ok a => f a
  | Res.err e => Res.err e
  | Res.outOfFuel => Res.outOfFuel

instance : Monad Res where
  pure := Res.ok
  bind := Res.bind

/-- The globals `numObjects`, `objects`, `cw`, `ch` of the program, and the messages written
to `stderr` by calls that returned. -/
structure Scene (F : Type) where
  numObjects : Nat
  objects : List (Object F)
  cw : Dbl F
  ch : Dbl F
  stderr : List Err
  deriving DecidableEq, Repr

/-! ## Reading characters -/

/-- The unread part of the input file together with the global `line`. -/
structure Cursor where
  input : List Char
  line : Int
  deriving DecidableEq, Repr

/-- The C library `isspace` in the "C" locale: space, `\t`, `\n`, `\v`, `\f`, `\r`. -/
def isspace (c : Char) : Bool := c.toNat = 32 || (9 ≤ c.toNat && c.toNat ≤ 13)

/-- The update of `line` in `next_c`. -/
def bump (c : Char) (line : Int) : Int := if c = Char.ofNat 10 then line + 1 else line

/-- The function `next_c` of `raycast.c`. -/
def next_c (cur : Cursor) : Res (Char × Cursor) :=
  match cur.input with
  | [] => Res.err (Err.unexpectedEOF cur.line)
  | c :: cs => Res.ok (c, ⟨cs, bump c cur.line⟩)

/-- The function `expect_c` of `raycast.c`. -/
def expect_c (cur : Cursor) (d : Char) : Res Cursor := do
  let (c, cur) ← next_c cur
  if c = d then Res.ok cur
  else Res.err (Err.expected d cur.line)

/-- The loop of `skip_ws`: one `next_c` per turn, the first character that is not white
space is pushed back. -/
def skip_ws_loop : List Char → Int → Res Cursor
  | [], line => Res.err (Err.unexpectedEOF line)
  | c :: cs, line =>
    if isspace c then skip_ws_loop cs (bump c line)
    else Res.ok ⟨c :: cs, bump c line⟩

/-- The function `skip_ws` of `raycast.c`. -/
def skip_ws (cur : Cursor) : Res Cursor := skip_ws_loop cur.input cur.line

/-- The loop `while (c != '"')` of `next_string`; `buffer` holds the `i` characters stored
so far and each turn ends with a `next_c`. -/
def next_string_loop : List Char → Int → List Char → Res (List Char × Cursor)
  | [], line, _ => Res.err (Err.unexpectedEOF line)
  | c :: cs, line, buffer =>
    if c = '"' then Res.ok (buffer, ⟨cs, bump c line⟩)
    else if buffer.length ≥ 128 then Res.err Err.stringTooLong
    else if c = '\\' then Res.err Err.stringEscape
    else if c.toNat < 32 ∨ c.toNat > 126 then Res.err Err.stringNotAscii
    else next_string_loop cs (bump c line) (buffer ++ [c])

/-- The function `next_string` of `raycast.c`. -/
def next_string (cur : Cursor) : Res (List Char × Cursor) := do
  let (c, cur) ← next_c cur
  if c ≠ '"' then Res.err (Err.expectedString cur.line)
  else next_string_loop cur.input cur.line []

/-- The characters `next_string` stores: printable ASCII other than the backslash and the
double quote. -/
def StringChar (c : Char) : Prop :=
  32 ≤ c.toNat ∧ c.toNat ≤ 126 ∧ c ≠ '\\' ∧ c ≠ '"'

/-- The part of the C library the parser calls: `fscanf(json, "%lf", &value)` maps the unread
input to the converted value, if any, and the input left unread.  `indeterminate` is the
value of the uninitialised local `value` when nothing was converted. -/
structure Stdio (F : Type) where
  scanf_lf : List Char → Option (Dbl F) × List Char
  indeterminate : Dbl F

/-- The C library `isdigit`. -/
def isdigit (c : Char) : Bool := 48 ≤ c.toNat && c.toNat ≤ 57

/-- The number written by a list of decimal digits. -/
def digits_value (ds : List Char) : Nat :=
  ds.foldl (fun n c => 10 * n + (c.toNat - 48)) 0

/-- The optional sign of a number: whether it is `-`, and the input behind it. -/
def scan_sign : List Char → Bool × List Char
  | '-' :: cs => (true, cs)
  | '+' :: cs => (false, cs)
  | cs => (false, cs)

/-- The optional part `.ddd` of a number: its digits and the input behind it. -/
def scan_fraction : List Char → List Char × List Char
  | '.' :: cs => (cs.takeWhile isdigit, cs.dropWhile isdigit)
  | cs => ([], cs)

/-- The optional part `e±ddd` of a number, taken only when a digit follows: the factor
`10^±ddd` is applied to `m`. -/
def scan_exponent {F : Type} [LinearOrderedField F] (m : F) (s : List Char) : F × List Char :=
  match s with
  | c :: cs =>
    if c = 'e' ∨ c = 'E' then
      if (scan_sign cs).2.takeWhile isdigit = [] then (m, s)
      else if (scan_sign cs).1 then
        (m / 10 ^ digits_value ((scan_sign cs).2.takeWhile isdigit),
          (scan_sign cs).2.dropWhile isdigit)
      else
        (m * 10 ^ digits_value ((scan_sign cs).2.takeWhile isdigit),
          (scan_sign cs).2.dropWhile isdigit)
    else (m, s)
  | [] => (m, s)

/-- The conversion of the text `s1` behind the sign: `ddd[.ddd][e[+-]ddd]` with at least one
digit in `ddd[.ddd]`.  Without a digit nothing is converted and the input stays at `s0`. -/
def scan_unsigned {F : Type} [LinearOrderedField F] (s0 : List Char) (neg : Bool)
    (s1 : List Char) : Option (Dbl F) × List Char :=
  if s1.takeWhile isdigit = [] ∧ (scan_fraction (s1.dropWhile isdigit)).1 = [] then (none, s0)
  else
    (some (Dbl.fin
      (if neg then
        -(scan_exponent
          ((digits_value (s1.takeWhile isdigit) : F) +
            (digits_value (scan_fraction (s1.dropWhile isdigit)).1 : F) /
              10 ^ (scan_fraction (s1.dropWhile isdigit)).1.length)
          (scan_fraction (s1.dropWhile isdigit)).2).1
      else
        (scan_exponent
          ((digits_value (s1.takeWhile isdigit) : F) +
            (digits_value (scan_fraction (s1.dropWhile isdigit)).1 : F) /
              10 ^ (scan_fraction (s1.dropWhile isdigit)).1.length)
          (scan_fraction (s1.dropWhile isdigit)).2).1)),
      (scan_exponent
        ((digits_value (s1.takeWhile isdigit) : F) +
          (digits_value (scan_fraction (s1.dropWhile isdigit)).1 : F) /
            10 ^ (scan_fraction (s1.dropWhile isdigit)).1.length)
        (scan_fraction (s1.dropWhile isdigit)).2).2)

/-- A model of `fscanf(json, "%lf", &value)` for decimal numbers: white space is skipped,
then the longest text `[+-]ddd[.ddd][e[+-]ddd]` with at least one digit in `ddd[.ddd]` is
converted.  Without a digit nothing is converted and the input stays at the first character
behind the white space. -/
def scanf_lf_decimal {F : Type} [LinearOrderedField F] (s : List Char) :
    Option (Dbl F) × List Char :=
  scan_unsigned (s.dropWhile isspace) (scan_sign (s.dropWhile isspace)).1
    (scan_sign (s.dropWhile isspace)).2

/-- The C library as the examples use it: decimal numbers, and `NaN` for the value of an
uninitialised `double`. -/
def stdio_decimal (F : Type) [LinearOrderedField F] : Stdio F :=
  ⟨scanf_lf_decimal, Dbl.nan⟩

/-- The function `next_number` of `raycast.c`: the result of `fscanf` is not checked. -/
def next_number {F : Type} (io : Stdio F) (cur : Cursor) : Dbl F × Cursor :=
  match io.scanf_lf cur.input with
  | (some value, rest) => (value, ⟨rest, cur.line⟩)
  | (none, rest) => (io.indeterminate, ⟨rest, cur.line⟩)

/-- The function `next_vector` of `raycast.c`. -/
def next_vector {F : Type} (io : Stdio F) (cur : Cursor) : Res (Vec3 F × Cursor) := do
  let cur ← expect_c cur '['
  let cur ← skip_ws cur
  let (v0, cur) := next_number io cur
  let cur ← skip_ws cur
  let cur ← expect_c cur ','
  let cur ← skip_ws cur
  let (v1, cur) := next_number io cur
  let cur ← skip_ws cur
  let cur ← expect_c cur ','
  let cur ← skip_ws cur
  let (v2, cur) := next_number io cur
  let cur ← skip_ws cur
  let cur ← expect_c cur ']'
  Res.ok (⟨v0, v1, v2⟩, cur)

/-! ## The parser -/

/-- The state of `read_scene`: the cursor, the local `camFlag` and the globals. -/
structure PState (F : Type) where
  cur : Cursor
  camFlag : Bool
  g : Scene F

/-- The read `objects[numObjects]->kind`. -/
def current_kind {F : Type} (g : Scene F) : Res Int :=
  match g.objects.get? g.numObjects with
  | some o => Res.ok o.kind
  | none => Res.err Err.outOfBounds

/-- A write to a member of `objects[numObjects]`. -/
def set_current {F : Type} (g : Scene F) (f : Object F → Object F) : Res (Scene F) :=
  match g.objects.get? g.numObjects with
  | some o => Res.ok { g with objects := g.objects.set g.numObjects (f o) }
  | none => Res.err Err.outOfBounds

/-- The chain `if (strcmp(key, "width") == 0) ... else ...` of `read_scene` (lines 278-344):
the value of the field `key` is read and stored. -/
def read_field {F : Type} (io : Stdio F) (key : List Char) (st : PState F) :
    Res (PState F) :=
  if key = "width".toList then
    let (value, cur) := next_number io st.cur
    if st.camFlag then Res.ok { st with cur := cur, g := { st.g with cw := value } }
    else Res.err (Err.unexpectedAttribute key cur.line)
  else if key = "height".toList then
    let (value, cur) := next_number io st.cur
    if st.camFlag then Res.ok { st with cur := cur, g := { st.g with ch := value } }
    else Res.err (Err.unexpectedAttribute key cur.line)
  else if key = "radius".toList then
    let (value, cur) := next_number io st.cur
    if st.camFlag then Res.err (Err.unexpectedAttribute key cur.line)
    else do
      let kind ← current_kind st.g
      if kind = 1 then
        let g ← set_current st.g (fun o => { o with sphere_radius := value })
        Res.ok { st with cur := cur, g := g }
      else Res.err (Err.unexpectedAttribute key cur.line)
  else if key = "color".toList then do
    let (value, cur) ← next_vector io st.cur
    if st.camFlag then Res.err (Err.unexpectedAttribute key cur.line)
    else
      let g ← set_current st.g (fun o => { o with color := value })
      Res.ok { st with cur := cur, g := g }
  else if key = "position".toList then do
    let (value, cur) ← next_vector io st.cur
    if st.camFlag then Res.err (Err.unexpectedAttribute key cur.line)
    else
      let kind ← current_kind st.g
      if kind = 0 then
        let g ← set_current st.g (fun o => { o with plane_position := value })
        Res.ok { st with cur := cur, g := g }
      else if kind = 1 then
        let g ← set_current st.g (fun o => { o with sphere_position := value })
        Res.ok { st with cur := cur, g := g }
      else Res.err (Err.unexpectedAttribute key cur.line)
  else if key = "normal".toList then do
    let (value, cur) ← next_vector io st.cur
    if st.camFlag then Res.err (Err.unexpectedAttribute key cur.line)
    else
      let kind ← current_kind st.g
      if kind = 0 then
        let g ← set_current st.g (fun o => { o with plane_normal := value })
        Res.ok { st with cur := cur, g := g }
      else Res.err (Err.unexpectedAttribute key cur.line)
  else Res.err (Err.unknownProperty key st.cur.line)

/-- The loop `while (1)` over the fields of one object (lines 265-351). -/
def fields_loop {F : Type} (io : Stdio F) : Nat → PState F → Res (PState F)
  | 0, _ => Res.outOfFuel
  | fuel + 1, st => do
    let (c, cur) ← next_c st.cur
    if c = '}' then Res.ok { st with cur := cur }
    else if c = ',' then do
      let cur ← skip_ws cur
      let (key, cur) ← next_string cur
      let cur ← skip_ws cur
      let cur ← expect_c cur ':'
      let cur ← skip_ws cur
      let st ← read_field io key { st with cur := cur }
      let cur ← skip_ws st.cur
      fields_loop io fuel { st with cur := cur }
    else Res.err (Err.unexpectedValue cur.line)

/-- The head of an object literal (lines 234-263): the key `"type"` and its value. -/
def read_type {F : Type} (st : PState F) : Res (PState F) := do
  let cur ← skip_ws st.cur
  let (key, cur) ← next_string cur
  if key ≠ "type".toList then Res.err (Err.expectedTypeKey cur.line)
  else do
    let cur ← skip_ws cur
    let cur ← expect_c cur ':'
    let cur ← skip_ws cur
    let (value, cur) ← next_string cur
    let st ←
      if value = "camera".toList then Res.ok { st with camFlag := true }
      else if value = "sphere".toList then do
        let g ← set_current st.g (fun o => { o with kind := 1 })
        Res.ok { st with g := g }
      else if value = "plane".toList then do
        let g ← set_current st.g (fun o => { o with kind := 0 })
        Res.ok { st with g := g }
      else Res.err (Err.unknownType value cur.line)
    let cur ← skip_ws cur
    Res.ok { st with cur := cur }

/-- An object literal behind its `{` (lines 234-358): the type, the fields, and then either
the end of a camera or `numObjects++`. -/
def read_object {F : Type} (io : Stdio F) (fuel : Nat) (st : PState F) : Res (PState F) := do
  let st ← read_type st
  let st ← fields_loop io fuel st
  if st.camFlag then Res.ok { st with camFlag := false }
  else Res.ok { st with g := { st.g with numObjects := st.g.numObjects + 1 } }

/-- The loop `while (1)` over the objects of the scene (lines 226-374).  The character is
read with `fgetc`: `line` is not updated and the end of the file is not an error. -/
def objects_loop {F : Type} (io : Stdio F) : Nat → PState F → Res (Scene F)
  | 0, _ => Res.outOfFuel
  | fuel + 1, st =>
    match st.cur.input with
    | [] => objects_loop io fuel st
    | c :: cs =>
      let st := { st with cur := { st.cur with input := cs } }
      if c = ']' then Res.ok { st.g with stderr := st.g.stderr ++ [Err.worstSceneFile] }
      else if c = '{' then do
        let st ← read_object io fuel st
        let cur ← skip_ws st.cur
        let (c, cur) ← next_c cur
        if c = ',' then do
          let cur ← skip_ws cur
          objects_loop io fuel { st with cur := cur }
        else if c = ']' then Res.ok st.g
        else Res.err (Err.expectingCommaOrBracket cur.line)
      else objects_loop io fuel st

/-- The function `read_scene` of `raycast.c`.  `file` is the content of the file, `none`
when it cannot be opened; `line` is the value of the global `line` at the call and `g` the
globals at the call. -/
def read_scene {F : Type} (io : Stdio F) (fuel : Nat) (file : Option (List Char))
    (line : Int) (g : Scene F) : Res (Scene F) :=
  match file with
  | none => Res.err Err.couldNotOpen
  | some input => do
    let g := { g with numObjects := 0 }
    let cur ← skip_ws ⟨input, line⟩
    let cur ← expect_c cur '['
    let cur ← skip_ws cur
    objects_loop io fuel ⟨cur, false, g⟩

/-! ## Scene files

The text of a well-formed scene file, described independently of the parser: a list of object
literals, each with the white space between its tokens. -/

/-- A number as it is written in the file, with the value `fscanf` converts it to. -/
structure NumLit (F : Type) where
  text : List Char
  value : Dbl F

/-- A vector `[n, n, n]` with the white space around its numbers. -/
structure VecLit (F : Type) where
  w1 : List Char
  n1 : NumLit F
  w2 : List Char
  w3 : List Char
  n2 : NumLit F
  w4 : List Char
  w5 : List Char
  n3 : NumLit F
  w6 : List Char

/-- The text of a vector, in front of the text `rest`. -/
def VecLit.text {F : Type} (v : VecLit F) (rest : List Char) : List Char :=
  '[' :: (v.w1 ++ (v.n1.text ++ (v.w2 ++ ',' :: (v.w3 ++ (v.n2.text ++ (v.w4 ++
    ',' :: (v.w5 ++ (v.n3.text ++ (v.w6 ++ ']' :: rest)))))))))

/-- The value of a vector. -/
def VecLit.value {F : Type} (v : VecLit F) : Vec3 F := ⟨v.n1.value, v.n2.value, v.n3.value⟩

/-- The value of a field: a number or a vector. -/
inductive FieldValue (F : Type) where
  | number (n : NumLit F)
  | vector (v : VecLit F)

/-- The text of the value of a field, in front of the text `rest`. -/
def FieldValue.text {F : Type} : FieldValue F → List Char → List Char
  | FieldValue.number n, rest => n.text ++ rest
  | FieldValue.vector v, rest => v.text rest

/-- A field `, "key" : value` with the white space behind the comma, the key, the colon and
the value. -/
structure FieldLit (F : Type) where
  w1 : List Char
  key : List Char
  w2 : List Char
  w3 : List Char
  value : FieldValue F
  w4 : List Char

/-- The text of a field, in front of the text `rest`. -/
def FieldLit.text {F : Type} (f : FieldLit F) (rest : List Char) : List Char :=
  ',' :: (f.w1 ++ '"' :: (f.key ++ '"' :: (f.w2 ++ ':' :: (f.w3 ++
    f.value.text (f.w4 ++ rest)))))

/-- The three values of `"type"`. -/
inductive Variant where
  | camera
  | sphere
  | plane
  deriving DecidableEq, Repr

/-- The string that names a variant in the file. -/
def Variant.name : Variant → List Char
  | Variant.camera => "camera".toList
  | Variant.sphere => "sphere".toList
  | Variant.plane => "plane".toList

/-- The value of `kind` for the objects of a variant: `1` for a sphere, `0` for a plane. -/
def Variant.kind : Variant → Int
  | Variant.sphere => 1
  | _ => 0

/-- An object literal `{ "type" : "variant" fields }` with the white space behind the brace,
the key, the colon, the variant and the closing brace, and the white space `w6` behind the
comma that separates it from the next object. -/
structure ObjectLit (F : Type) where
  w1 : List Char
  w2 : List Char
  w3 : List Char
  type : Variant
  w4 : List Char
  fields : List (FieldLit F)
  w5 : List Char
  w6 : List Char

/-- The text of a list of fields, in front of the text `rest`. -/
def fields_text {F : Type} : List (FieldLit F) → List Char → List Char
  | [], rest => rest
  | f :: fs, rest => f.text (fields_text fs rest)

/-- The text of an object literal, up to the white space behind its closing brace, in front
of the text `rest`. -/
def ObjectLit.text {F : Type} (o : ObjectLit F) (rest : List Char) : List Char :=
  '{' :: (o.w1 ++ '"' :: ("type".toList ++ '"' :: (o.w2 ++ ':' :: (o.w3 ++
    '"' :: (o.type.name ++ '"' :: (o.w4 ++ fields_text o.fields ('}' :: (o.w5 ++ rest))))))))

/-- The text of the objects of a scene: the literals separated by commas, then `]` and
whatever follows in the file. -/
def objects_text {F : Type} : List (ObjectLit F) → List Char → List Char
  | [], trailing => ']' :: trailing
  | [o], trailing => o.text (']' :: trailing)
  | o :: p :: os, trailing => o.text (',' :: (o.w6 ++ objects_text (p :: os) trailing))

/-- The text of a scene file: white space, `[`, white space, the objects, `]`. -/
def scene_text {F : Type} (w0 w1 : List Char) (objs : List (ObjectLit F))
    (trailing : List Char) : List Char :=
  w0 ++ '[' :: (w1 ++ objects_text objs trailing)

/-- White space. -/
def White (w : List Char) : Prop := ∀ c ∈ w, isspace c = true

/-- A text that starts with a character which ends a number of a scene file: white space, a
comma or a closing bracket or brace. -/
def Delimited (rest : List Char) : Prop :=
  ∃ c cs, rest = c :: cs ∧ (isspace c = true ∨ c = ',' ∨ c = ']' ∨ c = '}')

/-- A number literal is well formed when it starts with a character that is not white space
and `fscanf` converts exactly its text to its value, whatever delimited text follows. -/
def NumLit.WF {F : Type} (io : Stdio F) (n : NumLit F) : Prop :=
  (∃ c cs, n.text = c :: cs ∧ isspace c = false) ∧
  ∀ rest, Delimited rest → io.scanf_lf (n.text ++ rest) = (some n.value, rest)

/-- A vector literal is well formed. -/
def VecLit.WF {F : Type} (io : Stdio F) (v : VecLit F) : Prop :=
  White v.w1 ∧ White v.w2 ∧ White v.w3 ∧ White v.w4 ∧ White v.w5 ∧ White v.w6 ∧
  v.n1.WF io ∧ v.n2.WF io ∧ v.n3.WF io

/-- The field table of the scene format: which key, with which shape of value, is valid on
which variant. -/
def field_valid {F : Type} (t : Variant) (key : List Char) (value : FieldValue F) : Prop :=
  match t, value with
  | Variant.camera, FieldValue.number _ => key = "width".toList ∨ key = "height".toList
  | Variant.sphere, FieldValue.number _ => key = "radius".toList
  | Variant.sphere, FieldValue.vector _ => key = "color".toList ∨ key = "position".toList
  | Variant.plane, FieldValue.vector _ =>
    key = "color".toList ∨ key = "position".toList ∨ key = "normal".toList
  | _, _ => False

/-- A field literal is well formed for the variant `t`. -/
def FieldLit.WF {F : Type} (io : Stdio F) (t : Variant) (f : FieldLit F) : Prop :=
  White f.w1 ∧ White f.w2 ∧ White f.w3 ∧ White f.w4 ∧ field_valid t f.key f.value ∧
  match f.value with
  | FieldValue.number n => n.WF io
  | FieldValue.vector v => v.WF io

/-- An object literal is well formed. -/
def ObjectLit.WF {F : Type} (io : Stdio F) (o : ObjectLit F) : Prop :=
  White o.w1 ∧ White o.w2 ∧ White o.w3 ∧ White o.w4 ∧ White o.w5 ∧ White o.w6 ∧
  ∀ f ∈ o.fields, f.WF io o.type

/-- The number of literals that are not cameras. -/
def count_objects {F : Type} (objs : List (ObjectLit F)) : Nat :=
  (objs.filter (fun o => o.type ≠ Variant.camera)).length

/-- The object a field describes, from the object before the field: what the field table
calls the effect of the key. -/
def store_field {F : Type} (f : FieldLit F) (o : Object F) : Object F :=
  match f.value with
  | FieldValue.number n =>
    if f.key = "radius".toList then { o with sphere_radius := n.value } else o
  | FieldValue.vector v =>
    if f.key = "color".toList then { o with color := v.value }
    else if f.key = "position".toList then
      if o.kind = 0 then { o with plane_position := v.value }
      else { o with sphere_position := v.value }
    else if f.key = "normal".toList then { o with plane_normal := v.value }
    else o

/-- The object a sphere or plane literal describes, from the content of its slot before the
literal: the kind of the variant, then the fields in the order of the file. -/
def build_object {F : Type} (lit : ObjectLit F) (o : Object F) : Object F :=
  lit.fields.foldl (fun o f => store_field f o) { o with kind := lit.type.kind }

/-- The array `objects` a list of sphere and plane literals describes: literal `i` is built
in slot `i`, the slots behind the last literal keep their content. -/
def build_objects {F : Type} : List (ObjectLit F) → List (Object F) → List (Object F)
  | l :: ls, o :: os => build_object l o :: build_objects ls os
  | _, os => os

/-- The view dimensions `(cw, ch)` after a field of a camera. -/
def store_camera_field {F : Type} (f : FieldLit F) (d : Dbl F × Dbl F) : Dbl F × Dbl F :=
  match f.value with
  | FieldValue.number n =>
    if f.key = "width".toList then (n.value, d.2)
    else if f.key = "height".toList then (d.1, n.value)
    else d
  | FieldValue.vector _ => d

/-- The view dimensions `(cw, ch)` after the literals of a file. -/
def camera_dims {F : Type} (objs : List (ObjectLit F)) (d : Dbl F × Dbl F) : Dbl F × Dbl F :=
  objs.foldl (fun d o =>
    if o.type = Variant.camera then o.fields.foldl (fun d f => store_camera_field f d) d
    else d) d

/-- The number literal written with the decimal digits `ds`. -/
def NumLit.digits {F : Type} [LinearOrderedField F] (ds : List Char) : NumLit F :=
  ⟨ds, Dbl.fin (digits_value ds : F)⟩

/-- The field table without the shapes of the values: the keys valid on each variant. -/
def valid_on (t : Variant) (key : List Char) : Prop :=
  match t with
  | Variant.camera => key = "width".toList ∨ key = "height".toList
  | Variant.sphere => key = "radius".toList ∨ key = "color".toList ∨ key = "position".toList
  | Variant.plane => key = "color".toList ∨ key = "position".toList ∨ key = "normal".toList

/-- The state of `read_scene` inside an object literal of variant `t`: `camFlag` is set for a
camera, and `objects[numObjects]->kind` is `1` for a sphere and `0` for a plane. -/
def PState.inside {F : Type} (st : PState F) (t : Variant) : Prop :=
  match t with
  | Variant.camera => st.camFlag = true
  | Variant.sphere => st.camFlag = false ∧ current_kind st.g = Res.ok 1
  | Variant.plane => st.camFlag = false ∧ current_kind st.g = Res.ok 0

/-- The globals with `f` applied to `objects[numObjects]`, everything else unchanged. -/
def map_current {F : Type} (g : Scene F) (f : Object F → Object F) : Scene F :=
  match g.objects.get? g.numObjects with
  | some o => { g with objects := g.objects.set g.numObjects (f o) }
  | none => g

/-- The globals after a field of an object of variant `t`: a field of a camera changes `cw`
or `ch`, a field of a sphere or plane changes `objects[numObjects]`. -/
def field_effect {F : Type} (t : Variant) (f : FieldLit F) (g : Scene F) : Scene F :=
  match t with
  | Variant.camera =>
    { g with cw := (store_camera_field f (g.cw, g.ch)).1,
             ch := (store_camera_field f (g.cw, g.ch)).2 }
  | _ => map_current g (store_field f)

/-- Fuel that is enough for the loops of `read_scene` on the literals `objs`: for each
literal one turn of the loop over the objects and one turn per field, plus one, of the loop
over the fields. -/
def fuel_needed {F : Type} : List (ObjectLit F) → Nat
  | [] => 0
  | l :: ls => l.fields.length + 2 + fuel_needed ls

/-- The scene a well-formed file describes, from the globals before the call. -/
def described_scene {F : Type} (objs : List (ObjectLit F)) (g : Scene F) : Scene F :=
  ⟨count_objects objs,
    build_objects (objs.filter (fun o => o.type ≠ Variant.camera)) g.objects,
    (camera_dims objs (g.cw, g.ch)).1, (camera_dims objs (g.cw, g.ch)).2, g.stderr⟩

/-! ## The renderer -/

/-- The `struct RGBpixel` of `raycast.h`: three `unsigned char` channels. -/
structure RGBpixel where
  R : Nat
  G : Nat
  B : Nat
  deriving DecidableEq, Repr

section Rendering

variable {F : Type} [DblArith F] [DblConv F]

/-- The conversion `(unsigned char)` of a `double`. -/
def to_uchar (v : Dbl F) : Nat := DblConv.to_uchar v

/-- The dispatch on `objects[i]->kind` in `raycast` (lines 79-88). -/
def object_distance (sqrt : F → F) (Ro Rd : Vec3 F) (o : Object F) : Res (Dbl F) :=
  if o.kind = 0 then Res.ok (plane_intersection Ro Rd o.plane_position o.plane_normal)
  else if o.kind = 1 then
    Res.ok (sphere_intersection sqrt Ro Rd o.sphere_position o.sphere_radius)
  else Res.err Err.unrecognizedObject

/-- The loop over the objects in `raycast` (lines 75-95), with the locals `best_t` and
`object`; `none` is the pointer `object` before its first assignment. -/
def closest_loop (sqrt : F → F) (Ro Rd : Vec3 F) :
    List (Object F) → Dbl F → Option (Object F) → Res (Dbl F × Option (Object F))
  | [], best_t, object => Res.ok (best_t, object)
  | o :: os, best_t, object => do
    let t ← object_distance sqrt Ro Rd o
    if Dbl.gt t (Dbl.lit 0) && Dbl.lt t best_t then closest_loop sqrt Ro Rd os t (some o)
    else closest_loop sqrt Ro Rd os best_t object

/-- The pixel stored for the object `object` (lines 98-100): each component of its colour
times `maxColor`, converted to `unsigned char`. -/
def object_pixel (maxColor : Int) (object : Object F) : RGBpixel :=
  ⟨to_uchar (object.color.x * Dbl.ofInt maxColor),
    to_uchar (object.color.y * Dbl.ofInt maxColor),
    to_uchar (object.color.z * Dbl.ofInt maxColor)⟩

/-- The colour of the pixel whose ray is `Ro`, `Rd` (lines 73-106 of `raycast`). -/
def shade (sqrt : F → F) (maxColor : Int) (objs : List (Object F)) (Ro Rd : Vec3 F) :
    Res RGBpixel := do
  let (best_t, object) ← closest_loop sqrt Ro Rd objs Dbl.pinf none
  if Dbl.gt best_t (Dbl.lit 0) && Dbl.ne best_t Dbl.pinf then
    match object with
    | some o => Res.ok (object_pixel maxColor o)
    | none => Res.err Err.uninitObject
  else Res.ok ⟨255, 255, 255⟩

/-- The literal `0.5`. -/
def half : Dbl F := DblArith.half

/-- The coordinate `x_coord` of column `x` (line 68), with `cx = 0`. -/
def x_coord (cw : Dbl F) (N : Int) (x : Nat) : Dbl F :=
  Dbl.lit 0 - (cw / Dbl.lit 2) + (cw / Dbl.ofInt N) * (Dbl.lit x + half)

/-- The coordinate `y_coord` of row `y` (line 64), with `cy = 0`. -/
def y_coord (ch : Dbl F) (M : Int) (y : Nat) : Dbl F :=
  Dbl.lit 0 - (ch / Dbl.lit 2) + (ch / Dbl.ofInt M) * (Dbl.lit y + half)

/-- The body of the loop over the columns (lines 68-106): the pixel of column `x` in the row
whose coordinate is `yc`. -/
def pixel (sqrt : F → F) (maxColor : Int) (N : Int) (g : Scene F) (yc : Dbl F) (x : Nat) :
    Res RGBpixel :=
  let Ro : Vec3 F := ⟨Dbl.lit 0, Dbl.lit 0, Dbl.lit 0⟩
  let Rd : Vec3 F := normalize sqrt ⟨x_coord g.cw N x, yc, Dbl.lit 1⟩
  shade sqrt maxColor (g.objects.take g.numObjects) Ro Rd

/-- The loop `for (x = ...; x < N; x++)`: the pixels of the columns `x, x+1, ...` of one row,
`n` of them, in the order they are stored. -/
def raycast_row (sqrt : F → F) (maxColor : Int) (N : Int) (g : Scene F) (yc : Dbl F) :
    Nat → Nat → Res (List RGBpixel)
  | 0, _ => Res.ok []
  | n + 1, x => do
    let p ← pixel sqrt maxColor N g yc x
    let ps ← raycast_row sqrt maxColor N g yc n (x + 1)
    Res.ok (p :: ps)

/-- The loop `for (y = ...; y < M; y++)`: the pixels of the rows `y, y+1, ...`, `m` rows. -/
def raycast_rows (sqrt : F → F) (maxColor : Int) (M N : Int) (g : Scene F) :
    Nat → Nat → Res (List RGBpixel)
  | 0, _ => Res.ok []
  | m + 1, y => do
    let row ← raycast_row sqrt maxColor N g (y_coord g.ch M y) N.toNat 0
    let rows ← raycast_rows sqrt maxColor M N g m (y + 1)
    Res.ok (row ++ rows)

/-- The function `raycast` of `raycast.c` up to the call of `writeP3`: the entries
`pixmap[0]`, `pixmap[1]`, ... in the order they are stored.  `M` and `N` are the globals set
from the command line and `maxColor` the constant of `raycast.h`. -/
def raycast (sqrt : F → F) (maxColor : Int) (M N : Int) (g : Scene F) : Res (List RGBpixel) :=
  raycast_rows sqrt maxColor M N g M.toNat 0

end Rendering

/-! ## Example data -/

/-- A plane through `(0,0,z)` with normal `(0,0,1)` and the given colour. -/
def plane_at (z : ℚ) (color : Vec3 ℚ) : Object ℚ :=
  ⟨0, color, Vec3.ofFin 0 0 z, Vec3.ofFin 0 0 1, Vec3.ofFin 0 0 0, Dbl.fin 0⟩

/-- The colour red. -/
def red : Vec3 ℚ := Vec3.ofFin 1 0 0

/-- The colour blue. -/
def blue : Vec3 ℚ := Vec3.ofFin 0 0 1

/-- A red sphere of radius 1 centred at `(0,0,5)`. -/
def unit_sphere : Object ℚ :=
  ⟨1, red, Vec3.ofFin 0 0 0, Vec3.ofFin 0 0 0, Vec3.ofFin 0 0 5, Dbl.fin 1⟩

/-- A state of `read_scene` inside the literal of a sphere, in front of the text `input`. -/
def sphere_state (input : List Char) : PState ℚ :=
  ⟨⟨input, 1⟩, false, ⟨0, [unit_sphere], Dbl.fin 2, Dbl.fin 2, []⟩⟩

/-- The field `, "radius": 3 ` of a scene file. -/
def radius_field : FieldLit ℚ :=
  ⟨[' '], "radius".toList, [], [' '], FieldValue.number (NumLit.digits ['3']), [' ']⟩

/-- The number literal written `s`. -/
def num (s : String) : NumLit ℚ := NumLit.digits s.toList

/-- The vector literal `[a,b,c]`, without white space. -/
def vec3 (a b c : String) : VecLit ℚ := ⟨[], num a, [], [], num b, [], [], num c, []⟩

/-- The literal `{ "type": "camera", "width": 2, "height": 2 }`, followed by a comma, a line
break and two spaces. -/
def camera_lit : ObjectLit ℚ :=
  ⟨[' '], [], [' '], Variant.camera, [],
    [⟨[' '], "width".toList, [], [' '], FieldValue.number (num "2"), []⟩,
     ⟨[' '], "height".toList, [], [' '], FieldValue.number (num "2"), [' ']⟩],
    [], [Char.ofNat 10, ' ', ' ']⟩

/-- The literal `{ "type": "sphere", "position": [0,0,5], "radius": 1, "color": [1,0,0] }`,
followed by a line break. -/
def sphere_lit : ObjectLit ℚ :=
  ⟨[' '], [], [' '], Variant.sphere, [],
    [⟨[' '], "position".toList, [], [' '], FieldValue.vector (vec3 "0" "0" "5"), []⟩,
     ⟨[' '], "radius".toList, [], [' '], FieldValue.number (num "1"), []⟩,
     ⟨[' '], "color".toList, [], [' '], FieldValue.vector (vec3 "1" "0" "0"), [' ']⟩],
    [Char.ofNat 10], []⟩

/-- The example scene file of the specification. -/
def example_file : List Char :=
  ("[\n  \x7b \"type\": \"camera\", \"width\": 2, \"height\": 2 \x7d,\n" ++
   "  \x7b \"type\": \"sphere\", \"position\": [0,0,5], \"radius\": 1, \"color\": [1,0,0] \x7d\n" ++
   "]\n").toList

/-- The globals at the call of `read_scene` in the examples: two slots in `objects`, which
hold planes, and view dimensions `1`. -/
def example_globals : Scene ℚ :=
  ⟨7, [plane_at 1 blue, plane_at 2 blue], Dbl.fin 1, Dbl.fin 1, []⟩

/-- The ray origin of `raycast`: the camera at `(0,0,0)`. -/
def origin : Vec3 ℚ := Vec3.ofFin 0 0 0

/-- The ray direction `(0,0,1)`. -/
def forward : Vec3 ℚ := Vec3.ofFin 0 0 1


/-- A vector of binary64 values with the integer components `a`, `b`, `c`. -/
def vec (a b c : Int) : Vec3 B64 := ⟨Dbl.ofInt a, Dbl.ofInt b, Dbl.ofInt c⟩

/-- In binary64 arithmetic, a plane through `(0,0,z)` with normal `(0,0,1)` and the colour
`(r, g, b)`. -/
def flat (z r g b : Int) : Object B64 :=
  ⟨0, vec r g b, vec 0 0 z, vec 0 0 1, vec 0 0 0, Dbl.ofInt 0⟩

/-- In binary64 arithmetic, a sphere of radius `rad` centred at `c` with the colour
`(r, g, b)`. -/
def ball (c : Vec3 B64) (rad r g b : Int) : Object B64 :=
  ⟨1, vec r g b, vec 0 0 0, vec 0 0 0, c, Dbl.ofInt rad⟩

/-- In binary64 arithmetic, a sphere of radius 1 centred at `(0,0,5)` whose colour is
`(0.6, 0, 0)`: the red component is the quotient of `6` and `10`, the double nearest to
`0.6`. -/
def tinted : Object B64 :=
  ⟨1, ⟨Dbl.ofInt 6 / Dbl.ofInt 10, Dbl.ofInt 0, Dbl.ofInt 0⟩, vec 0 0 0, vec 0 0 0,
    vec 0 0 5, Dbl.ofInt 1⟩

/-! ## Notions used in the statements about the renderer -/

/-- The integer truncation of `x`: the integer part, toward zero. -/
def truncation {F : Type} [LinearOrderedField F] [FloorRing F] (x : F) : Int :=
  if 0 ≤ x then ⌊x⌋ else ⌈x⌉

/-- The values of the fields with the key `key` in a list of fields, in the order of the
file. -/
def field_values {F : Type} (key : List Char) : List (FieldLit F) → List (Dbl F)
  | [] => []
  | f :: fs =>
    match f.value with
    | FieldValue.number n =>
      if f.key = key then n.value :: field_values key fs else field_values key fs
    | FieldValue.vector _ => field_values key fs

/-- The values of the fields with the key `key` in the camera literals of a file, in the
order of the file. -/
def camera_values {F : Type} (key : List Char) : List (ObjectLit F) → List (Dbl F)
  | [] => []
  | o :: os =>
    if o.type = Variant.camera then field_values key o.fields ++ camera_values key os
    else camera_values key os

/-- The literal `{ "type": "camera", "width": 4 }`, followed by a comma and a space. -/
def wide_camera : ObjectLit ℚ :=
  ⟨[' '], [], [' '], Variant.camera, [],
    [⟨[' '], "width".toList, [], [' '], FieldValue.number (num "4"), [' ']⟩], [], [' ']⟩

/-- A scene file with two cameras, the second one without a height, and a sphere. -/
def two_cameras_file : List Char :=
  ("[\x7b \"type\": \"camera\", \"width\": 2, \"height\": 2 \x7d,\n" ++
   "  \x7b \"type\": \"camera\", \"width\": 4 \x7d, " ++
   "\x7b \"type\": \"sphere\", \"position\": [0,0,5], \"radius\": 1, \"color\": [1,0,0] \x7d\n" ++
   "]").toList

/-- A scene file whose only camera has a width and no height. -/
def wide_file : List Char :=
  ("[\x7b \"type\": \"camera\", \"width\": 4 \x7d, " ++
   "\x7b \"type\": \"sphere\", \"position\": [0,0,5], \"radius\": 1, \"color\": [1,0,0] \x7d\n" ++
   "]").toList

/-- A scene file whose second object starts with the key `"kind"`. -/
def untyped_file : List Char :=
  "[ \x7b \"type\": \"camera\" \x7d, \x7b \"kind\": \"sphere\" \x7d ]".toList

/-- A scene file whose object has the type `"cube"`. -/
def cube_file : List Char := "[ \x7b \"type\": \"cube\" \x7d ]".toList

/-! ## Basic facts about doubles -/

section DblLemmas

variable {F : Type} [LinearOrderedField F]

theorem Dbl.add_exact (a b : Dbl F) : a + b = Exact.add a b := rfl

theorem Dbl.sub_exact (a b : Dbl F) : a - b = Exact.add a (Exact.neg b) := rfl

theorem Dbl.mul_exact (a b : Dbl F) : a * b = Exact.mul a b := rfl

theorem Dbl.div_exact (a b : Dbl F) : a / b = Exact.div a b := rfl

theorem Dbl.neg_exact (a : Dbl F) : -a = Exact.neg a := rfl

theorem Dbl.lt_exact (a b : Dbl F) : Dbl.lt a b = Exact.lt a b := rfl

theorem Dbl.gt_exact (a b : Dbl F) : Dbl.gt a b = Exact.lt b a := rfl

theorem Dbl.ne_exact (a b : Dbl F) : Dbl.ne a b = Exact.ne a b := rfl

theorem Dbl.sqrt_exact (sqrt : F → F) (a : Dbl F) : Dbl.sqrt sqrt a = Exact.sqrt sqrt a := rfl

@[simp] theorem Dbl.fin_add_fin (x y : F) : Dbl.fin x + Dbl.fin y = Dbl.fin (x + y) := rfl

@[simp] theorem Dbl.fin_sub_fin (x y : F) : Dbl.fin x - Dbl.fin y = Dbl.fin (x - y) := by
  show Exact.add (Dbl.fin x) (Exact.neg (Dbl.fin y)) = _
  simp [Exact.add, Exact.neg, sub_eq_add_neg]

@[simp] theorem Dbl.fin_mul_fin (x y : F) : Dbl.fin x * Dbl.fin y = Dbl.fin (x * y) := rfl

@[simp] theorem Dbl.neg_fin (x : F) : -(Dbl.fin x) = Dbl.fin (-x) := rfl

@[simp] theorem Dbl.lit_eq_fin (n : Nat) : (Dbl.lit n : Dbl F) = Dbl.fin (n : F) := rfl

@[simp] theorem Dbl.sqr_fin (x : F) : sqr (Dbl.fin x) = Dbl.fin (x * x) := rfl

theorem Dbl.fin_div_fin (x y : F) (hy : y ≠ 0) : Dbl.fin x / Dbl.fin y = Dbl.fin (x / y) := by
  show Exact.div (Dbl.fin x) (Dbl.fin y) = _
  simp [Exact.div, hy]

@[simp] theorem Dbl.lt_fin_fin (x y : F) : Dbl.lt (Dbl.fin x) (Dbl.fin y) = decide (x < y) := rfl

@[simp] theorem Dbl.gt_fin_fin (x y : F) : Dbl.gt (Dbl.fin x) (Dbl.fin y) = decide (y < x) := rfl

theorem Dbl.sqrt_fin (sqrt : F → F) (x : F) (hx : 0 ≤ x) :
    Dbl.sqrt sqrt (Dbl.fin x) = Dbl.fin (sqrt x) := by
  simp [Dbl.sqrt_exact, Exact.sqrt, not_lt.mpr hx]

theorem Dbl.lt_asymm (a b : Dbl F) (h : Dbl.lt a b = true) : Dbl.lt b a = false := by
  cases a <;> cases b <;> simp_all [Dbl.lt_exact, Exact.lt]
  exact le_of_lt h

theorem Dbl.lt_irrefl (a : Dbl F) : Dbl.lt a a = false := by
  cases a <;> simp [Dbl.lt_exact, Exact.lt]

end DblLemmas

section ConvLemmas

variable {F : Type} [LinearOrderedField F] [FloorRing F]

theorem to_uchar_exact (v : Dbl F) : to_uchar v = Exact.to_uchar v := rfl

end ConvLemmas

/-! ## The laws of the comparisons -/

theorem ieee_lt_asymm (a b : Dbl B64) (h : Dbl.lt a b = true) : Dbl.lt b a = false := by
  cases a with
  | fin x =>
    cases b with
    | fin y =>
      have h1 : decide (B64.scaled x (min x.e y.e) < B64.scaled y (min x.e y.e)) = true := h
      show decide (B64.scaled y (min y.e x.e) < B64.scaled x (min y.e x.e)) = false
      rw [min_comm y.e x.e]
      simp only [decide_eq_true_eq] at h1
      simp only [decide_eq_false_iff_not, not_lt]
      exact le_of_lt h1
    | pinf => rfl
    | ninf => cases h
    | nan => cases h
  | pinf => cases b <;> cases h
  | ninf => cases b <;> rfl
  | nan => cases b <;> rfl

theorem ieee_ne_of_lt (a b : Dbl B64) (h : Dbl.lt a b = true) : Dbl.ne a b = true := by
  cases a with
  | fin x =>
    cases b with
    | fin y =>
      have h1 : decide (B64.scaled x (min x.e y.e) < B64.scaled y (min x.e y.e)) = true := h
      show decide (B64.scaled x (min x.e y.e) ≠ B64.scaled y (min x.e y.e)) = true
      simp only [decide_eq_true_eq] at h1 ⊢
      exact ne_of_lt h1
    | pinf => rfl
    | ninf => cases h
    | nan => cases h
  | pinf => cases b <;> cases h
  | ninf => cases b <;> first | rfl | cases h
  | nan => cases b <;> rfl

theorem ieee_lit_zero : (Dbl.lit 0 : Dbl B64) = Dbl.fin (B64.zero false) := by decide!

theorem ieee_zero_of_eq (z : Dbl B64) (h : Dbl.ne z (Dbl.lit 0) = false) :
    ∃ y : B64, z = Dbl.fin y ∧ y.m = 0 := by
  rw [ieee_lit_zero] at h
  cases z with
  | fin y =>
    refine ⟨y, rfl, ?_⟩
    have h1 : decide (B64.scaled y (min y.e (B64.zero false).e)
        ≠ B64.scaled (B64.zero false) (min y.e (B64.zero false).e)) = false := h
    simp only [decide_eq_false_iff_not, not_not] at h1
    have h2 : B64.scaled (B64.zero false) (min y.e (B64.zero false).e) = 0 := by
      simp [B64.scaled, B64.zero]
    rw [h2] at h1
    unfold B64.scaled at h1
    have h3 : y.m * 2 ^ (y.e - min y.e (B64.zero false).e).toNat = 0 := by
      split_ifs at h1
      · exact_mod_cast neg_eq_zero.mp h1
      · exact_mod_cast h1
    rcases Nat.mul_eq_zero.mp h3 with h4 | h4
    · exact h4
    · exact absurd h4 (by positivity)
  | pinf => cases h
  | ninf => cases h
  | nan => cases h

theorem ieee_div_zero (a z : Dbl B64) (h : Dbl.ne z (Dbl.lit 0) = false) :
    a / z = Dbl.pinf ∨ a / z = Dbl.ninf ∨ a / z = Dbl.nan := by
  obtain ⟨y, rfl, hy⟩ := ieee_zero_of_eq z h
  cases a with
  | fin x =>
    show B64.div x y = _ ∨ B64.div x y = _ ∨ B64.div x y = _
    unfold B64.div
    rw [if_pos hy]
    unfold B64.inf
    split_ifs <;> simp
  | pinf =>
    show B64.inf y.sign = _ ∨ B64.inf y.sign = _ ∨ B64.inf y.sign = _
    unfold B64.inf
    split_ifs <;> simp
  | ninf =>
    show B64.inf (!y.sign) = _ ∨ B64.inf (!y.sign) = _ ∨ B64.inf (!y.sign) = _
    unfold B64.inf
    split_ifs <;> simp
  | nan => exact Or.inr (Or.inr rfl)

theorem ieee_laws : DblLaws B64 where
  lt_asymm := ieee_lt_asymm
  ne_of_lt := ieee_ne_of_lt
  ne_pinf := rfl
  lt_pinf_left := fun b => by cases b <;> rfl
  lt_ninf_right := fun a => by cases a <;> rfl
  lt_nan_right := fun a => by cases a <;> rfl
  gt_minus_one := by decide!
  div_zero := ieee_div_zero

section ExactLaws

variable {F : Type} [LinearOrderedField F]

theorem exact_laws : DblLaws F where
  lt_asymm := Dbl.lt_asymm
  ne_of_lt := fun a b h => by
    cases a <;> cases b <;> simp_all [Dbl.lt_exact, Exact.lt, Dbl.ne_exact, Exact.ne]
    exact ne_of_lt h
  ne_pinf := rfl
  lt_pinf_left := fun b => by cases b <;> rfl
  lt_ninf_right := fun a => by cases a <;> rfl
  lt_nan_right := fun a => by cases a <;> rfl
  gt_minus_one := by simp
  div_zero := fun a z h => by
    cases z with
    | fin y =>
      have hy : y = 0 := by
        have h1 : decide (y ≠ ((0 : Nat) : F)) = false := h
        simpa using h1
      subst hy
      cases a with
      | fin x =>
        have e : Dbl.fin x / Dbl.fin (0 : F) = Exact.infOfSign x := by
          show Exact.div _ _ = _
          simp [Exact.div]
        rw [e]
        unfold Exact.infOfSign
        split_ifs <;> simp
      | pinf => exact Or.inl (by show Exact.div _ _ = _; simp [Exact.div])
      | ninf => exact Or.inr (Or.inl (by show Exact.div _ _ = _; simp [Exact.div]))
      | nan => exact Or.inr (Or.inr rfl)
    | pinf => cases h
    | ninf => cases h
    | nan => cases h

end ExactLaws

/-! ## The ray/sphere intersection -/

section SphereSign

variable {F : Type} [DblArith F]

theorem sphere_intersection_sign (sqrt : F → F) (Ro Rd C : Vec3 F) (r : Dbl F) :
    sphere_intersection sqrt Ro Rd C r = -(Dbl.lit 1) ∨
    Dbl.gt (sphere_intersection sqrt Ro Rd C r) (Dbl.lit 0) = true := by
  unfold sphere_intersection
  simp only
  split_ifs with h1 h2 h3
  · exact Or.inl rfl
  · exact Or.inr h2
  · exact Or.inr h3
  · exact Or.inl rfl

end SphereSign

section SphereTheorems

variable {F : Type} [LinearOrderedField F]

theorem sphere_intersection_fin (sqrt : F → F) (ox oy oz dx dy dz cx cy cz r : F)
    (hd : dx * dx + dy * dy + dz * dz ≠ 0) :
    sphere_intersection sqrt (Vec3.ofFin ox oy oz) (Vec3.ofFin dx dy dz) (Vec3.ofFin cx cy cz)
      (Dbl.fin r)
    = (let a := dx * dx + dy * dy + dz * dz
       let b := 2 * (dx * (ox - cx) + dy * (oy - cy) + dz * (oz - cz))
       let c := (ox - cx) * (ox - cx) + (oy - cy) * (oy - cy) + (oz - cz) * (oz - cz) - r * r
       let det := b * b - 4 * a * c
       if det < 0 then Dbl.fin (-1)
       else if 0 < (-b - sqrt det) / (2 * a) then Dbl.fin ((-b - sqrt det) / (2 * a))
       else if 0 < (-b + sqrt det) / (2 * a) then Dbl.fin ((-b + sqrt det) / (2 * a))
       else Dbl.fin (-1)) := by
  have h2 : (2 : F) * (dx * dx + dy * dy + dz * dz) ≠ 0 := mul_ne_zero two_ne_zero hd
  simp only [sphere_intersection, Vec3.ofFin, Dbl.sqr_fin, Dbl.fin_add_fin, Dbl.fin_sub_fin,
    Dbl.fin_mul_fin, Dbl.lit_eq_fin, Dbl.neg_fin, Dbl.lt_fin_fin, Dbl.gt_fin_fin,
    decide_eq_true_eq, Nat.cast_ofNat, Nat.cast_zero, Nat.cast_one]
  by_cases h1 : 2 * (dx * (ox - cx) + dy * (oy - cy) + dz * (oz - cz)) *
        (2 * (dx * (ox - cx) + dy * (oy - cy) + dz * (oz - cz))) -
      4 * (dx * dx + dy * dy + dz * dz) *
        ((ox - cx) * (ox - cx) + (oy - cy) * (oy - cy) + (oz - cz) * (oz - cz) - r * r) < 0
  · rw [if_pos h1, if_pos h1]
  · rw [if_neg h1, if_neg h1, Dbl.sqrt_fin sqrt _ (not_lt.mp h1)]
    simp only [Dbl.fin_sub_fin, Dbl.fin_add_fin, Dbl.fin_div_fin _ _ h2, Dbl.gt_fin_fin,
      decide_eq_true_eq]

theorem quadratic_roots (a b c s : F) (ha : 0 < a) (hs0 : 0 ≤ s)
    (hs : s * s = b * b - 4 * a * c) :
    a * ((-b - s) / (2 * a)) * ((-b - s) / (2 * a)) + b * ((-b - s) / (2 * a)) + c = 0 ∧
    a * ((-b + s) / (2 * a)) * ((-b + s) / (2 * a)) + b * ((-b + s) / (2 * a)) + c = 0 ∧
    (-b - s) / (2 * a) ≤ (-b + s) / (2 * a) ∧
    ∀ t : F, a * t * t + b * t + c = 0 → t = (-b - s) / (2 * a) ∨ t = (-b + s) / (2 * a) := by
  have ha0 : a ≠ 0 := ne_of_gt ha
  have h2a : (0 : F) < 2 * a := by linarith
  have hc : c = (b * b - s * s) / (4 * a) := by
    rw [hs]; field_simp
  refine ⟨?_, ?_, ?_, ?_⟩
  · rw [hc]; field_simp; ring
  · rw [hc]; field_simp; ring
  · exact div_le_div_of_nonneg_right (by linarith) (le_of_lt h2a)
  · intro t ht
    have h4 : (2 * a * t + b - s) * (2 * a * t + b + s) = 0 := by
      have : (2 * a * t + b - s) * (2 * a * t + b + s)
          = 4 * a * (a * t * t + b * t + c) + (b * b - 4 * a * c - s * s) := by ring
      rw [this, ht, hs]; ring
    rcases mul_eq_zero.mp h4 with h | h
    · right
      rw [eq_div_iff (ne_of_gt h2a)]; linarith
    · left
      rw [eq_div_iff (ne_of_gt h2a)]; linarith

theorem sqrt_four_eq_two (sqrt : F → F) (hs : SqrtSpec sqrt) : sqrt 4 = 2 := by
  obtain ⟨h0, h1⟩ := hs 4 (by norm_num)
  have h : (sqrt 4 - 2) * (sqrt 4 + 2) = 0 := by
    have : (sqrt 4 - 2) * (sqrt 4 + 2) = sqrt 4 * sqrt 4 - 4 := by ring
    rw [this, h1]; ring
  rcases mul_eq_zero.mp h with h | h
  · linarith
  · linarith

/-- C1, counterexample: in binary64 arithmetic, for `Ro = (0,0,0)`, `Rd = (0,0,1)`,
`C = (2,0,2^30)` and `r = 1` the function returns `2^30 = 1073741824`, a positive distance,
although the discriminant of `a*t^2 + b*t + c = 0` is `-12`, negative: the ray misses the
sphere and real arithmetic gives `-1`; the computed discriminant `2^62 - 4 * (2^60 + 3)` is
rounded to `0`.  And for `C = (0,0,10^200)`, `r = 1`, where the smaller root `10^200 - 1` is
positive, the function returns `-1`: the squares overflow. -/
theorem sphere_discriminant_rounds :
    sphere_intersection B64.sqrt (vec 0 0 0) (vec 0 0 1) (vec 2 0 (2 ^ 30)) (Dbl.ofInt 1)
      = Dbl.ofInt (2 ^ 30) ∧
    Dbl.gt (Dbl.ofInt (2 ^ 30) : Dbl B64) (Dbl.lit 0) = true ∧
    (2 * (0 * (0 - 2) + 0 * (0 - 0) + 1 * (0 - 2 ^ 30)) *
        (2 * (0 * (0 - 2) + 0 * (0 - 0) + 1 * (0 - 2 ^ 30))) -
      4 * (0 * 0 + 0 * 0 + 1 * 1) *
        ((0 - 2) * (0 - 2) + (0 - 0) * (0 - 0) + (0 - 2 ^ 30) * (0 - 2 ^ 30) - 1 * 1) : ℚ)
      = -12 ∧
    (∀ sqrt : ℚ → ℚ,
      sphere_intersection sqrt (Vec3.ofFin 0 0 0) (Vec3.ofFin 0 0 1) (Vec3.ofFin 2 0 (2 ^ 30))
        (Dbl.fin 1) = Dbl.fin (-1)) ∧
    sphere_intersection B64.sqrt (vec 0 0 0) (vec 0 0 1) (vec 0 0 (10 ^ 200)) (Dbl.ofInt 1)
      = -(Dbl.lit 1) := by
  refine ⟨by decide!, by decide!, by norm_num, ?_, by decide!⟩
  intro sqrt
  rw [sphere_intersection_fin sqrt 0 0 0 0 0 1 2 0 (2 ^ 30) 1 (by norm_num)]
  norm_num

/-- C1, amended: in real arithmetic (an ordered field, a `sqrt` that returns the non-negative
square root) and for a non-zero direction `Rd`, `sphere_intersection` solves
`a*t^2 + b*t + c = 0` with `a = |Rd|^2`, `b = 2*Rd.(Ro-C)`, `c = |Ro-C|^2 - r^2`.  When the
discriminant is negative there is no root and the result is `-1`; otherwise
`t0 = (-b - sqrt det)/(2a) ≤ t1 = (-b + sqrt det)/(2a)` are exactly the roots and the result
is `t0` when `t0 > 0`, else `t1` when `t1 > 0`, else `-1`.  For `Ro = (0,0,0)`,
`Rd = (0,0,1)`, `C = (0,0,5)`, `r = 1` the result is `4`.  In binary64 arithmetic the result
is, for all arguments, `-1` or a value that compares greater than `0`, and for
`Ro = (0,0,0)`, `Rd = (0,0,1)`, `C = (0,0,5)`, `r = 1` it is `4`. -/
theorem sphere_intersection_smaller_positive_root (sqrt : F → F) (hs : SqrtSpec sqrt)
    (ox oy oz dx dy dz cx cy cz r : F) (hRd : ¬(dx = 0 ∧ dy = 0 ∧ dz = 0)) :
    let a := dx * dx + dy * dy + dz * dz
    let b := 2 * (dx * (ox - cx) + dy * (oy - cy) + dz * (oz - cz))
    let c := (ox - cx) * (ox - cx) + (oy - cy) * (oy - cy) + (oz - cz) * (oz - cz) - r * r
    let det := b * b - 4 * a * c
    let t0 := (-b - sqrt det) / (2 * a)
    let t1 := (-b + sqrt det) / (2 * a)
    let res := sphere_intersection sqrt (Vec3.ofFin ox oy oz) (Vec3.ofFin dx dy dz)
      (Vec3.ofFin cx cy cz) (Dbl.fin r)
    (det < 0 → res = Dbl.fin (-1) ∧ ∀ t : F, a * t * t + b * t + c ≠ 0) ∧
    (0 ≤ det →
      (a * t0 * t0 + b * t0 + c = 0 ∧ a * t1 * t1 + b * t1 + c = 0 ∧ t0 ≤ t1 ∧
        ∀ t : F, a * t * t + b * t + c = 0 → t = t0 ∨ t = t1) ∧
      (0 < t0 → res = Dbl.fin t0) ∧
      (¬ 0 < t0 → 0 < t1 → res = Dbl.fin t1) ∧
      (¬ 0 < t0 → ¬ 0 < t1 → res = Dbl.fin (-1))) ∧
    sphere_intersection sqrt (Vec3.ofFin 0 0 0) (Vec3.ofFin 0 0 1) (Vec3.ofFin 0 0 5)
      (Dbl.fin 1) = Dbl.fin 4 ∧
    (∀ (Ro Rd C : Vec3 B64) (r : Dbl B64),
      sphere_intersection B64.sqrt Ro Rd C r = -(Dbl.lit 1) ∨
      Dbl.gt (sphere_intersection B64.sqrt Ro Rd C r) (Dbl.lit 0) = true) ∧
    sphere_intersection B64.sqrt (vec 0 0 0) (vec 0 0 1) (vec 0 0 5) (Dbl.ofInt 1)
      = Dbl.ofInt 4 := by
  intro a b c det t0 t1 res
  have ha : 0 < a := by
    have h3 : 0 ≤ dx * dx ∧ 0 ≤ dy * dy ∧ 0 ≤ dz * dz :=
      ⟨mul_self_nonneg _, mul_self_nonneg _, mul_self_nonneg _⟩
    rcases lt_or_eq_of_le (show 0 ≤ a by show 0 ≤ dx * dx + dy * dy + dz * dz; linarith)
      with h | h
    · exact h
    · exfalso
      apply hRd
      have h' : dx * dx + dy * dy + dz * dz = 0 := h.symm
      refine ⟨?_, ?_, ?_⟩ <;> apply mul_self_eq_zero.mp <;> linarith
  have hres : res = if det < 0 then Dbl.fin (-1)
      else if 0 < t0 then Dbl.fin t0 else if 0 < t1 then Dbl.fin t1 else Dbl.fin (-1) :=
    sphere_intersection_fin sqrt ox oy oz dx dy dz cx cy cz r (ne_of_gt ha)
  refine ⟨?_, ?_, ?_, fun Ro Rd C r => sphere_intersection_sign B64.sqrt Ro Rd C r,
    by decide!⟩
  · intro hdet
    refine ⟨by rw [hres, if_pos hdet], ?_⟩
    intro t ht
    have : (2 * a * t + b) * (2 * a * t + b) = 4 * a * (a * t * t + b * t + c) + det := by
      show _ = 4 * a * (a * t * t + b * t + c) + (b * b - 4 * a * c); ring
    rw [ht] at this
    have h0 := mul_self_nonneg (2 * a * t + b)
    linarith
  · intro hdet
    obtain ⟨hs0, hs1⟩ := hs det hdet
    refine ⟨quadratic_roots a b c (sqrt det) ha hs0 hs1, ?_, ?_, ?_⟩
    · intro h0
      rw [hres, if_neg (not_lt.mpr hdet), if_pos h0]
    · intro h0 h1
      rw [hres, if_neg (not_lt.mpr hdet), if_neg h0, if_pos h1]
    · intro h0 h1
      rw [hres, if_neg (not_lt.mpr hdet), if_neg h0, if_neg h1]
  · rw [sphere_intersection_fin sqrt 0 0 0 0 0 1 0 0 5 1 (by norm_num)]
    have e : (2 * (0 * (0 - 0) + 0 * (0 - 0) + 1 * (0 - 5)) *
        (2 * (0 * (0 - 0) + 0 * (0 - 0) + 1 * (0 - 5))) -
        4 * (0 * 0 + 0 * 0 + 1 * 1) *
        ((0 - 0) * (0 - 0) + (0 - 0) * (0 - 0) + (0 - 5) * (0 - 5) - 1 * 1) : F) = 4 := by
      norm_num
    simp only [e, sqrt_four_eq_two sqrt hs]
    norm_num

/-- C1, witness: the theorem applies to the real square root and the ray `(0,0,1)` from the
origin against the unit sphere centred at `(0,0,5)`: the result is `4`, in real arithmetic
and in binary64 arithmetic. -/
theorem sphere_intersection_smaller_positive_root_witness :
    SqrtSpec Real.sqrt ∧ ¬((0 : ℝ) = 0 ∧ (0 : ℝ) = 0 ∧ (1 : ℝ) = 0) ∧
    sphere_intersection Real.sqrt (Vec3.ofFin 0 0 0) (Vec3.ofFin 0 0 1) (Vec3.ofFin 0 0 5)
      (Dbl.fin 1) = Dbl.fin 4 ∧
    sphere_intersection B64.sqrt (vec 0 0 0) (vec 0 0 1) (vec 0 0 5) (Dbl.ofInt 1)
      = Dbl.ofInt 4 :=
  ⟨fun x hx => ⟨Real.sqrt_nonneg x, Real.mul_self_sqrt hx⟩, by norm_num,
    (sphere_intersection_smaller_positive_root Real.sqrt
      (fun x hx => ⟨Real.sqrt_nonneg x, Real.mul_self_sqrt hx⟩)
      0 0 0 0 0 1 0 0 5 1 (by norm_num)).2.2.1,
    by decide!⟩

end SphereTheorems

/-! ## Sequencing -/

section ResLemmas

variable {α β : Type}

@[simp] theorem Res.ok_bind (a : α) (f : α → Res β) : (Res.ok a >>= f) = f a := rfl

@[simp] theorem Res.err_bind (e : Err) (f : α → Res β) : (Res.err e >>= f) = Res.err e := rfl

@[simp] theorem Res.outOfFuel_bind (f : α → Res β) :
    ((Res.outOfFuel : Res α) >>= f) = Res.outOfFuel := rfl

@[simp] theorem Res.pure_eq (a : α) : (pure a : Res α) = Res.ok a := rfl

end ResLemmas

/-! ## Strings -/

theorem bump_of_stringChar (c : Char) (line : Int) (h : StringChar c) : bump c line = line := by
  unfold bump
  rw [if_neg]
  rintro rfl
  exact absurd h.1 (by decide)

theorem bump_quote (line : Int) : bump '"' line = line := by
  unfold bump
  rw [if_neg (by decide)]

theorem next_string_loop_ok_iff (inp : List Char) (line : Int) (buffer s : List Char)
    (cur : Cursor) :
    next_string_loop inp line buffer = Res.ok (s, cur) ↔
      ∃ s1 rest, inp = s1 ++ '"' :: rest ∧ s = buffer ++ s1 ∧
        (s1 ≠ [] → buffer.length + s1.length ≤ 128) ∧ (∀ c ∈ s1, StringChar c) ∧
        cur = ⟨rest, line⟩ := by
  induction inp generalizing line buffer with
  | nil =>
    simp [next_string_loop]
  | cons c cs ih =>
    unfold next_string_loop
    by_cases hq : c = '"'
    · subst hq
      rw [if_pos rfl, bump_quote]
      constructor
      · intro h
        simp only [Res.ok.injEq, Prod.mk.injEq] at h
        exact ⟨[], cs, rfl, by simp [h.1], by simp, by simp, h.2.symm⟩
      · rintro ⟨s1, rest, h1, h2, -, h4, h5⟩
        cases s1 with
        | nil =>
          simp only [List.nil_append, List.cons.injEq, true_and] at h1
          subst h1 h2 h5
          simp
        | cons d ds =>
          simp only [List.cons_append, List.cons.injEq] at h1
          exact absurd h1.1.symm (h4 d (List.mem_cons_self _ _)).2.2.2
    · rw [if_neg hq]
      by_cases hlen : buffer.length ≥ 128
      · rw [if_pos hlen]
        constructor
        · intro h; cases h
        · rintro ⟨s1, rest, h1, -, h3, -, -⟩
          cases s1 with
          | nil =>
            simp only [List.nil_append, List.cons.injEq] at h1
            exact absurd h1.1 hq
          | cons d ds =>
            have := h3 (by simp)
            simp only [List.length_cons] at this
            omega
      · rw [if_neg hlen]
        by_cases hb : c = '\\'
        · rw [if_pos hb]
          constructor
          · intro h; cases h
          · rintro ⟨s1, rest, h1, -, -, h4, -⟩
            cases s1 with
            | nil =>
              simp only [List.nil_append, List.cons.injEq] at h1
              exact absurd h1.1 hq
            | cons d ds =>
              simp only [List.cons_append, List.cons.injEq] at h1
              exact absurd (h1.1.symm.trans hb) (h4 d (List.mem_cons_self _ _)).2.2.1
        · rw [if_neg hb]
          by_cases hr : c.toNat < 32 ∨ c.toNat > 126
          · rw [if_pos hr]
            constructor
            · intro h; cases h
            · rintro ⟨s1, rest, h1, -, -, h4, -⟩
              cases s1 with
              | nil =>
                simp only [List.nil_append, List.cons.injEq] at h1
                exact absurd h1.1 hq
              | cons d ds =>
                simp only [List.cons_append, List.cons.injEq] at h1
                have hd := h4 d (List.mem_cons_self _ _)
                rw [← h1.1] at hd
                have := hd.1
                have := hd.2.1
                omega
          · rw [if_neg hr]
            have hc : StringChar c := ⟨by omega, by omega, hb, hq⟩
            rw [bump_of_stringChar c line hc, ih]
            constructor
            · rintro ⟨s1, rest, h1, h2, h3, h4, h5⟩
              refine ⟨c :: s1, rest, by simp [h1], by simp [h2], ?_, ?_, h5⟩
              · intro _
                by_cases hs1 : s1 = []
                · subst hs1; simp at hlen ⊢; omega
                · have := h3 hs1
                  simp only [List.length_append, List.length_cons, List.length_nil] at this ⊢
                  omega
              · intro d hd
                rcases List.mem_cons.mp hd with rfl | hd
                · exact hc
                · exact h4 d hd
            · rintro ⟨s1, rest, h1, h2, h3, h4, h5⟩
              cases s1 with
              | nil =>
                simp only [List.nil_append, List.cons.injEq] at h1
                exact absurd h1.1 hq
              | cons d ds =>
                simp only [List.cons_append, List.cons.injEq] at h1
                obtain ⟨rfl, rfl⟩ := h1
                refine ⟨ds, rest, rfl, by simp [h2], ?_, ?_, h5⟩
                · intro _
                  have := h3 (by simp)
                  simp only [List.length_append, List.length_cons, List.length_nil] at this ⊢
                  omega
                · intro e he
                  exact h4 e (List.mem_cons_of_mem _ he)

theorem next_string_loop_ne_outOfFuel (inp : List Char) (line : Int) (buffer : List Char) :
    next_string_loop inp line buffer ≠ Res.outOfFuel := by
  induction inp generalizing line buffer with
  | nil => simp [next_string_loop]
  | cons c cs ih =>
    unfold next_string_loop
    split_ifs <;> first | exact ih _ _ | simp

/-- C5: `next_string` returns the string `s` exactly when the input at the cursor is a double
quote, the characters of `s` (at most 128, each printable ASCII 32..126 and neither a
backslash nor a double quote) and a closing double quote; the cursor is then just behind the
closing quote.  The call never runs for ever, so in every other case it ends in `exit(1)`:
in particular for a string that is not closed before the end of the input, for one with more
than 128 characters, for a backslash and for a character outside 32..126. -/
theorem next_string_ok_iff (cur : Cursor) :
    (∀ (s : List Char) (cur1 : Cursor), next_string cur = Res.ok (s, cur1) ↔
      ∃ rest, cur.input = '"' :: (s ++ '"' :: rest) ∧ s.length ≤ 128 ∧
        (∀ c ∈ s, StringChar c) ∧ cur1 = ⟨rest, cur.line⟩) ∧
    next_string cur ≠ Res.outOfFuel := by
  constructor
  · intro s cur1
    unfold next_string next_c
    cases hinp : cur.input with
    | nil => simp
    | cons c cs =>
      simp only [Res.ok_bind]
      by_cases hq : c = '"'
      · subst hq
        simp only [ne_eq, not_true_eq_false, if_false, bump_quote]
        rw [next_string_loop_ok_iff]
        constructor
        · rintro ⟨s1, rest, h1, h2, h3, h4, h5⟩
          simp only [List.nil_append] at h2
          subst h2
          refine ⟨rest, by rw [h1], ?_, h4, h5⟩
          by_cases hs : s = []
          · subst hs; simp
          · simpa using h3 hs
        · rintro ⟨rest, h1, h2, h3, h4⟩
          simp only [List.cons.injEq, true_and] at h1
          exact ⟨s, rest, h1, by simp, fun _ => by simpa using h2, h3, h4⟩
      · simp only [ne_eq, hq, not_false_eq_true, if_true]
        constructor
        · intro h; cases h
        · rintro ⟨rest, h1, -⟩
          simp only [List.cons.injEq] at h1
          exact absurd h1.1 hq
  · intro hr
    unfold next_string next_c at hr
    cases hinp : cur.input with
    | nil => rw [hinp] at hr; simp at hr
    | cons c cs =>
      rw [hinp] at hr
      simp only [Res.ok_bind] at hr
      split_ifs at hr
      exact next_string_loop_ne_outOfFuel _ _ _ hr

/-- C5, boundary: a string of exactly 128 letters is accepted and one of 129 letters is not. -/
theorem next_string_ok_iff_witness :
    next_string ⟨'"' :: (List.replicate 128 'a' ++ '"' :: [']']), 1⟩
      = Res.ok (List.replicate 128 'a', ⟨[']'], 1⟩) ∧
    ∀ cur1, next_string ⟨'"' :: (List.replicate 129 'a' ++ '"' :: [']']), 1⟩
      ≠ Res.ok (List.replicate 129 'a', cur1) := by
  constructor
  · refine ((next_string_ok_iff _).1 _ _).mpr ⟨[']'], rfl, by simp, ?_, rfl⟩
    intro c hc
    rw [List.eq_of_mem_replicate hc]
    exact ⟨by decide, by decide, by decide, by decide⟩
  · intro cur1 h
    obtain ⟨rest, -, h2, -⟩ := ((next_string_ok_iff _).1 _ _).mp h
    simp at h2

/-! ## The nearest object -/

section NearestTheorems

variable {F : Type} [DblArith F]

theorem object_distance_ok (sqrt : F → F) (Ro Rd : Vec3 F) (p : Object F)
    (hk : p.kind = 0 ∨ p.kind = 1) : ∃ t, object_distance sqrt Ro Rd p = Res.ok t := by
  unfold object_distance
  rcases hk with h0 | h1
  · exact ⟨_, by rw [if_pos h0]⟩
  · have h0 : ¬ p.kind = 0 := by rw [h1]; decide
    exact ⟨_, by rw [if_neg h0, if_pos h1]⟩

theorem lt_irrefl_of_laws (hl : DblLaws F) (a : Dbl F) : Dbl.lt a a = false := by
  cases h : Dbl.lt a a with
  | false => rfl
  | true => exact h.symm.trans (hl.lt_asymm a a h)

theorem closest_loop_nearest (hl : DblLaws F) (sqrt : F → F) (Ro Rd : Vec3 F) (o : Object F)
    (d : Dbl F) (hd : object_distance sqrt Ro Rd o = Res.ok d)
    (hpos : Dbl.gt d (Dbl.lit 0) = true) (objs : List (Object F)) :
    ∀ (best_t : Dbl F) (object : Option (Object F)),
    (∀ p ∈ objs, p.kind = 0 ∨ p.kind = 1) →
    (∀ p ∈ objs, p ≠ o → ∀ t, object_distance sqrt Ro Rd p = Res.ok t →
      Dbl.gt t (Dbl.lit 0) = true → Dbl.lt d t = true) →
    ((best_t = d ∧ object = some o) ∨ (Dbl.lt d best_t = true ∧ o ∈ objs)) →
    closest_loop sqrt Ro Rd objs best_t object = Res.ok (d, some o) := by
  induction objs with
  | nil =>
    intro best_t object _ _ h
    rcases h with ⟨h1, h2⟩ | ⟨_, h2⟩
    · simp [closest_loop, h1, h2]
    · simp at h2
  | cons p ps ih =>
    intro best_t object hk hmin h
    have hk1 : ∀ q ∈ ps, q.kind = 0 ∨ q.kind = 1 := fun q hq => hk q (List.mem_cons_of_mem _ hq)
    have hmin1 : ∀ q ∈ ps, q ≠ o → ∀ t, object_distance sqrt Ro Rd q = Res.ok t →
        Dbl.gt t (Dbl.lit 0) = true → Dbl.lt d t = true :=
      fun q hq => hmin q (List.mem_cons_of_mem _ hq)
    unfold closest_loop
    by_cases hpo : p = o
    · subst hpo
      rw [hd]
      simp only [Res.ok_bind]
      rcases h with ⟨h1, h2⟩ | ⟨h1, _⟩
      · subst h1 h2
        rw [lt_irrefl_of_laws hl]
        simp only [Bool.and_false, Bool.false_eq_true, if_false]
        exact ih _ _ hk1 hmin1 (Or.inl ⟨rfl, rfl⟩)
      · rw [h1, hpos]
        simp only [Bool.and_self, if_true]
        exact ih _ _ hk1 hmin1 (Or.inl ⟨rfl, rfl⟩)
    · obtain ⟨t, ht⟩ := object_distance_ok sqrt Ro Rd p (hk p (List.mem_cons_self _ _))
      rw [ht]
      simp only [Res.ok_bind]
      have hbeat := hmin p (List.mem_cons_self _ _) hpo t ht
      rcases h with ⟨h1, h2⟩ | ⟨h1, h2⟩
      · subst h1 h2
        have hc : (Dbl.gt t (Dbl.lit 0) && Dbl.lt t best_t) = false := by
          cases hg : Dbl.gt t (Dbl.lit 0) with
          | false => simp
          | true => simp [hl.lt_asymm _ _ (hbeat hg)]
        rw [hc]
        simp only [Bool.false_eq_true, if_false]
        exact ih _ _ hk1 hmin1 (Or.inl ⟨rfl, rfl⟩)
      · have ho : o ∈ ps := by
          rcases List.mem_cons.mp h2 with h | h
          · exact absurd h.symm hpo
          · exact h
        by_cases hc : (Dbl.gt t (Dbl.lit 0) && Dbl.lt t best_t) = true
        · rw [if_pos hc]
          simp only [Bool.and_eq_true] at hc
          exact ih _ _ hk1 hmin1 (Or.inr ⟨hbeat hc.1, ho⟩)
        · rw [if_neg hc]
          exact ih _ _ hk1 hmin1 (Or.inr ⟨h1, ho⟩)

end NearestTheorems

section PixelTheorems

variable {F : Type} [DblArith F] [DblConv F]

/-- C2: in binary64 arithmetic as in real arithmetic (any arithmetic with the laws `DblLaws`):
let `o` be an object of the list whose distance `d` along the ray, as the code computes it,
is positive and finite (`d > 0` and `d < INFINITY`) and strictly smaller than the positive
distance of every other object of the list.  Then the three channels of the pixel are the
components of the colour of `o`, each times `maxColor` and converted to `unsigned char`, for
the list in any order: every permutation of the list gives this pixel. -/
theorem nearest_distance_wins (hl : DblLaws F) (sqrt : F → F) (maxColor : Int)
    (Ro Rd : Vec3 F) (objs : List (Object F)) (o : Object F) (d : Dbl F)
    (hk : ∀ p ∈ objs, p.kind = 0 ∨ p.kind = 1)
    (ho : o ∈ objs)
    (hd : object_distance sqrt Ro Rd o = Res.ok d)
    (hpos : Dbl.gt d (Dbl.lit 0) = true) (hfin : Dbl.lt d Dbl.pinf = true)
    (hmin : ∀ p ∈ objs, p ≠ o → ∀ t, object_distance sqrt Ro Rd p = Res.ok t →
      Dbl.gt t (Dbl.lit 0) = true → Dbl.lt d t = true) :
    ∀ objs1 : List (Object F), objs1.Perm objs →
      shade sqrt maxColor objs1 Ro Rd
        = Res.ok ⟨to_uchar (o.color.x * Dbl.ofInt maxColor),
            to_uchar (o.color.y * Dbl.ofInt maxColor),
            to_uchar (o.color.z * Dbl.ofInt maxColor)⟩ := by
  intro objs1 hperm
  have h := closest_loop_nearest hl sqrt Ro Rd o d hd hpos objs1 Dbl.pinf none
    (fun p hp => hk p (hperm.mem_iff.mp hp))
    (fun p hp => hmin p (hperm.mem_iff.mp hp))
    (Or.inr ⟨hfin, hperm.mem_iff.mpr ho⟩)
  unfold shade
  rw [h]
  simp only [Res.ok_bind, hpos, hl.ne_of_lt _ _ hfin, Bool.and_self, if_true]
  rfl

/-- C2, witness: in binary64 arithmetic, a red plane at distance 2 and a blue plane at
distance 5 on the ray `(0,0,1)` from the origin; the pixel is `255 0 0` whichever plane comes
first. -/
theorem nearest_distance_wins_witness :
    shade B64.sqrt 255 [flat 5 0 0 1, flat 2 1 0 0] (vec 0 0 0) (vec 0 0 1)
      = Res.ok ⟨255, 0, 0⟩ ∧
    shade B64.sqrt 255 [flat 2 1 0 0, flat 5 0 0 1] (vec 0 0 0) (vec 0 0 1)
      = Res.ok ⟨255, 0, 0⟩ := by
  have h := nearest_distance_wins ieee_laws B64.sqrt 255 (vec 0 0 0) (vec 0 0 1)
    [flat 5 0 0 1, flat 2 1 0 0] (flat 2 1 0 0) (Dbl.ofInt 2)
    (by
      intro p hp
      rcases List.mem_cons.mp hp with rfl | hp
      · exact Or.inl rfl
      · rcases List.mem_cons.mp hp with rfl | hp
        · exact Or.inl rfl
        · cases hp)
    (List.mem_cons_of_mem _ (List.mem_cons_self _ _)) (by decide!) (by decide!) (by decide!)
    (by
      intro p hp hne t ht _
      rcases List.mem_cons.mp hp with h1 | hp
      · have e : object_distance B64.sqrt (vec 0 0 0) (vec 0 0 1) (flat 5 0 0 1)
            = Res.ok (Dbl.ofInt 5) := by decide!
        rw [h1, e] at ht
        rw [← Res.ok.inj ht]
        decide!
      · rcases List.mem_cons.mp hp with h2 | hp
        · exact absurd h2 hne
        · cases hp)
  have e : (⟨to_uchar ((flat 2 1 0 0).color.x * Dbl.ofInt 255),
      to_uchar ((flat 2 1 0 0).color.y * Dbl.ofInt 255),
      to_uchar ((flat 2 1 0 0).color.z * Dbl.ofInt 255)⟩ : RGBpixel) = ⟨255, 0, 0⟩ := by
    decide!
  rw [e] at h
  exact ⟨h _ (List.Perm.refl _), h _ (List.Perm.swap _ _ _)⟩

end PixelTheorems

/-! ## The background -/

section BackgroundLemmas

variable {F : Type} [LinearOrderedField F]

end BackgroundLemmas

section BackgroundTheorems

variable {F : Type} [LinearOrderedField F] [FloorRing F]

theorem shade_nil (sqrt : F → F) (maxColor : Int) (Ro Rd : Vec3 F) :
    shade sqrt maxColor [] Ro Rd = Res.ok ⟨255, 255, 255⟩ := by
  simp [shade, closest_loop, Dbl.gt_exact, Dbl.lt_exact, Exact.lt, Dbl.ne_exact, Exact.ne]

theorem raycast_row_empty (sqrt : F → F) (maxColor : Int) (N : Int) (g : Scene F)
    (hg : g.numObjects = 0) (yc : Dbl F) (n x : Nat) :
    raycast_row sqrt maxColor N g yc n x = Res.ok (List.replicate n ⟨255, 255, 255⟩) := by
  induction n generalizing x with
  | zero => rfl
  | succ n ih =>
    unfold raycast_row
    rw [ih]
    simp [pixel, hg, shade_nil, List.replicate_succ]

theorem raycast_rows_empty (sqrt : F → F) (maxColor : Int) (M N : Int) (g : Scene F)
    (hg : g.numObjects = 0) (m y : Nat) :
    raycast_rows sqrt maxColor M N g m y
      = Res.ok (List.replicate (m * N.toNat) ⟨255, 255, 255⟩) := by
  induction m generalizing y with
  | zero => simp [raycast_rows]
  | succ m ih =>
    unfold raycast_rows
    rw [ih, raycast_row_empty sqrt maxColor N g hg]
    simp only [Res.ok_bind, Res.ok.injEq]
    rw [Nat.succ_mul, Nat.add_comm, List.replicate_add]

end BackgroundTheorems

/-! ## Inputs on which `read_scene` departs from its error policy -/

section ParserDefects

variable {F : Type}

/-- C7: on the input `[ x { "type": "sphere" } ]` the character `x` is skipped without a
message and the call returns a scene with one sphere. -/
theorem unexpected_character_skipped (io : Stdio F) (fuel : Nat) (line : Int) (n : Nat)
    (o : Object F) (os : List (Object F)) (cw ch : Dbl F) (msgs : List Err) :
    read_scene io (fuel + 4) (some "[ x \x7b \"type\": \"sphere\" \x7d ]".toList) line
        ⟨n, o :: os, cw, ch, msgs⟩
      = Res.ok ⟨1, { o with kind := 1 } :: os, cw, ch, msgs⟩ := by
  rfl

theorem objects_loop_eof (io : Stdio F) (fuel : Nat) (st : PState F)
    (h : st.cur.input = []) : objects_loop io fuel st = Res.outOfFuel := by
  induction fuel with
  | zero => rfl
  | succ n ih =>
    unfold objects_loop
    rw [h]
    exact ih

/-- C9: on the input `[x` the call of `read_scene` does not return and does not exit,
whatever the fuel: behind the `x` the loop reads the end of the file for ever. -/
theorem unexpected_end_loops (io : Stdio F) (line : Int) (g : Scene F) (fuel : Nat) :
    read_scene io fuel (some "[x".toList) line g = Res.outOfFuel := by
  cases fuel with
  | zero => rfl
  | succ n =>
    show objects_loop io n ⟨⟨[], line⟩, false, { g with numObjects := 0 }⟩ = Res.outOfFuel
    exact objects_loop_eof io n _ rfl

end ParserDefects

section NumberDefects

variable {F : Type} [LinearOrderedField F]

/-- C8: on the inputs `[{ "type": "sphere", "radius": }]` and
`[{ "type": "sphere", "color": [ , , ] }]` no number is converted, no message is written and
the call returns: the radius, respectively the three components of the colour, are the
indeterminate value of the uninitialised local `value` of `next_number`. -/
theorem missing_number_accepted (v : Dbl F) (fuel : Nat) (line : Int) (n : Nat)
    (o : Object F) (os : List (Object F)) (cw ch : Dbl F) (msgs : List Err) :
    read_scene ⟨scanf_lf_decimal, v⟩ (fuel + 3)
        (some "[\x7b \"type\": \"sphere\", \"radius\": \x7d]".toList) line ⟨n, o :: os, cw, ch, msgs⟩
      = Res.ok ⟨1, { o with kind := 1, sphere_radius := v } :: os, cw, ch, msgs⟩ ∧
    read_scene ⟨scanf_lf_decimal, v⟩ (fuel + 3)
        (some "[\x7b \"type\": \"sphere\", \"color\": [ , , ] \x7d]".toList) line
        ⟨n, o :: os, cw, ch, msgs⟩
      = Res.ok ⟨1, { o with kind := 1, color := ⟨v, v, v⟩ } :: os, cw, ch, msgs⟩ := by
  constructor <;> rfl

end NumberDefects

section EmptyScene

variable {F : Type} [LinearOrderedField F] [FloorRing F]

/-- C6: on the input `[]` the call of `read_scene` writes its message and returns, it does
not exit: the globals describe a scene without objects, and `raycast` then renders it as
`M * N` white pixels. -/
theorem empty_scene_returns (io : Stdio F) (fuel : Nat) (line : Int) (g : Scene F)
    (sqrt : F → F) (maxColor : Int) (M N : Nat) :
    read_scene io (fuel + 1) (some "[]".toList) line g
      = Res.ok ⟨0, g.objects, g.cw, g.ch, g.stderr ++ [Err.worstSceneFile]⟩ ∧
    raycast sqrt maxColor (M : Int) (N : Int)
        ⟨0, g.objects, g.cw, g.ch, g.stderr ++ [Err.worstSceneFile]⟩
      = Res.ok (List.replicate (M * N) ⟨255, 255, 255⟩) := by
  refine ⟨rfl, ?_⟩
  unfold raycast
  rw [raycast_rows_empty sqrt maxColor _ _ _ rfl]
  simp

end EmptyScene

/-! ## Reading the tokens of a well-formed file -/

section TokenLemmas

theorem isspace_ne_newline (c : Char) (h : isspace c = false) (line : Int) :
    bump c line = line := by
  unfold bump
  rw [if_neg]
  rintro rfl
  exact absurd h (by decide)

theorem skip_ws_white (w : List Char) (hw : White w) (c : Char) (hc : isspace c = false)
    (rest : List Char) (line : Int) :
    ∃ line1, skip_ws ⟨w ++ c :: rest, line⟩ = Res.ok ⟨c :: rest, line1⟩ := by
  unfold skip_ws
  induction w generalizing line with
  | nil =>
    simp only [List.nil_append, skip_ws_loop, hc]
    exact ⟨_, rfl⟩
  | cons d ds ih =>
    have hd : isspace d = true := hw d (List.mem_cons_self _ _)
    simp only [List.cons_append, skip_ws_loop, hd, if_true]
    exact ih (fun x hx => hw x (List.mem_cons_of_mem _ hx)) _

theorem expect_c_head (c : Char) (rest : List Char) (line : Int) :
    expect_c ⟨c :: rest, line⟩ c = Res.ok ⟨rest, bump c line⟩ := by
  simp [expect_c, next_c]

theorem next_c_head (c : Char) (rest : List Char) (line : Int) :
    next_c ⟨c :: rest, line⟩ = Res.ok (c, ⟨rest, bump c line⟩) := rfl

theorem next_string_quoted (s : List Char) (hs : ∀ c ∈ s, StringChar c) (hl : s.length ≤ 128)
    (rest : List Char) (line : Int) :
    next_string ⟨'"' :: (s ++ '"' :: rest), line⟩ = Res.ok (s, ⟨rest, line⟩) := by
  unfold next_string
  rw [next_c_head]
  simp only [Res.ok_bind, ne_eq, not_true_eq_false, if_false, bump_quote]
  rw [next_string_loop_ok_iff]
  exact ⟨s, rest, rfl, by simp, fun _ => by simpa using hl, hs, rfl⟩

end TokenLemmas

section ValueLemmas

variable {F : Type}

theorem next_number_lit (io : Stdio F) (n : NumLit F) (hn : n.WF io) (rest : List Char)
    (hr : Delimited rest) (line : Int) :
    next_number io ⟨n.text ++ rest, line⟩ = (n.value, ⟨rest, line⟩) := by
  unfold next_number
  simp only [hn.2 rest hr]

theorem skip_ws_before_num (io : Stdio F) (w : List Char) (hw : White w) (n : NumLit F)
    (hn : n.WF io) (rest : List Char) (line : Int) :
    ∃ line1, skip_ws ⟨w ++ (n.text ++ rest), line⟩ = Res.ok ⟨n.text ++ rest, line1⟩ := by
  obtain ⟨⟨c, cs, hc, hsp⟩, -⟩ := hn
  rw [hc]
  exact skip_ws_white w hw c hsp (cs ++ rest) line

theorem delimited_white_append (w : List Char) (hw : White w) (c : Char)
    (hc : c = ',' ∨ c = ']' ∨ c = '}') (rest : List Char) : Delimited (w ++ c :: rest) := by
  cases w with
  | nil => exact ⟨c, rest, rfl, Or.inr hc⟩
  | cons d ds => exact ⟨d, ds ++ c :: rest, rfl, Or.inl (hw d (List.mem_cons_self _ _))⟩

theorem next_vector_lit (io : Stdio F) (v : VecLit F) (hv : v.WF io) (rest : List Char)
    (line : Int) :
    ∃ line1, next_vector io ⟨v.text rest, line⟩ = Res.ok (v.value, ⟨rest, line1⟩) := by
  obtain ⟨h1, h2, h3, h4, h5, h6, hn1, hn2, hn3⟩ := hv
  unfold next_vector VecLit.text
  simp only [expect_c_head, Res.ok_bind]
  obtain ⟨l1, e1⟩ := skip_ws_before_num io v.w1 h1 v.n1 hn1
    (v.w2 ++ ',' :: (v.w3 ++ (v.n2.text ++ (v.w4 ++ ',' :: (v.w5 ++ (v.n3.text ++
      (v.w6 ++ ']' :: rest))))))) (bump '[' line)
  rw [e1]
  simp only [Res.ok_bind]
  rw [next_number_lit io v.n1 hn1 _ (delimited_white_append v.w2 h2 ',' (Or.inl rfl) _)]
  simp only []
  obtain ⟨l2, e2⟩ := skip_ws_white v.w2 h2 ',' (by decide)
    (v.w3 ++ (v.n2.text ++ (v.w4 ++ ',' :: (v.w5 ++ (v.n3.text ++
      (v.w6 ++ ']' :: rest)))))) l1
  rw [e2]
  simp only [Res.ok_bind, expect_c_head]
  obtain ⟨l3, e3⟩ := skip_ws_before_num io v.w3 h3 v.n2 hn2
    (v.w4 ++ ',' :: (v.w5 ++ (v.n3.text ++ (v.w6 ++ ']' :: rest)))) (bump ',' l2)
  rw [e3]
  simp only [Res.ok_bind]
  rw [next_number_lit io v.n2 hn2 _ (delimited_white_append v.w4 h4 ',' (Or.inl rfl) _)]
  simp only []
  obtain ⟨l4, e4⟩ := skip_ws_white v.w4 h4 ',' (by decide)
    (v.w5 ++ (v.n3.text ++ (v.w6 ++ ']' :: rest))) l3
  rw [e4]
  simp only [Res.ok_bind, expect_c_head]
  obtain ⟨l5, e5⟩ := skip_ws_before_num io v.w5 h5 v.n3 hn3
    (v.w6 ++ ']' :: rest) (bump ',' l4)
  rw [e5]
  simp only [Res.ok_bind]
  rw [next_number_lit io v.n3 hn3 _
    (delimited_white_append v.w6 h6 ']' (Or.inr (Or.inl rfl)) _)]
  simp only []
  obtain ⟨l6, e6⟩ := skip_ws_white v.w6 h6 ']' (by decide) rest l5
  rw [e6]
  simp only [Res.ok_bind, expect_c_head]
  exact ⟨_, rfl⟩

end ValueLemmas

/-! ## Reading one field -/

section FieldLemmas

variable {F : Type}

theorem read_field_width (io : Stdio F) (st : PState F) :
    read_field io "width".toList st =
      if st.camFlag then
        Res.ok { st with cur := (next_number io st.cur).2,
                         g := { st.g with cw := (next_number io st.cur).1 } }
      else Res.err (Err.unexpectedAttribute "width".toList (next_number io st.cur).2.line) := by
  unfold read_field
  rw [if_pos rfl]

theorem read_field_height (io : Stdio F) (st : PState F) :
    read_field io "height".toList st =
      if st.camFlag then
        Res.ok { st with cur := (next_number io st.cur).2,
                         g := { st.g with ch := (next_number io st.cur).1 } }
      else Res.err (Err.unexpectedAttribute "height".toList (next_number io st.cur).2.line) := by
  unfold read_field
  rw [if_neg (by decide), if_pos rfl]

theorem read_field_radius (io : Stdio F) (st : PState F) :
    read_field io "radius".toList st =
      (if st.camFlag then
        Res.err (Err.unexpectedAttribute "radius".toList (next_number io st.cur).2.line)
      else do
        let kind ← current_kind st.g
        if kind = 1 then
          let g ← set_current st.g
            (fun o => { o with sphere_radius := (next_number io st.cur).1 })
          Res.ok { st with cur := (next_number io st.cur).2, g := g }
        else Res.err (Err.unexpectedAttribute "radius".toList (next_number io st.cur).2.line))
      := by
  unfold read_field
  rw [if_neg (by decide), if_neg (by decide), if_pos rfl]

theorem read_field_color (io : Stdio F) (st : PState F) :
    read_field io "color".toList st = (do
      let (value, cur) ← next_vector io st.cur
      if st.camFlag then Res.err (Err.unexpectedAttribute "color".toList cur.line)
      else
        let g ← set_current st.g (fun o => { o with color := value })
        Res.ok { st with cur := cur, g := g }) := by
  unfold read_field
  rw [if_neg (by decide), if_neg (by decide), if_neg (by decide), if_pos rfl]

theorem read_field_position (io : Stdio F) (st : PState F) :
    read_field io "position".toList st = (do
      let (value, cur) ← next_vector io st.cur
      if st.camFlag then Res.err (Err.unexpectedAttribute "position".toList cur.line)
      else
        let kind ← current_kind st.g
        if kind = 0 then
          let g ← set_current st.g (fun o => { o with plane_position := value })
          Res.ok { st with cur := cur, g := g }
        else if kind = 1 then
          let g ← set_current st.g (fun o => { o with sphere_position := value })
          Res.ok { st with cur := cur, g := g }
        else Res.err (Err.unexpectedAttribute "position".toList cur.line)) := by
  unfold read_field
  rw [if_neg (by decide), if_neg (by decide), if_neg (by decide), if_neg (by decide),
    if_pos rfl]

theorem read_field_normal (io : Stdio F) (st : PState F) :
    read_field io "normal".toList st = (do
      let (value, cur) ← next_vector io st.cur
      if st.camFlag then Res.err (Err.unexpectedAttribute "normal".toList cur.line)
      else
        let kind ← current_kind st.g
        if kind = 0 then
          let g ← set_current st.g (fun o => { o with plane_normal := value })
          Res.ok { st with cur := cur, g := g }
        else Res.err (Err.unexpectedAttribute "normal".toList cur.line)) := by
  unfold read_field
  rw [if_neg (by decide), if_neg (by decide), if_neg (by decide), if_neg (by decide),
    if_neg (by decide), if_pos rfl]

theorem read_field_unknown (io : Stdio F) (st : PState F) (key : List Char)
    (h1 : key ≠ "width".toList) (h2 : key ≠ "height".toList) (h3 : key ≠ "radius".toList)
    (h4 : key ≠ "color".toList) (h5 : key ≠ "position".toList) (h6 : key ≠ "normal".toList) :
    read_field io key st = Res.err (Err.unknownProperty key st.cur.line) := by
  unfold read_field
  rw [if_neg h1, if_neg h2, if_neg h3, if_neg h4, if_neg h5, if_neg h6]

theorem current_kind_eq (g : Scene F) (k : Int) (h : current_kind g = Res.ok k) :
    ∃ o, g.objects.get? g.numObjects = some o ∧ o.kind = k := by
  unfold current_kind at h
  cases hg : g.objects.get? g.numObjects with
  | none => rw [hg] at h; cases h
  | some o =>
    rw [hg] at h
    simp only [Res.ok.injEq] at h
    exact ⟨o, rfl, h⟩

theorem set_current_eq (g : Scene F) (f : Object F → Object F) (o : Object F)
    (h : g.objects.get? g.numObjects = some o) :
    set_current g f = Res.ok (map_current g f) := by
  unfold set_current map_current
  rw [h]

end FieldLemmas
section FieldValidLemmas

variable {F : Type}

theorem map_current_congr (g : Scene F) (f1 f2 : Object F → Object F) (o : Object F)
    (ho : g.objects.get? g.numObjects = some o) (h : f1 o = f2 o) :
    map_current g f1 = map_current g f2 := by
  unfold map_current
  rw [ho]
  simp only [h]

theorem read_field_valid (io : Stdio F) (t : Variant) (f : FieldLit F) (hf : f.WF io t)
    (st : PState F) (hst : st.inside t) (rest : List Char)
    (hrest : ∃ c cs, rest = c :: cs ∧ (c = ',' ∨ c = '}')) (line : Int)
    (hcur : st.cur = ⟨f.value.text (f.w4 ++ rest), line⟩) :
    ∃ line1, read_field io f.key st
      = Res.ok ⟨⟨f.w4 ++ rest, line1⟩, st.camFlag, field_effect t f st.g⟩ := by
  obtain ⟨c, cs, rfl, hc⟩ := hrest
  obtain ⟨-, -, -, hw4, hvalid, hval⟩ := hf
  obtain ⟨w1, key, w2, w3, value, w4⟩ := f
  obtain ⟨cur, camFlag, g⟩ := st
  simp only at hw4 hvalid hval hcur ⊢
  subst hcur
  have hdel : Delimited (w4 ++ c :: cs) :=
    delimited_white_append w4 hw4 c (hc.elim Or.inl (fun h => Or.inr (Or.inr h))) cs
  cases value with
  | number n =>
    simp only at hval
    have hnum := next_number_lit io n hval (w4 ++ c :: cs) hdel line
    refine ⟨line, ?_⟩
    cases t with
    | camera =>
      simp only [PState.inside] at hst
      subst hst
      rcases hvalid with rfl | rfl
      · rw [read_field_width]
        simp [FieldValue.text, hnum, field_effect, store_camera_field]
      · rw [read_field_height]
        simp [FieldValue.text, hnum, field_effect, store_camera_field]
    | sphere =>
      obtain ⟨h1, h2⟩ := hst
      simp only at h1 h2
      subst h1
      obtain ⟨o, ho, hk⟩ := current_kind_eq g 1 h2
      simp only [field_valid] at hvalid
      subst hvalid
      rw [read_field_radius]
      simp [FieldValue.text, hnum, h2, set_current_eq g _ o ho, field_effect, map_current, ho,
        store_field]
    | plane => simp only [field_valid] at hvalid
  | vector v =>
    simp only at hval
    obtain ⟨line1, hvec⟩ := next_vector_lit io v hval (w4 ++ c :: cs) line
    refine ⟨line1, ?_⟩
    cases t with
    | camera => simp only [field_valid] at hvalid
    | sphere =>
      obtain ⟨h1, h2⟩ := hst
      simp only at h1 h2
      subst h1
      obtain ⟨o, ho, hk⟩ := current_kind_eq g 1 h2
      simp only [field_valid] at hvalid
      rcases hvalid with rfl | rfl
      · rw [read_field_color]
        simp [FieldValue.text, hvec, set_current_eq g _ o ho, field_effect, map_current, ho,
          store_field]
      · rw [read_field_position]
        have e := map_current_congr g (fun o => { o with sphere_position := v.value })
          (store_field ⟨w1, "position".toList, w2, w3, FieldValue.vector v, w4⟩) o ho
          (by simp [store_field, hk])
        simp only at e
        simp [FieldValue.text, hvec, h2, set_current_eq g _ o ho, field_effect, e]
    | plane =>
      obtain ⟨h1, h2⟩ := hst
      simp only at h1 h2
      subst h1
      obtain ⟨o, ho, hk⟩ := current_kind_eq g 0 h2
      simp only [field_valid] at hvalid
      rcases hvalid with rfl | rfl | rfl
      · rw [read_field_color]
        simp [FieldValue.text, hvec, set_current_eq g _ o ho, field_effect, map_current, ho,
          store_field]
      · rw [read_field_position]
        have e := map_current_congr g (fun o => { o with plane_position := v.value })
          (store_field ⟨w1, "position".toList, w2, w3, FieldValue.vector v, w4⟩) o ho
          (by simp [store_field, hk])
        simp only at e
        simp [FieldValue.text, hvec, h2, set_current_eq g _ o ho, field_effect, e]
      · rw [read_field_normal]
        simp [FieldValue.text, hvec, h2, set_current_eq g _ o ho, field_effect, map_current, ho,
          store_field]

end FieldValidLemmas

section NoFuelLemmas

variable {F : Type}

theorem Res.bind_ne_outOfFuel {α β : Type} (r : Res α) (f : α → Res β)
    (h1 : r ≠ Res.outOfFuel) (h2 : ∀ a, f a ≠ Res.outOfFuel) : (r >>= f) ≠ Res.outOfFuel := by
  cases r with
  | ok a => exact h2 a
  | err e => simp
  | outOfFuel => exact absurd rfl h1

theorem skip_ws_ne_outOfFuel (cur : Cursor) : skip_ws cur ≠ Res.outOfFuel := by
  obtain ⟨inp, line⟩ := cur
  unfold skip_ws
  simp only
  induction inp generalizing line with
  | nil => simp [skip_ws_loop]
  | cons c cs ih =>
    unfold skip_ws_loop
    split_ifs
    · exact ih _
    · simp

theorem expect_c_ne_outOfFuel (cur : Cursor) (d : Char) : expect_c cur d ≠ Res.outOfFuel := by
  obtain ⟨inp, line⟩ := cur
  cases inp with
  | nil => simp [expect_c, next_c]
  | cons c cs =>
    simp only [expect_c, next_c, Res.ok_bind]
    split_ifs <;> simp

theorem next_vector_ne_outOfFuel (io : Stdio F) (cur : Cursor) :
    next_vector io cur ≠ Res.outOfFuel := by
  unfold next_vector
  refine Res.bind_ne_outOfFuel _ _ (expect_c_ne_outOfFuel _ _) (fun _ => ?_)
  refine Res.bind_ne_outOfFuel _ _ (skip_ws_ne_outOfFuel _) (fun _ => ?_)
  refine Res.bind_ne_outOfFuel _ _ (skip_ws_ne_outOfFuel _) (fun _ => ?_)
  refine Res.bind_ne_outOfFuel _ _ (expect_c_ne_outOfFuel _ _) (fun _ => ?_)
  refine Res.bind_ne_outOfFuel _ _ (skip_ws_ne_outOfFuel _) (fun _ => ?_)
  refine Res.bind_ne_outOfFuel _ _ (skip_ws_ne_outOfFuel _) (fun _ => ?_)
  refine Res.bind_ne_outOfFuel _ _ (expect_c_ne_outOfFuel _ _) (fun _ => ?_)
  refine Res.bind_ne_outOfFuel _ _ (skip_ws_ne_outOfFuel _) (fun _ => ?_)
  refine Res.bind_ne_outOfFuel _ _ (skip_ws_ne_outOfFuel _) (fun _ => ?_)
  refine Res.bind_ne_outOfFuel _ _ (expect_c_ne_outOfFuel _ _) (fun _ => ?_)
  simp

theorem read_field_invalid (io : Stdio F) (t : Variant) (key : List Char) (st : PState F)
    (hst : st.inside t) (hkey : ¬ valid_on t key) :
    ∃ e, read_field io key st = Res.err e := by
  by_cases h1 : key = "width".toList
  · subst h1
    rw [read_field_width]
    cases t with
    | camera => exact absurd (Or.inl rfl) hkey
    | sphere => exact ⟨_, by rw [hst.1]; rfl⟩
    | plane => exact ⟨_, by rw [hst.1]; rfl⟩
  by_cases h2 : key = "height".toList
  · subst h2
    rw [read_field_height]
    cases t with
    | camera => exact absurd (Or.inr rfl) hkey
    | sphere => exact ⟨_, by rw [hst.1]; rfl⟩
    | plane => exact ⟨_, by rw [hst.1]; rfl⟩
  by_cases h3 : key = "radius".toList
  · subst h3
    rw [read_field_radius]
    cases t with
    | camera =>
      simp only [PState.inside] at hst
      exact ⟨_, by rw [hst]; rfl⟩
    | sphere => exact absurd (Or.inl rfl) hkey
    | plane => exact ⟨_, by rw [hst.1, hst.2]; rfl⟩
  have hbind : ∀ (k : Vec3 F × Cursor → Res (PState F)), (∀ p, ∃ e, k p = Res.err e) →
      ∃ e, (next_vector io st.cur >>= k) = Res.err e := by
    intro k hk
    cases hv : next_vector io st.cur with
    | ok p => exact hk p
    | err e => exact ⟨e, rfl⟩
    | outOfFuel => exact absurd hv (next_vector_ne_outOfFuel io st.cur)
  by_cases h4 : key = "color".toList
  · subst h4
    rw [read_field_color]
    cases t with
    | camera =>
      simp only [PState.inside] at hst
      refine hbind _ (fun p => ⟨_, by simp only [hst]; rfl⟩)
    | sphere => exact absurd (Or.inr (Or.inl rfl)) hkey
    | plane => exact absurd (Or.inl rfl) hkey
  by_cases h5 : key = "position".toList
  · subst h5
    rw [read_field_position]
    cases t with
    | camera =>
      simp only [PState.inside] at hst
      refine hbind _ (fun p => ⟨_, by simp only [hst]; rfl⟩)
    | sphere => exact absurd (Or.inr (Or.inr rfl)) hkey
    | plane => exact absurd (Or.inr (Or.inl rfl)) hkey
  by_cases h6 : key = "normal".toList
  · subst h6
    rw [read_field_normal]
    cases t with
    | camera =>
      simp only [PState.inside] at hst
      refine hbind _ (fun p => ⟨_, by simp only [hst]; rfl⟩)
    | sphere =>
      refine hbind _ (fun p => ⟨_, by simp only [hst.1, hst.2]; rfl⟩)
    | plane => exact absurd (Or.inr (Or.inr rfl)) hkey
  exact ⟨_, read_field_unknown io st key h1 h2 h3 h4 h5 h6⟩

end NoFuelLemmas

/-! ## The decimal numbers of the examples -/

section DecimalLemmas

variable {F : Type} [LinearOrderedField F]

theorem delimited_head (rest : List Char) (h : Delimited rest) :
    ∃ c cs, rest = c :: cs ∧ isdigit c = false ∧ c ≠ '.' ∧ c ≠ 'e' ∧ c ≠ 'E' := by
  obtain ⟨c, cs, rfl, hc⟩ := h
  refine ⟨c, cs, rfl, ?_⟩
  rcases hc with h | rfl | rfl | rfl
  · simp only [isspace, Bool.or_eq_true, decide_eq_true_eq, Bool.and_eq_true] at h
    refine ⟨?_, ?_, ?_, ?_⟩
    · simp only [isdigit, Bool.and_eq_false_imp, decide_eq_true_eq, decide_eq_false_iff_not]
      omega
    all_goals
      rintro rfl
      revert h
      decide
  · decide
  · decide
  · decide

theorem takeWhile_digits (ds : List Char) (hd : ∀ c ∈ ds, isdigit c = true) (c : Char)
    (hc : isdigit c = false) (cs : List Char) :
    (ds ++ c :: cs).takeWhile isdigit = ds ∧ (ds ++ c :: cs).dropWhile isdigit = c :: cs := by
  induction ds with
  | nil => simp [List.takeWhile, List.dropWhile, hc]
  | cons d ds ih =>
    have h1 := hd d (List.mem_cons_self _ _)
    have h2 := ih (fun x hx => hd x (List.mem_cons_of_mem _ hx))
    simp [List.takeWhile, List.dropWhile, h1, h2]

theorem digit_not_space (c : Char) (h : isdigit c = true) :
    isspace c = false ∧ c ≠ '-' ∧ c ≠ '+' := by
  simp only [isdigit, Bool.and_eq_true, decide_eq_true_eq] at h
  refine ⟨?_, ?_, ?_⟩
  · simp only [isspace, Bool.or_eq_false_iff, decide_eq_false_iff_not, Bool.and_eq_false_imp,
      decide_eq_true_eq]
    omega
  all_goals
    rintro rfl
    revert h
    decide

theorem digits_wf (d : Char) (ds : List Char) (hd : ∀ c ∈ d :: ds, isdigit c = true) :
    (NumLit.digits (d :: ds) : NumLit F).WF (stdio_decimal F) := by
  have hd1 := digit_not_space d (hd d (List.mem_cons_self _ _))
  refine ⟨⟨d, ds, rfl, hd1.1⟩, ?_⟩
  intro rest hrest
  obtain ⟨c, cs, rfl, hc1, hc2, hc3, hc4⟩ := delimited_head rest hrest
  obtain ⟨ht, hdr⟩ := takeWhile_digits (d :: ds) hd c hc1 cs
  have hsign : scan_sign (d :: (ds ++ c :: cs)) = (false, d :: (ds ++ c :: cs)) := by
    unfold scan_sign
    split
    · next h => exact absurd (List.cons.inj h).1 hd1.2.1
    · next h => exact absurd (List.cons.inj h).1 hd1.2.2
    · rfl
  have hfrac : scan_fraction (c :: cs) = ([], c :: cs) := by
    unfold scan_fraction
    split
    · next h => exact absurd (List.cons.inj h).1 hc2
    · rfl
  have hdw : (d :: (ds ++ c :: cs)).dropWhile isspace = d :: (ds ++ c :: cs) := by
    simp [List.dropWhile, hd1.1]
  simp only [List.cons_append] at ht hdr
  have hexp : ∀ m : F, scan_exponent m (c :: cs) = (m, c :: cs) := by
    intro m
    simp [scan_exponent, hc3, hc4]
  show scanf_lf_decimal ((d :: ds) ++ c :: cs) = _
  unfold scanf_lf_decimal
  rw [List.cons_append, hdw, hsign]
  unfold scan_unsigned
  simp only [ht, hdr, hfrac, hexp]
  simp [NumLit.digits, digits_value]

end DecimalLemmas

/-! ## The field table -/

section FieldTable

variable {F : Type} [LinearOrderedField F]

/-- C4: inside an object literal of variant `t`, the chain of comparisons that reads a field
ends in `exit(1)` for every key that the field table does not list for `t` (a key outside
the table, or a key of another variant), before anything is stored; for a key the table lists
for `t`, followed by a well-formed value, it returns, the cursor is behind the value and the
globals differ from those before the field exactly by the field the table names
(`field_effect`).  Examples: `radius` on a plane, `width` on a sphere, `color` on a camera
and the unknown key `shine` make `read_scene` exit. -/
theorem field_table_enforced (io : Stdio F) (t : Variant) (st : PState F)
    (hst : st.inside t) :
    (∀ key, ¬ valid_on t key → ∃ e, read_field io key st = Res.err e) ∧
    (∀ (f : FieldLit F) (rest : List Char) (line : Int), f.WF io t →
      (∃ c cs, rest = c :: cs ∧ (c = ',' ∨ c = '}')) →
      st.cur = ⟨f.value.text (f.w4 ++ rest), line⟩ →
      ∃ line1, read_field io f.key st
        = Res.ok ⟨⟨f.w4 ++ rest, line1⟩, st.camFlag, field_effect t f st.g⟩) ∧
    (∀ (fuel : Nat) (line : Int) (n : Nat) (o : Object F) (os : List (Object F))
      (cw ch : Dbl F) (msgs : List Err),
      read_scene (stdio_decimal F) (fuel + 3)
          (some "[\x7b \"type\": \"plane\", \"radius\": 1 \x7d]".toList) line
          ⟨n, o :: os, cw, ch, msgs⟩
        = Res.err (Err.unexpectedAttribute "radius".toList line) ∧
      read_scene (stdio_decimal F) (fuel + 3)
          (some "[\x7b \"type\": \"sphere\", \"width\": 1 \x7d]".toList) line
          ⟨n, o :: os, cw, ch, msgs⟩
        = Res.err (Err.unexpectedAttribute "width".toList line) ∧
      read_scene (stdio_decimal F) (fuel + 3)
          (some "[\x7b \"type\": \"camera\", \"color\": [1, 0, 0] \x7d]".toList) line
          ⟨n, o :: os, cw, ch, msgs⟩
        = Res.err (Err.unexpectedAttribute "color".toList line) ∧
      read_scene (stdio_decimal F) (fuel + 3)
          (some "[\x7b \"type\": \"sphere\", \"shine\": 1 \x7d]".toList) line
          ⟨n, o :: os, cw, ch, msgs⟩
        = Res.err (Err.unknownProperty "shine".toList line)) := by
  refine ⟨fun key hkey => read_field_invalid io t key st hst hkey, ?_, ?_⟩
  · intro f rest line hf hrest hcur
    exact read_field_valid io t f hf st hst rest hrest line hcur
  · intro fuel line n o os cw ch msgs
    exact ⟨rfl, rfl, rfl, rfl⟩

theorem white_nil : White [] := by
  intro c hc
  cases hc

theorem white_space : White [' '] := by
  intro c hc
  simp only [List.mem_singleton] at hc
  subst hc
  rfl

/-- C4, witness: inside the literal of a sphere the key `normal` makes `read_field` exit, and
the well-formed field `"radius": 3` in front of a closing brace is stored. -/
theorem field_table_enforced_witness :
    (sphere_state "3 \x7d".toList).inside Variant.sphere ∧
    radius_field.WF (stdio_decimal ℚ) Variant.sphere ∧
    (∃ e, read_field (stdio_decimal ℚ) "normal".toList (sphere_state "[0, 0, 1] \x7d".toList)
      = Res.err e) ∧
    (∃ line1, read_field (stdio_decimal ℚ) radius_field.key (sphere_state "3 \x7d".toList)
      = Res.ok ⟨⟨radius_field.w4 ++ "\x7d".toList, line1⟩, false,
          field_effect Variant.sphere radius_field (sphere_state "3 \x7d".toList).g⟩) := by
  have hst : ∀ s, (sphere_state s).inside Variant.sphere := fun s => ⟨rfl, rfl⟩
  have hwf : radius_field.WF (stdio_decimal ℚ) Variant.sphere :=
    ⟨white_space, white_nil, white_space, white_space, rfl,
      digits_wf '3' [] (by decide)⟩
  refine ⟨hst _, hwf, ?_, ?_⟩
  · exact (field_table_enforced (stdio_decimal ℚ) Variant.sphere _ (hst _)).1
      "normal".toList (by simp [valid_on])
  · exact (field_table_enforced (stdio_decimal ℚ) Variant.sphere _ (hst _)).2.1
      radius_field "\x7d".toList 1 hwf ⟨'}', [], rfl, Or.inr rfl⟩ rfl

end FieldTable

/-! ## Reading the fields of an object -/

section FieldsLoop

variable {F : Type}

theorem get?_set_same (l : List (Object F)) (n : Nat) (o x : Object F)
    (h : l.get? n = some o) : (l.set n x).get? n = some x := by
  induction l generalizing n with
  | nil => cases h
  | cons a as ih =>
    cases n with
    | zero => rfl
    | succ n => exact ih n h

theorem store_field_kind (f : FieldLit F) (o : Object F) : (store_field f o).kind = o.kind := by
  unfold store_field
  cases f.value with
  | number n => simp only; split_ifs <;> rfl
  | vector v => simp only; split_ifs <;> rfl

theorem field_effect_inside (t : Variant) (f : FieldLit F) (st : PState F) (cur : Cursor)
    (hst : st.inside t) : PState.inside ⟨cur, st.camFlag, field_effect t f st.g⟩ t := by
  have key : ∀ k, current_kind st.g = Res.ok k →
      current_kind (map_current st.g (store_field f)) = Res.ok k := by
    intro k hk
    obtain ⟨o, ho, hko⟩ := current_kind_eq st.g k hk
    unfold map_current
    rw [ho]
    unfold current_kind
    simp only
    rw [get?_set_same _ _ o _ ho]
    show Res.ok (store_field f o).kind = Res.ok k
    rw [store_field_kind, hko]
  cases t with
  | camera => exact hst
  | sphere => exact ⟨hst.1, key 1 hst.2⟩
  | plane => exact ⟨hst.1, key 0 hst.2⟩

theorem fields_text_head (fs : List (FieldLit F)) (rest : List Char) :
    ∃ c cs, fields_text fs ('}' :: rest) = c :: cs ∧ (c = ',' ∨ c = '}') := by
  cases fs with
  | nil => exact ⟨'}', rest, rfl, Or.inr rfl⟩
  | cons f fs => exact ⟨',', _, rfl, Or.inl rfl⟩

theorem value_text_head (io : Stdio F) (t : Variant) (f : FieldLit F) (hf : f.WF io t)
    (rest : List Char) : ∃ c cs, f.value.text rest = c :: cs ∧ isspace c = false := by
  obtain ⟨-, -, -, -, -, hval⟩ := hf
  cases hv : f.value with
  | number n =>
    rw [hv] at hval
    obtain ⟨⟨c, cs, hc, hsp⟩, -⟩ := hval
    exact ⟨c, cs ++ rest, by simp [FieldValue.text, hc], hsp⟩
  | vector v => exact ⟨'[', _, rfl, rfl⟩

theorem valid_key_string (t : Variant) (key : List Char) (value : FieldValue F)
    (h : field_valid t key value) : (∀ c ∈ key, StringChar c) ∧ key.length ≤ 128 := by
  have hw : ∀ k : List Char, k = "width".toList ∨ k = "height".toList ∨ k = "radius".toList ∨
      k = "color".toList ∨ k = "position".toList ∨ k = "normal".toList →
      (∀ c ∈ k, StringChar c) ∧ k.length ≤ 128 := by
    intro k hk
    rcases hk with rfl | rfl | rfl | rfl | rfl | rfl <;>
    · refine ⟨?_, by decide⟩
      intro c hc
      simp only [String.toList, List.mem_cons, List.mem_singleton, List.not_mem_nil,
        or_false] at hc
      rcases hc with rfl | rfl | rfl | rfl | rfl | rfl | rfl | rfl <;>
        exact ⟨by decide, by decide, by decide, by decide⟩
  apply hw
  cases t <;> cases value <;> simp only [field_valid] at h <;> tauto

theorem fields_loop_wf (io : Stdio F) (t : Variant) (fs : List (FieldLit F))
    (hfs : ∀ f ∈ fs, f.WF io t) :
    ∀ (st : PState F) (rest : List Char) (line : Int) (fuel : Nat), st.inside t →
      st.cur = ⟨fields_text fs ('}' :: rest), line⟩ → fs.length < fuel →
      ∃ line1, fields_loop io fuel st
        = Res.ok ⟨⟨rest, line1⟩, st.camFlag, fs.foldl (fun g f => field_effect t f g) st.g⟩ := by
  induction fs with
  | nil =>
    intro st rest line fuel _ hcur hfuel
    obtain ⟨k, rfl⟩ : ∃ k, fuel = k + 1 := ⟨fuel - 1, by simp at hfuel; omega⟩
    unfold fields_loop
    rw [hcur]
    exact ⟨_, rfl⟩
  | cons f fs ih =>
    intro st rest line fuel hst hcur hfuel
    obtain ⟨k, rfl⟩ : ∃ k, fuel = k + 1 := ⟨fuel - 1, by simp at hfuel; omega⟩
    have hf := hfs f (List.mem_cons_self _ _)
    obtain ⟨hw1, hw2, hw3, hw4, hvalid, -⟩ := id hf
    obtain ⟨hkey, hlen⟩ := valid_key_string t f.key f.value hvalid
    obtain ⟨c1, cs1, hv1, hsp1⟩ := value_text_head io t f hf (f.w4 ++ fields_text fs ('}' :: rest))
    obtain ⟨c2, cs2, hv2, hc2⟩ := fields_text_head fs rest
    unfold fields_loop
    rw [hcur]
    simp only [fields_text, FieldLit.text, next_c_head, Res.ok_bind]
    rw [if_pos trivial]
    obtain ⟨l1, e1⟩ := skip_ws_white f.w1 hw1 '"' (by decide)
      (f.key ++ '"' :: (f.w2 ++ ':' :: (f.w3 ++
        f.value.text (f.w4 ++ fields_text fs ('}' :: rest))))) (bump ',' line)
    rw [e1]
    simp only [Res.ok_bind]
    rw [next_string_quoted f.key hkey hlen]
    simp only [Res.ok_bind]
    obtain ⟨l2, e2⟩ := skip_ws_white f.w2 hw2 ':' (by decide)
      (f.w3 ++ f.value.text (f.w4 ++ fields_text fs ('}' :: rest))) l1
    rw [e2]
    simp only [Res.ok_bind, expect_c_head]
    obtain ⟨l3, e3⟩ := skip_ws_white f.w3 hw3 c1 hsp1 cs1 (bump ':' l2)
    rw [hv1, e3, ← hv1]
    simp only [Res.ok_bind]
    obtain ⟨l4, e4⟩ := read_field_valid io t f hf
      { st with cur := ⟨f.value.text (f.w4 ++ fields_text fs ('}' :: rest)), l3⟩ } hst
      (fields_text fs ('}' :: rest)) ⟨c2, cs2, hv2, hc2⟩ l3 rfl
    rw [e4]
    simp only [Res.ok_bind]
    have hsp2 : isspace c2 = false := by
      rcases hc2 with rfl | rfl <;> rfl
    obtain ⟨l5, e5⟩ := skip_ws_white f.w4 hw4 c2 hsp2 cs2 l4
    rw [hv2, e5, ← hv2]
    simp only [Res.ok_bind]
    obtain ⟨l6, e6⟩ := ih (fun x hx => hfs x (List.mem_cons_of_mem _ hx))
      ⟨⟨fields_text fs ('}' :: rest), l5⟩, st.camFlag, field_effect t f st.g⟩ rest l5 k
      (field_effect_inside t f st _ hst) rfl (by simp at hfuel; omega)
    exact ⟨l6, e6⟩

end FieldsLoop

/-! ## Reading one object -/

section ObjectLemmas

variable {F : Type}

theorem get?_pre (pre : List (Object F)) (o : Object F) (post : List (Object F)) :
    (pre ++ o :: post).get? pre.length = some o := by
  induction pre with
  | nil => rfl
  | cons a as ih => exact ih

theorem set_pre (pre : List (Object F)) (o x : Object F) (post : List (Object F)) :
    (pre ++ o :: post).set pre.length x = pre ++ x :: post := by
  induction pre with
  | nil => rfl
  | cons a as ih =>
    show a :: (as ++ o :: post).set as.length x = a :: (as ++ x :: post)
    rw [ih]

theorem map_current_pre (pre : List (Object F)) (o : Object F) (post : List (Object F))
    (cw ch : Dbl F) (msgs : List Err) (f : Object F → Object F) :
    map_current ⟨pre.length, pre ++ o :: post, cw, ch, msgs⟩ f
      = ⟨pre.length, pre ++ f o :: post, cw, ch, msgs⟩ := by
  unfold map_current
  simp only [get?_pre, set_pre]

theorem foldl_field_effect_solid (t : Variant) (ht : t ≠ Variant.camera)
    (fs : List (FieldLit F)) (pre : List (Object F)) (o : Object F) (post : List (Object F))
    (cw ch : Dbl F) (msgs : List Err) :
    fs.foldl (fun g f => field_effect t f g) ⟨pre.length, pre ++ o :: post, cw, ch, msgs⟩
      = ⟨pre.length, pre ++ fs.foldl (fun o f => store_field f o) o :: post, cw, ch, msgs⟩ := by
  induction fs generalizing o with
  | nil => rfl
  | cons f fs ih =>
    simp only [List.foldl_cons]
    have e : field_effect t f ⟨pre.length, pre ++ o :: post, cw, ch, msgs⟩
        = ⟨pre.length, pre ++ store_field f o :: post, cw, ch, msgs⟩ := by
      cases t with
      | camera => exact absurd rfl ht
      | sphere => exact map_current_pre pre o post cw ch msgs _
      | plane => exact map_current_pre pre o post cw ch msgs _
    rw [e, ih]

theorem foldl_field_effect_camera (fs : List (FieldLit F)) (g : Scene F) :
    fs.foldl (fun g f => field_effect Variant.camera f g) g
      = { g with cw := (fs.foldl (fun d f => store_camera_field f d) (g.cw, g.ch)).1,
                 ch := (fs.foldl (fun d f => store_camera_field f d) (g.cw, g.ch)).2 } := by
  induction fs generalizing g with
  | nil => rfl
  | cons f fs ih =>
    simp only [List.foldl_cons]
    rw [ih]
    rfl

theorem type_name_string (t : Variant) : (∀ c ∈ t.name, StringChar c) ∧ t.name.length ≤ 128 := by
  cases t <;>
  · refine ⟨?_, by decide⟩
    intro c hc
    simp only [Variant.name, String.toList, List.mem_cons, List.mem_singleton,
      List.not_mem_nil, or_false] at hc
    rcases hc with rfl | rfl | rfl | rfl | rfl | rfl <;>
      exact ⟨by decide, by decide, by decide, by decide⟩

theorem read_type_wf (l : ObjectLit F) (hw1 : White l.w1) (hw2 : White l.w2)
    (hw3 : White l.w3) (hw4 : White l.w4) (c : Char) (hc : isspace c = false)
    (cs : List Char) (line : Int) (g : Scene F)
    (ho : l.type ≠ Variant.camera → ∃ o, g.objects.get? g.numObjects = some o) :
    ∃ line1, read_type ⟨⟨l.w1 ++ '"' :: ("type".toList ++ '"' :: (l.w2 ++ ':' :: (l.w3 ++
        '"' :: (l.type.name ++ '"' :: (l.w4 ++ c :: cs))))), line⟩, false, g⟩
      = Res.ok ⟨⟨c :: cs, line1⟩, decide (l.type = Variant.camera),
          if l.type = Variant.camera then g
          else map_current g (fun o => { o with kind := l.type.kind })⟩ := by
  unfold read_type
  simp only
  obtain ⟨l1, e1⟩ := skip_ws_white l.w1 hw1 '"' (by decide)
    ("type".toList ++ '"' :: (l.w2 ++ ':' :: (l.w3 ++
        '"' :: (l.type.name ++ '"' :: (l.w4 ++ c :: cs))))) line
  rw [e1]
  simp only [Res.ok_bind]
  rw [next_string_quoted "type".toList
    (by
      intro c hc
      simp only [String.toList, List.mem_cons, List.mem_singleton, List.not_mem_nil,
        or_false] at hc
      rcases hc with rfl | rfl | rfl | rfl <;>
        exact ⟨by decide, by decide, by decide, by decide⟩)
    (by decide)]
  simp only [Res.ok_bind, ne_eq, not_true_eq_false, if_false]
  obtain ⟨l2, e2⟩ := skip_ws_white l.w2 hw2 ':' (by decide)
    (l.w3 ++ '"' :: (l.type.name ++ '"' :: (l.w4 ++ c :: cs))) l1
  rw [e2]
  simp only [Res.ok_bind, expect_c_head]
  obtain ⟨l3, e3⟩ := skip_ws_white l.w3 hw3 '"' (by decide)
    (l.type.name ++ '"' :: (l.w4 ++ c :: cs)) (bump ':' l2)
  rw [e3]
  simp only [Res.ok_bind]
  rw [next_string_quoted l.type.name (type_name_string l.type).1 (type_name_string l.type).2]
  simp only [Res.ok_bind]
  obtain ⟨l4, e4⟩ := skip_ws_white l.w4 hw4 c hc cs l3
  refine ⟨l4, ?_⟩
  cases ht : l.type with
  | camera =>
    simp only [Variant.name, if_true, Res.ok_bind, e4, decide_True]
  | sphere =>
    obtain ⟨o, hg⟩ := ho (by rw [ht]; decide)
    simp [Variant.name, set_current_eq g _ o hg, e4, Variant.kind]
  | plane =>
    obtain ⟨o, hg⟩ := ho (by rw [ht]; decide)
    simp [Variant.name, set_current_eq g _ o hg, e4, Variant.kind]

end ObjectLemmas

/-! ## Reading the objects of a well-formed file -/

section ObjectsLoop

variable {F : Type}

theorem read_object_camera (io : Stdio F) (l : ObjectLit F) (hl : l.WF io)
    (ht : l.type = Variant.camera) (rest : List Char) (line : Int) (g : Scene F) (fuel : Nat)
    (hfuel : l.fields.length < fuel)
    (input : List Char) (hin : '{' :: input = l.text rest) :
    ∃ line1, read_object io fuel ⟨⟨input, line⟩, false, g⟩
      = Res.ok ⟨⟨l.w5 ++ rest, line1⟩, false,
          { g with
            cw := (l.fields.foldl (fun d f => store_camera_field f d) (g.cw, g.ch)).1,
            ch := (l.fields.foldl (fun d f => store_camera_field f d) (g.cw, g.ch)).2 }⟩ := by
  obtain ⟨hw1, hw2, hw3, hw4, hw5, hw6, hfs⟩ := hl
  obtain ⟨c, cs, hhead, hc⟩ := fields_text_head l.fields (l.w5 ++ rest)
  have hsp : isspace c = false := by rcases hc with rfl | rfl <;> rfl
  obtain ⟨l1, e1⟩ := read_type_wf l hw1 hw2 hw3 hw4 c hsp cs line g
    (fun h => absurd ht h)
  unfold ObjectLit.text at hin
  rw [hhead] at hin
  have hin2 := (List.cons.inj hin).2
  unfold read_object
  rw [hin2, e1]
  simp only [Res.ok_bind, ht, decide_True, if_true]
  rw [ht] at hfs
  obtain ⟨l2, e2⟩ := fields_loop_wf io Variant.camera l.fields hfs
    ⟨⟨c :: cs, l1⟩, true, g⟩ (l.w5 ++ rest) l1 fuel rfl (by rw [hhead]) hfuel
  rw [e2]
  simp only [Res.ok_bind, if_true, foldl_field_effect_camera]
  exact ⟨l2, rfl⟩

theorem read_object_solid (io : Stdio F) (l : ObjectLit F) (hl : l.WF io)
    (ht : l.type ≠ Variant.camera) (rest : List Char) (line : Int)
    (pre : List (Object F)) (o : Object F) (post : List (Object F)) (cw ch : Dbl F)
    (msgs : List Err) (fuel : Nat) (hfuel : l.fields.length < fuel)
    (input : List Char) (hin : '{' :: input = l.text rest) :
    ∃ line1, read_object io fuel ⟨⟨input, line⟩, false, ⟨pre.length, pre ++ o :: post, cw, ch, msgs⟩⟩
      = Res.ok ⟨⟨l.w5 ++ rest, line1⟩, false,
          ⟨pre.length + 1, pre ++ build_object l o :: post, cw, ch, msgs⟩⟩ := by
  obtain ⟨hw1, hw2, hw3, hw4, hw5, hw6, hfs⟩ := hl
  obtain ⟨c, cs, hhead, hc⟩ := fields_text_head l.fields (l.w5 ++ rest)
  have hsp : isspace c = false := by rcases hc with rfl | rfl <;> rfl
  obtain ⟨l1, e1⟩ := read_type_wf l hw1 hw2 hw3 hw4 c hsp cs line
    ⟨pre.length, pre ++ o :: post, cw, ch, msgs⟩ (fun _ => ⟨o, get?_pre pre o post⟩)
  unfold ObjectLit.text at hin
  rw [hhead] at hin
  have hin2 := (List.cons.inj hin).2
  unfold read_object
  rw [hin2, e1]
  simp only [Res.ok_bind, ht, decide_False, if_false, map_current_pre]
  have hinside : PState.inside ⟨⟨c :: cs, l1⟩, false,
      ⟨pre.length, pre ++ { o with kind := l.type.kind } :: post, cw, ch, msgs⟩⟩ l.type := by
    have hk : ∀ k : Int, current_kind
        ⟨pre.length, pre ++ { o with kind := k } :: post, cw, ch, msgs⟩ = Res.ok k := by
      intro k
      unfold current_kind
      simp only [get?_pre]
    cases hty : l.type with
    | camera => exact absurd hty ht
    | sphere => exact ⟨rfl, hk 1⟩
    | plane => exact ⟨rfl, hk 0⟩
  obtain ⟨l2, e2⟩ := fields_loop_wf io l.type l.fields hfs _ (l.w5 ++ rest) l1 fuel hinside
    (by rw [hhead]) hfuel
  rw [e2]
  simp only [Res.ok_bind, Bool.false_eq_true, if_false,
    foldl_field_effect_solid l.type ht l.fields pre _ post cw ch msgs]
  exact ⟨l2, rfl⟩

theorem objects_text_head (l : ObjectLit F) (ls : List (ObjectLit F)) (trailing : List Char) :
    ∃ rest, objects_text (l :: ls) trailing = l.text rest ∧
      ((ls = [] ∧ rest = ']' :: trailing) ∨
       (ls ≠ [] ∧ rest = ',' :: (l.w6 ++ objects_text ls trailing))) := by
  cases ls with
  | nil => exact ⟨_, rfl, Or.inl ⟨rfl, rfl⟩⟩
  | cons p os => exact ⟨_, rfl, Or.inr ⟨by simp, rfl⟩⟩

theorem object_text_brace (l : ObjectLit F) (rest : List Char) :
    ∃ input, l.text rest = '{' :: input := ⟨_, rfl⟩

theorem objects_loop_tail (io : Stdio F) (trailing : List Char) (l : ObjectLit F)
    (hw5 : White l.w5) (hw6 : White l.w6) (ls : List (ObjectLit F)) (rest : List Char)
    (hrest : (ls = [] ∧ rest = ']' :: trailing) ∨
       (ls ≠ [] ∧ rest = ',' :: (l.w6 ++ objects_text ls trailing)))
    (fuel : Nat) (line : Int) (g expected : Scene F)
    (hlast : ls = [] → g = expected)
    (hmore : ls ≠ [] → ∀ line1, objects_loop io fuel
      ⟨⟨objects_text ls trailing, line1⟩, false, g⟩ = Res.ok expected) :
    (do
      let cur ← skip_ws ⟨l.w5 ++ rest, line⟩
      let (c, cur) ← next_c cur
      if c = ',' then do
        let cur ← skip_ws cur
        objects_loop io fuel { cur := cur, camFlag := false, g := g }
      else if c = ']' then Res.ok g
      else Res.err (Err.expectingCommaOrBracket cur.line)) = Res.ok expected := by
  rcases hrest with ⟨hls, rfl⟩ | ⟨hls, rfl⟩
  · obtain ⟨l1, e1⟩ := skip_ws_white l.w5 hw5 ']' (by decide) trailing line
    rw [e1]
    simp only [Res.ok_bind, next_c_head]
    rw [if_pos trivial, hlast hls, if_neg (by decide)]
  · obtain ⟨l1, e1⟩ := skip_ws_white l.w5 hw5 ',' (by decide)
      (l.w6 ++ objects_text ls trailing) line
    rw [e1]
    simp only [Res.ok_bind, next_c_head]
    rw [if_pos trivial]
    obtain ⟨p, os, rfl⟩ : ∃ p os, ls = p :: os := by
      cases ls with
      | nil => exact absurd rfl hls
      | cons p os => exact ⟨p, os, rfl⟩
    obtain ⟨r2, hr2, -⟩ := objects_text_head p os trailing
    obtain ⟨inp, hinp⟩ := object_text_brace p r2
    have hsk := skip_ws_white l.w6 hw6 '{' (by decide) inp (bump ',' l1)
    rw [← hinp, ← hr2] at hsk
    obtain ⟨l2, e2⟩ := hsk
    rw [e2]
    simp only [Res.ok_bind]
    exact hmore hls l2

end ObjectsLoop

/-! ## The scene of a well-formed file -/

section SceneTheorems

variable {F : Type}

theorem count_objects_cons (l : ObjectLit F) (ls : List (ObjectLit F)) :
    count_objects (l :: ls)
      = if l.type = Variant.camera then count_objects ls else count_objects ls + 1 := by
  unfold count_objects
  by_cases h : l.type = Variant.camera
  · simp [List.filter_cons, h]
  · simp [List.filter_cons, h]

theorem filter_objects_cons (l : ObjectLit F) (ls : List (ObjectLit F)) :
    (l :: ls).filter (fun o => o.type ≠ Variant.camera)
      = if l.type = Variant.camera then ls.filter (fun o => o.type ≠ Variant.camera)
        else l :: ls.filter (fun o => o.type ≠ Variant.camera) := by
  by_cases h : l.type = Variant.camera
  · simp [List.filter_cons, h]
  · simp [List.filter_cons, h]

theorem camera_dims_cons (l : ObjectLit F) (ls : List (ObjectLit F)) (d : Dbl F × Dbl F) :
    camera_dims (l :: ls) d
      = camera_dims ls (if l.type = Variant.camera then
          l.fields.foldl (fun d f => store_camera_field f d) d else d) := rfl

theorem objects_loop_wf (io : Stdio F) (trailing : List Char) (objs : List (ObjectLit F))
    (hwf : ∀ l ∈ objs, l.WF io) (hne : objs ≠ []) :
    ∀ (pre post : List (Object F)) (cw ch : Dbl F) (msgs : List Err) (line : Int) (fuel : Nat),
      count_objects objs ≤ post.length → fuel_needed objs ≤ fuel →
      objects_loop io fuel
          ⟨⟨objects_text objs trailing, line⟩, false, ⟨pre.length, pre ++ post, cw, ch, msgs⟩⟩
        = Res.ok ⟨pre.length + count_objects objs,
            pre ++ build_objects (objs.filter (fun o => o.type ≠ Variant.camera)) post,
            (camera_dims objs (cw, ch)).1, (camera_dims objs (cw, ch)).2, msgs⟩ := by
  induction objs with
  | nil => exact absurd rfl hne
  | cons l ls ih =>
    intro pre post cw ch msgs line fuel hcap hfuel
    have hl := hwf l (List.mem_cons_self _ _)
    have hls : ∀ x ∈ ls, x.WF io := fun x hx => hwf x (List.mem_cons_of_mem _ hx)
    simp only [fuel_needed] at hfuel
    obtain ⟨k, rfl⟩ : ∃ k, fuel = k + 1 := ⟨fuel - 1, by omega⟩
    obtain ⟨rest, htext, hrest⟩ := objects_text_head l ls trailing
    obtain ⟨inp, hinp⟩ := object_text_brace l rest
    unfold objects_loop
    simp only [htext, hinp]
    rw [if_pos trivial]
    rw [count_objects_cons] at hcap ⊢
    rw [filter_objects_cons, camera_dims_cons]
    by_cases ht : l.type = Variant.camera
    · simp only [ht, if_true] at hcap ⊢
      obtain ⟨l1, e1⟩ := read_object_camera io l hl ht rest line
        ⟨pre.length, pre ++ post, cw, ch, msgs⟩ k (by omega) inp hinp.symm
      rw [e1]
      simp only [Res.ok_bind]
      refine objects_loop_tail io trailing l hl.2.2.2.2.1 hl.2.2.2.2.2.1 ls rest hrest k l1 _ _
        ?_ ?_
      · rintro rfl
        simp [count_objects, camera_dims, build_objects]
      · intro hls1 line1
        exact ih hls hls1 pre post _ _ msgs line1 k hcap (by omega)
    · simp only [ht, if_false] at hcap ⊢
      obtain ⟨o, post1, rfl⟩ : ∃ o post1, post = o :: post1 := by
        cases post with
        | nil => simp at hcap
        | cons o post1 => exact ⟨o, post1, rfl⟩
      obtain ⟨l1, e1⟩ := read_object_solid io l hl ht rest line pre o post1 cw ch msgs k
        (by omega) inp hinp.symm
      rw [e1]
      simp only [Res.ok_bind]
      refine objects_loop_tail io trailing l hl.2.2.2.2.1 hl.2.2.2.2.2.1 ls rest hrest k l1 _ _
        ?_ ?_
      · rintro rfl
        simp [count_objects, camera_dims, build_objects]
      · intro hls1 line1
        have h := ih hls hls1 (pre ++ [build_object l o]) post1 cw ch msgs line1 k
          (by simp only [List.length_cons] at hcap; omega) (by omega)
        simp only [List.length_append, List.length_singleton, List.append_assoc,
          List.singleton_append] at h
        rw [h]
        simp only [build_objects, Nat.add_assoc, Nat.add_comm 1]

end SceneTheorems

section SceneFileTheorems

variable {F : Type}

theorem value_text_length (v : FieldValue F) (rest : List Char) :
    rest.length ≤ (v.text rest).length := by
  cases v with
  | number n => simp [FieldValue.text]
  | vector v =>
    simp only [FieldValue.text, VecLit.text, List.length_cons, List.length_append]
    omega

theorem fields_text_length (fs : List (FieldLit F)) (rest : List Char) :
    fs.length + rest.length ≤ (fields_text fs rest).length := by
  induction fs with
  | nil => simp [fields_text]
  | cons f fs ih =>
    have h := value_text_length f.value (f.w4 ++ fields_text fs rest)
    simp only [fields_text, FieldLit.text, List.length_cons, List.length_append] at h ⊢
    omega

theorem object_text_length (l : ObjectLit F) (rest : List Char) :
    l.fields.length + 2 + rest.length ≤ (l.text rest).length := by
  have h := fields_text_length l.fields ('}' :: (l.w5 ++ rest))
  simp only [ObjectLit.text, List.length_cons, List.length_append] at h ⊢
  omega

theorem objects_text_length (objs : List (ObjectLit F)) (trailing : List Char) :
    fuel_needed objs ≤ (objects_text objs trailing).length := by
  induction objs with
  | nil => simp [fuel_needed]
  | cons l ls ih =>
    obtain ⟨rest, htext, hrest⟩ := objects_text_head l ls trailing
    have h := object_text_length l rest
    rw [htext]
    simp only [fuel_needed]
    rcases hrest with ⟨rfl, rfl⟩ | ⟨-, rfl⟩
    · simp only [fuel_needed, List.length_cons] at h ⊢
      omega
    · simp only [List.length_cons, List.length_append] at h
      omega

theorem read_scene_wf (io : Stdio F) (w0 w1 : List Char) (objs : List (ObjectLit F))
    (trailing : List Char) (hw0 : White w0) (hw1 : White w1) (hwf : ∀ l ∈ objs, l.WF io)
    (hne : objs ≠ []) (g : Scene F) (line : Int) (fuel : Nat)
    (hcap : count_objects objs ≤ g.objects.length)
    (hfuel : (scene_text w0 w1 objs trailing).length ≤ fuel) :
    read_scene io fuel (some (scene_text w0 w1 objs trailing)) line g
      = Res.ok (described_scene objs g) := by
  obtain ⟨l, ls, rfl⟩ : ∃ l ls, objs = l :: ls := by
    cases objs with
    | nil => exact absurd rfl hne
    | cons l ls => exact ⟨l, ls, rfl⟩
  obtain ⟨rest, htext, -⟩ := objects_text_head l ls trailing
  obtain ⟨inp, hinp⟩ := object_text_brace l rest
  have hlen := objects_text_length (l :: ls) trailing
  simp only [scene_text, List.length_append, List.length_cons] at hfuel
  unfold read_scene scene_text
  simp only
  obtain ⟨l1, e1⟩ := skip_ws_white w0 hw0 '[' (by decide)
    (w1 ++ objects_text (l :: ls) trailing) line
  rw [e1]
  simp only [Res.ok_bind, expect_c_head]
  have hsk := skip_ws_white w1 hw1 '{' (by decide) inp (bump '[' l1)
  rw [← hinp, ← htext] at hsk
  obtain ⟨l2, e2⟩ := hsk
  rw [e2]
  simp only [Res.ok_bind]
  have h := objects_loop_wf io trailing (l :: ls) hwf hne [] g.objects g.cw g.ch g.stderr l2
    fuel hcap (by omega)
  simp only [List.length_nil, List.nil_append, Nat.zero_add] at h
  rw [h]
  rfl

theorem build_object_kind (l : ObjectLit F) (o : Object F) :
    (build_object l o).kind = l.type.kind := by
  unfold build_object
  have h : ∀ (fs : List (FieldLit F)) (o : Object F),
      (fs.foldl (fun o f => store_field f o) o).kind = o.kind := by
    intro fs
    induction fs with
    | nil => intro o; rfl
    | cons f fs ih => intro o; rw [List.foldl_cons, ih, store_field_kind]
  rw [h]

theorem build_objects_take (ls : List (ObjectLit F)) (os : List (Object F))
    (h : ls.length ≤ os.length) :
    (build_objects ls os).take ls.length = List.zipWith build_object ls os ∧
    (build_objects ls os).drop ls.length = os.drop ls.length ∧
    ((build_objects ls os).take ls.length).map (fun o => o.kind)
      = ls.map (fun l => l.type.kind) := by
  induction ls generalizing os with
  | nil => simp [build_objects]
  | cons l ls ih =>
    cases os with
    | nil => simp at h
    | cons o os =>
      obtain ⟨h1, h2, h3⟩ := ih os (by simpa using h)
      simp only [build_objects, List.length_cons, List.take_succ_cons, List.zipWith_cons_cons,
        List.drop_succ_cons, List.map_cons, h1, h2, build_object_kind, true_and]
      rw [← h1, h3]

end SceneFileTheorems

section ObjectCount

variable {F : Type}

/-- C3: for a well-formed scene file whose spheres and planes fit in the array `objects`,
`read_scene` returns; `numObjects` is the number of literals that are not cameras, the slots
`objects[0..numObjects-1]` hold the spheres and planes of the file in input order (literal
`i` built on the former content of slot `i`), each with the kind of its `"type"`, and the
slots behind them are unchanged, so that a camera takes no slot. -/
theorem read_scene_counts_objects (io : Stdio F) (w0 w1 : List Char)
    (objs : List (ObjectLit F)) (trailing : List Char) (hw0 : White w0) (hw1 : White w1)
    (hwf : ∀ l ∈ objs, l.WF io) (g : Scene F) (line : Int) (fuel : Nat)
    (hcap : count_objects objs ≤ g.objects.length)
    (hfuel : (scene_text w0 w1 objs trailing).length ≤ fuel) :
    ∃ g1, read_scene io fuel (some (scene_text w0 w1 objs trailing)) line g = Res.ok g1 ∧
      g1.numObjects = (objs.filter (fun o => o.type ≠ Variant.camera)).length ∧
      g1.objects.take g1.numObjects
        = List.zipWith build_object (objs.filter (fun o => o.type ≠ Variant.camera))
            g.objects ∧
      (g1.objects.take g1.numObjects).map (fun o => o.kind)
        = (objs.filter (fun o => o.type ≠ Variant.camera)).map (fun l => l.type.kind) ∧
      g1.objects.drop g1.numObjects = g.objects.drop g1.numObjects := by
  by_cases hne : objs = []
  · subst hne
    simp only [scene_text, objects_text, List.length_append, List.length_cons] at hfuel
    obtain ⟨k, rfl⟩ : ∃ k, fuel = k + 1 := ⟨fuel - 1, by omega⟩
    refine ⟨⟨0, g.objects, g.cw, g.ch, g.stderr ++ [Err.worstSceneFile]⟩, ?_, ?_⟩
    · unfold read_scene scene_text
      simp only [objects_text]
      obtain ⟨l1, e1⟩ := skip_ws_white w0 hw0 '[' (by decide) (w1 ++ ']' :: trailing) line
      rw [e1]
      simp only [Res.ok_bind, expect_c_head]
      obtain ⟨l2, e2⟩ := skip_ws_white w1 hw1 ']' (by decide) trailing (bump '[' l1)
      rw [e2]
      rfl
    · simp
  · refine ⟨described_scene objs g, read_scene_wf io w0 w1 objs trailing hw0 hw1 hwf hne g
      line fuel hcap hfuel, rfl, ?_⟩
    obtain ⟨h1, h2, h3⟩ := build_objects_take
      (objs.filter (fun o => o.type ≠ Variant.camera)) g.objects hcap
    exact ⟨h1, h3, h2⟩

theorem white_of_all (w : List Char) (h : w.all isspace = true) : White w := by
  intro c hc
  exact List.all_eq_true.mp h c hc

/-- C3, witness: the example file of the specification, with one camera and one sphere, read
into an array of two slots. -/
theorem read_scene_counts_objects_witness :
    scene_text [] [Char.ofNat 10, ' ', ' '] [camera_lit, sphere_lit] [Char.ofNat 10]
      = example_file ∧
    ∃ g1, read_scene (stdio_decimal ℚ) example_file.length (some example_file) 1 example_globals
        = Res.ok g1 ∧
      g1.numObjects = 1 ∧
      (g1.objects.take g1.numObjects).map (fun o => o.kind) = [1] := by
  have htext : scene_text [] [Char.ofNat 10, ' ', ' '] [camera_lit, sphere_lit] [Char.ofNat 10]
      = example_file := by decide
  have hnum : ∀ d : Char, isdigit d = true → (num (String.mk [d])).WF (stdio_decimal ℚ) :=
    fun d hd => digits_wf d [] (by simpa using hd)
  have hvec : ∀ a b c : Char, isdigit a = true → isdigit b = true → isdigit c = true →
      (vec3 (String.mk [a]) (String.mk [b]) (String.mk [c])).WF (stdio_decimal ℚ) :=
    fun a b c ha hb hc => ⟨white_nil, white_nil, white_nil, white_nil, white_nil, white_nil,
      hnum a ha, hnum b hb, hnum c hc⟩
  have hcam : camera_lit.WF (stdio_decimal ℚ) := by
    refine ⟨white_space, white_nil, white_space, white_nil, white_nil,
      white_of_all _ (by decide), ?_⟩
    refine List.forall_mem_cons.mpr ⟨?_, List.forall_mem_cons.mpr ⟨?_, fun _ h => by cases h⟩⟩
    · exact ⟨white_space, white_nil, white_space, white_nil, Or.inl rfl, hnum '2' (by decide)⟩
    · exact ⟨white_space, white_nil, white_space, white_space, Or.inr rfl,
        hnum '2' (by decide)⟩
  have hsph : sphere_lit.WF (stdio_decimal ℚ) := by
    refine ⟨white_space, white_nil, white_space, white_nil, white_of_all _ (by decide),
      white_nil, ?_⟩
    refine List.forall_mem_cons.mpr ⟨?_, List.forall_mem_cons.mpr ⟨?_,
      List.forall_mem_cons.mpr ⟨?_, fun _ h => by cases h⟩⟩⟩
    · exact ⟨white_space, white_nil, white_space, white_nil, Or.inr rfl,
        hvec '0' '0' '5' (by decide) (by decide) (by decide)⟩
    · exact ⟨white_space, white_nil, white_space, white_nil, rfl, hnum '1' (by decide)⟩
    · exact ⟨white_space, white_nil, white_space, white_space, Or.inl rfl,
        hvec '1' '0' '0' (by decide) (by decide) (by decide)⟩
  refine ⟨htext, ?_⟩
  obtain ⟨g1, h1, h2, -, h4, -⟩ := read_scene_counts_objects (stdio_decimal ℚ) []
    [Char.ofNat 10, ' ', ' '] [camera_lit, sphere_lit] [Char.ofNat 10] white_nil
    (white_of_all _ (by decide))
    (List.forall_mem_cons.mpr ⟨hcam, List.forall_mem_cons.mpr ⟨hsph, fun _ h => by cases h⟩⟩)
    example_globals 1 example_file.length (by decide) (by rw [htext])
  rw [htext] at h1
  exact ⟨g1, h1, h2, h4⟩

end ObjectCount

/-! ## The radius of a sphere -/

section RadiusTheorems

variable {F : Type} [LinearOrderedField F]

end RadiusTheorems

section RadiusRendering

variable {F : Type} [LinearOrderedField F] [FloorRing F]

end RadiusRendering

/-! ## The ray/plane intersection -/

section PlaneSign

variable {F : Type} [DblArith F]

theorem plane_intersection_sign (Ro Rd P N : Vec3 F) :
    plane_intersection Ro Rd P N = -(Dbl.lit 1) ∨
    Dbl.gt (plane_intersection Ro Rd P N) (Dbl.lit 0) = true := by
  unfold plane_intersection
  simp only
  split_ifs with h
  · exact Or.inr h
  · exact Or.inl rfl

end PlaneSign

section PlaneTheorems

variable {F : Type} [LinearOrderedField F]

theorem plane_intersection_fin (ox oy oz dx dy dz px py pz nx ny nz : F) :
    plane_intersection (Vec3.ofFin ox oy oz) (Vec3.ofFin dx dy dz) (Vec3.ofFin px py pz)
      (Vec3.ofFin nx ny nz)
    = (if nx * dx + ny * dy + nz * dz = 0 then
        if 0 < -(nx * ox + ny * oy + nz * oz + -(nx * px + ny * py + nz * pz)) then Dbl.pinf
        else Dbl.fin (-1)
       else
        if 0 < -(nx * ox + ny * oy + nz * oz + -(nx * px + ny * py + nz * pz)) /
            (nx * dx + ny * dy + nz * dz) then
          Dbl.fin (-(nx * ox + ny * oy + nz * oz + -(nx * px + ny * py + nz * pz)) /
            (nx * dx + ny * dy + nz * dz))
        else Dbl.fin (-1)) := by
  simp only [plane_intersection, Vec3.ofFin, Dbl.fin_add_fin, Dbl.fin_mul_fin, Dbl.neg_fin,
    Dbl.lit_eq_fin, Nat.cast_zero, Nat.cast_one]
  by_cases hden : nx * dx + ny * dy + nz * dz = 0
  · rw [if_pos hden, hden]
    show (if Dbl.gt (Exact.div (Dbl.fin _) (Dbl.fin 0)) (Dbl.fin 0) = true then
      Exact.div (Dbl.fin _) (Dbl.fin 0) else _) = _
    simp only [Dbl.div_exact, Exact.div, if_true, Exact.infOfSign]
    by_cases hpos : 0 < -(nx * ox + ny * oy + nz * oz + -(nx * px + ny * py + nz * pz))
    · simp only [hpos, if_true, Dbl.gt_exact, Dbl.lt_exact, Exact.lt]
    · rw [if_neg hpos, if_neg hpos]
      split_ifs with h1 h2 h3 <;> first | rfl | exact absurd h2 (by simp [Dbl.gt_exact, Dbl.lt_exact, Exact.lt]) | exact absurd h3 (by simp [Dbl.gt_exact, Dbl.lt_exact, Exact.lt])
  · rw [if_neg hden, Dbl.fin_div_fin _ _ hden]
    simp only [Dbl.gt_fin_fin, decide_eq_true_eq]

/-- C15, counterexample: in binary64 arithmetic, the plane through `P = (2^53, 1, -2^53)` with
normal `N = (1, 1, 1)` and the ray `(0,0,1)` from the origin: `N.Rd = 1` and the ray meets the
plane at `t = 1`, which is what real arithmetic gives, but the code returns `-1`: in
`N.P = 2^53 + 1 - 2^53` the first sum is rounded to `2^53`, so `D` and `t` are zero. -/
theorem plane_offset_rounds :
    plane_intersection (vec 0 0 0) (vec 0 0 1) (vec (2 ^ 53) 1 (-(2 ^ 53))) (vec 1 1 1)
      = -(Dbl.lit 1) ∧
    plane_intersection (Vec3.ofFin 0 0 0) (Vec3.ofFin 0 0 1)
        (Vec3.ofFin ((2 : ℚ) ^ 53) 1 (-((2 : ℚ) ^ 53))) (Vec3.ofFin 1 1 1)
      = Dbl.fin (1 : ℚ) := by
  refine ⟨by decide!, ?_⟩
  rw [plane_intersection_fin]
  norm_num

/-- C15, amended: in real arithmetic, for finite `Ro`, `Rd`, `P`, `N` with `N.Rd ≠ 0` let
`t = -(N.Ro - N.P) / (N.Rd)`.  Then `t` is the only parameter for which the point
`Ro + t*Rd` lies on the plane through `P` with normal `N`, and `plane_intersection` returns
`t` when `t > 0` and `-1` when `t ≤ 0`.  In binary64 arithmetic the result is, for all
arguments, `-1` or a value that compares greater than `0`, and the ray `(0,0,1)` from the
origin meets the plane through `(0,0,2)` with normal `(0,0,1)` at `2`. -/
theorem plane_intersection_not_parallel (ox oy oz dx dy dz px py pz nx ny nz : F)
    (hden : nx * dx + ny * dy + nz * dz ≠ 0) :
    (∃ t : F,
      t = -((nx * ox + ny * oy + nz * oz) - (nx * px + ny * py + nz * pz)) /
        (nx * dx + ny * dy + nz * dz) ∧
      nx * (ox + t * dx - px) + ny * (oy + t * dy - py) + nz * (oz + t * dz - pz) = 0 ∧
      (∀ s : F,
        nx * (ox + s * dx - px) + ny * (oy + s * dy - py) + nz * (oz + s * dz - pz) = 0 →
        s = t) ∧
      (0 < t → plane_intersection (Vec3.ofFin ox oy oz) (Vec3.ofFin dx dy dz)
        (Vec3.ofFin px py pz) (Vec3.ofFin nx ny nz) = Dbl.fin t) ∧
      (t ≤ 0 → plane_intersection (Vec3.ofFin ox oy oz) (Vec3.ofFin dx dy dz)
        (Vec3.ofFin px py pz) (Vec3.ofFin nx ny nz) = Dbl.fin (-1))) ∧
    (∀ Ro Rd P N : Vec3 B64,
      plane_intersection Ro Rd P N = -(Dbl.lit 1) ∨
      Dbl.gt (plane_intersection Ro Rd P N) (Dbl.lit 0) = true) ∧
    plane_intersection (vec 0 0 0) (vec 0 0 1) (vec 0 0 2) (vec 0 0 1) = Dbl.ofInt 2 := by
  refine ⟨?_, fun Ro Rd P N => plane_intersection_sign Ro Rd P N, by decide!⟩
  obtain ⟨t, ht0⟩ : ∃ t : F, t = -((nx * ox + ny * oy + nz * oz)
      - (nx * px + ny * py + nz * pz)) / (nx * dx + ny * dy + nz * dz) := ⟨_, rfl⟩
  refine ⟨t, ht0, ?_⟩
  have ht : t * (nx * dx + ny * dy + nz * dz)
      = -((nx * ox + ny * oy + nz * oz) - (nx * px + ny * py + nz * pz)) := by
    rw [ht0]
    exact div_mul_cancel₀ _ hden
  have hres : plane_intersection (Vec3.ofFin ox oy oz) (Vec3.ofFin dx dy dz)
      (Vec3.ofFin px py pz) (Vec3.ofFin nx ny nz)
      = if 0 < t then Dbl.fin t else Dbl.fin (-1) := by
    rw [plane_intersection_fin, if_neg hden]
    have e : -(nx * ox + ny * oy + nz * oz + -(nx * px + ny * py + nz * pz)) /
        (nx * dx + ny * dy + nz * dz) = t := by
      rw [ht0]
      congr 1
      ring
    rw [e]
  refine ⟨?_, ?_, ?_, ?_⟩
  · have : nx * (ox + t * dx - px) + ny * (oy + t * dy - py) + nz * (oz + t * dz - pz)
        = t * (nx * dx + ny * dy + nz * dz)
          + ((nx * ox + ny * oy + nz * oz) - (nx * px + ny * py + nz * pz)) := by ring
    rw [this, ht]; ring
  · intro s hs
    have h1 : s * (nx * dx + ny * dy + nz * dz)
        = -((nx * ox + ny * oy + nz * oz) - (nx * px + ny * py + nz * pz)) := by
      have : nx * (ox + s * dx - px) + ny * (oy + s * dy - py) + nz * (oz + s * dz - pz)
          = s * (nx * dx + ny * dy + nz * dz)
            + ((nx * ox + ny * oy + nz * oz) - (nx * px + ny * py + nz * pz)) := by ring
      rw [this] at hs
      linarith
    exact mul_right_cancel₀ hden (h1.trans ht.symm)
  · intro h
    rw [hres, if_pos h]
  · intro h
    rw [hres, if_neg (not_lt.mpr h)]

/-- C15, witness: the ray `(0,0,1)` from the origin meets the plane `z = 2` at distance 2, in
real arithmetic and, the operations being exact on these values, in binary64 arithmetic. -/
theorem plane_intersection_not_parallel_witness :
    ((0 : ℚ) * 0 + 0 * 0 + 1 * 1 ≠ 0) ∧
    plane_intersection origin forward (Vec3.ofFin 0 0 2) (Vec3.ofFin 0 0 1) = Dbl.fin 2 ∧
    plane_intersection (vec 0 0 0) (vec 0 0 1) (vec 0 0 2) (vec 0 0 1) = Dbl.ofInt 2 := by
  obtain ⟨⟨t, ht, -, -, h3, -⟩, -, h5⟩ :=
    plane_intersection_not_parallel (0 : ℚ) 0 0 0 0 1 0 0 2 0 0 1 (by norm_num)
  have h2 : t = 2 := by rw [ht]; norm_num
  subst h2
  exact ⟨by norm_num, h3 (by norm_num), h5⟩

end PlaneTheorems

section ParallelTheorems

variable {F : Type} [DblArith F]

/-- C12, counterexample: in binary64 arithmetic, the ray `(1,0,0)` from the origin is parallel
to the plane through `(0,0,1)` with normal `(0,0,1)`: the divisor `N.Rd` compares equal to
zero and `plane_intersection` returns `+inf`, not `-1`. -/
theorem parallel_plane_returns_infinity :
    Dbl.ne ((Dbl.ofInt 0 * Dbl.ofInt 1 + Dbl.ofInt 0 * Dbl.ofInt 0
      + Dbl.ofInt 1 * Dbl.ofInt 0 : Dbl B64)) (Dbl.lit 0) = false ∧
    plane_intersection (vec 0 0 0) (vec 1 0 0) (vec 0 0 1) (vec 0 0 1) = Dbl.pinf ∧
    (Dbl.pinf : Dbl B64) ≠ -(Dbl.lit 1) := by
  refine ⟨by decide!, by decide!, by decide!⟩

/-- C12, amended: in binary64 arithmetic as in real arithmetic (any arithmetic with the laws
`DblLaws`), for all `Ro`, `Rd`, `P`, `N` for which the divisor `N.Rd`, as the code computes
it, compares equal to zero, `plane_intersection` returns `+inf` or `-1`, and the loop of
`raycast` over the objects never takes a plane with such a ray as the nearest object: the
plane leaves `best_t` and `object` as they are. -/
theorem plane_intersection_parallel (hl : DblLaws F) (Ro Rd P N : Vec3 F)
    (hden : Dbl.ne (N.x * Rd.x + N.y * Rd.y + N.z * Rd.z) (Dbl.lit 0) = false) :
    (plane_intersection Ro Rd P N = Dbl.pinf ∨ plane_intersection Ro Rd P N = -(Dbl.lit 1)) ∧
    (∀ (sqrt : F → F) (o : Object F) (os : List (Object F)) (best_t : Dbl F)
      (object : Option (Object F)), o.kind = 0 → o.plane_position = P →
      o.plane_normal = N →
      closest_loop sqrt Ro Rd (o :: os) best_t object
        = closest_loop sqrt Ro Rd os best_t object) := by
  have hres : plane_intersection Ro Rd P N = Dbl.pinf ∨
      plane_intersection Ro Rd P N = -(Dbl.lit 1) := by
    unfold plane_intersection
    rcases hl.div_zero
      (-(N.x * Ro.x + N.y * Ro.y + N.z * Ro.z + -(N.x * P.x + N.y * P.y + N.z * P.z)))
      (N.x * Rd.x + N.y * Rd.y + N.z * Rd.z) hden with h | h | h
    · simp only [h]
      split_ifs
      · exact Or.inl rfl
      · exact Or.inr rfl
    · simp only [h]
      rw [if_neg]
      · exact Or.inr rfl
      · rw [show Dbl.gt (Dbl.ninf : Dbl F) (Dbl.lit 0) = Dbl.lt (Dbl.lit 0) Dbl.ninf from rfl,
          hl.lt_ninf_right]
        exact Bool.false_ne_true
    · simp only [h]
      rw [if_neg]
      · exact Or.inr rfl
      · rw [show Dbl.gt (Dbl.nan : Dbl F) (Dbl.lit 0) = Dbl.lt (Dbl.lit 0) Dbl.nan from rfl,
          hl.lt_nan_right]
        exact Bool.false_ne_true
  refine ⟨hres, ?_⟩
  intro sqrt o os best_t object hk hp hn
  simp only [closest_loop, object_distance, if_pos hk, hp, hn, Res.ok_bind]
  have hc : (Dbl.gt (plane_intersection Ro Rd P N) (Dbl.lit 0) &&
      Dbl.lt (plane_intersection Ro Rd P N) best_t) = false := by
    rcases hres with h | h
    · rw [h, hl.lt_pinf_left]
      exact Bool.and_false _
    · rw [h, hl.gt_minus_one]
      exact Bool.false_and _
  rw [hc]
  simp only [Bool.false_eq_true, if_false]

/-- C12, witness: in binary64 arithmetic, the plane through `(0,0,1)` with normal `(0,0,1)`
and the ray `(1,0,0)` from the origin give `+inf`; the plane through `(0,0,-1)` with normal
`(0,0,-1)` and the ray `(-1,-1,0)` give `-1`: the divisor is `-0.0` and the quotient
`-inf`. -/
theorem plane_intersection_parallel_witness :
    (plane_intersection (vec 0 0 0) (vec 1 0 0) (vec 0 0 1) (vec 0 0 1) = Dbl.pinf ∨
      plane_intersection (vec 0 0 0) (vec 1 0 0) (vec 0 0 1) (vec 0 0 1) = -(Dbl.lit 1)) ∧
    plane_intersection (vec 0 0 0) (vec 1 0 0) (vec 0 0 1) (vec 0 0 1) = Dbl.pinf ∧
    plane_intersection (vec 0 0 0) (vec (-1) (-1) 0) (vec 0 0 (-1)) (vec 0 0 (-1))
      = -(Dbl.lit 1) ∧
    (Dbl.ofInt 0 * Dbl.ofInt (-1) + Dbl.ofInt 0 * Dbl.ofInt (-1)
      + Dbl.ofInt (-1) * Dbl.ofInt 0 : Dbl B64) = Dbl.fin (B64.zero true) :=
  ⟨(plane_intersection_parallel ieee_laws (vec 0 0 0) (vec 1 0 0) (vec 0 0 1) (vec 0 0 1)
      (by decide!)).1,
    by decide!, by decide!, by decide!⟩

end ParallelTheorems


/-! ## Ties -/

section TieLemmas

variable {F : Type} [DblArith F]

theorem closest_loop_keeps (sqrt : F → F) (Ro Rd : Vec3 F) (o : Object F) (d : Dbl F)
    (post : List (Object F)) (hk : ∀ p ∈ post, p.kind = 0 ∨ p.kind = 1)
    (hpost : ∀ p ∈ post, ∀ t, object_distance sqrt Ro Rd p = Res.ok t →
      Dbl.gt t (Dbl.lit 0) = true → Dbl.lt t d = false) :
    closest_loop sqrt Ro Rd post d (some o) = Res.ok (d, some o) := by
  induction post with
  | nil => rfl
  | cons p ps ih =>
    obtain ⟨t, ht⟩ := object_distance_ok sqrt Ro Rd p (hk p (List.mem_cons_self _ _))
    have hc : (Dbl.gt t (Dbl.lit 0) && Dbl.lt t d) = false := by
      cases hg : Dbl.gt t (Dbl.lit 0) with
      | false => simp
      | true => simp [hpost p (List.mem_cons_self _ _) t ht hg]
    simp only [closest_loop, ht, Res.ok_bind, hc, Bool.false_eq_true, if_false]
    exact ih (fun q hq => hk q (List.mem_cons_of_mem _ hq))
      (fun q hq => hpost q (List.mem_cons_of_mem _ hq))

theorem closest_loop_first (sqrt : F → F) (Ro Rd : Vec3 F) (o : Object F) (d : Dbl F)
    (hd : object_distance sqrt Ro Rd o = Res.ok d) (hpos : Dbl.gt d (Dbl.lit 0) = true)
    (post : List (Object F)) (hkpost : ∀ p ∈ post, p.kind = 0 ∨ p.kind = 1)
    (hpost : ∀ p ∈ post, ∀ t, object_distance sqrt Ro Rd p = Res.ok t →
      Dbl.gt t (Dbl.lit 0) = true → Dbl.lt t d = false)
    (pre : List (Object F)) :
    ∀ (best_t : Dbl F) (object : Option (Object F)),
    (∀ p ∈ pre, p.kind = 0 ∨ p.kind = 1) →
    (∀ p ∈ pre, ∀ t, object_distance sqrt Ro Rd p = Res.ok t →
      Dbl.gt t (Dbl.lit 0) = true → Dbl.lt d t = true) →
    Dbl.lt d best_t = true →
    closest_loop sqrt Ro Rd (pre ++ o :: post) best_t object = Res.ok (d, some o) := by
  induction pre with
  | nil =>
    intro best_t object _ _ hb
    simp only [List.nil_append, closest_loop, hd, Res.ok_bind, hb, hpos, Bool.and_self,
      if_true]
    exact closest_loop_keeps sqrt Ro Rd o d post hkpost hpost
  | cons p ps ih =>
    intro best_t object hk hpre hb
    obtain ⟨t, ht⟩ := object_distance_ok sqrt Ro Rd p (hk p (List.mem_cons_self _ _))
    have hk1 : ∀ q ∈ ps, q.kind = 0 ∨ q.kind = 1 := fun q hq => hk q (List.mem_cons_of_mem _ hq)
    have hpre1 : ∀ q ∈ ps, ∀ t, object_distance sqrt Ro Rd q = Res.ok t →
        Dbl.gt t (Dbl.lit 0) = true → Dbl.lt d t = true :=
      fun q hq => hpre q (List.mem_cons_of_mem _ hq)
    simp only [List.cons_append, closest_loop, ht, Res.ok_bind]
    by_cases hc : (Dbl.gt t (Dbl.lit 0) && Dbl.lt t best_t) = true
    · rw [if_pos hc]
      simp only [Bool.and_eq_true] at hc
      exact ih t (some p) hk1 hpre1 (hpre p (List.mem_cons_self _ _) t ht hc.1)
    · rw [if_neg hc]
      exact ih best_t object hk1 hpre1 hb

end TieLemmas

section TieTheorems

variable {F : Type} [DblArith F] [DblConv F]

/-- C17: in binary64 arithmetic as in real arithmetic (any arithmetic with the laws `DblLaws`):
let `o` be the first object of the list whose distance along the ray, as the code computes
it, is the least positive distance `d`, a finite one: the objects before `o` are farther than
`d` or not hit, the objects behind `o` are not nearer than `d` and may be hit at `d` too.
Then the three channels of the pixel are the components of the colour of `o`, each times
`maxColor` and converted to `unsigned char`. -/
theorem first_of_ties_wins (hl : DblLaws F) (sqrt : F → F) (maxColor : Int) (Ro Rd : Vec3 F)
    (pre post : List (Object F)) (o : Object F) (d : Dbl F)
    (hk : ∀ p ∈ pre ++ o :: post, p.kind = 0 ∨ p.kind = 1)
    (hd : object_distance sqrt Ro Rd o = Res.ok d)
    (hpos : Dbl.gt d (Dbl.lit 0) = true) (hfin : Dbl.lt d Dbl.pinf = true)
    (hpre : ∀ p ∈ pre, ∀ t, object_distance sqrt Ro Rd p = Res.ok t →
      Dbl.gt t (Dbl.lit 0) = true → Dbl.lt d t = true)
    (hpost : ∀ p ∈ post, ∀ t, object_distance sqrt Ro Rd p = Res.ok t →
      Dbl.gt t (Dbl.lit 0) = true → Dbl.lt t d = false) :
    shade sqrt maxColor (pre ++ o :: post) Ro Rd
      = Res.ok ⟨to_uchar (o.color.x * Dbl.ofInt maxColor),
          to_uchar (o.color.y * Dbl.ofInt maxColor),
          to_uchar (o.color.z * Dbl.ofInt maxColor)⟩ := by
  have h := closest_loop_first sqrt Ro Rd o d hd hpos post
    (fun p hp => hk p (List.mem_append_right _ (List.mem_cons_of_mem _ hp))) hpost pre
    Dbl.pinf none (fun p hp => hk p (List.mem_append_left _ hp)) hpre hfin
  unfold shade
  rw [h]
  simp only [Res.ok_bind, hpos, hl.ne_of_lt _ _ hfin, Bool.and_self, if_true]
  rfl

/-- C17, witness: in binary64 arithmetic, a red and a blue plane, both at distance 2 on the
ray `(0,0,1)` from the origin: with the red plane first the pixel is `255 0 0`, with the blue
plane first it is `0 0 255`. -/
theorem first_of_ties_wins_witness :
    shade B64.sqrt 255 [flat 2 1 0 0, flat 2 0 0 1] (vec 0 0 0) (vec 0 0 1)
      = Res.ok ⟨255, 0, 0⟩ ∧
    shade B64.sqrt 255 [flat 2 0 0 1, flat 2 1 0 0] (vec 0 0 0) (vec 0 0 1)
      = Res.ok ⟨0, 0, 255⟩ := by
  have hkind : ∀ a b : Object B64, a.kind = 0 → b.kind = 0 →
      ∀ p ∈ [] ++ a :: [b], p.kind = 0 ∨ p.kind = 1 := by
    intro a b ha hb p hp
    rcases List.mem_cons.mp hp with h1 | hp
    · exact Or.inl (h1 ▸ ha)
    · rcases List.mem_cons.mp hp with h2 | hp
      · exact Or.inl (h2 ▸ hb)
      · cases hp
  have hpost : ∀ b : Object B64,
      object_distance B64.sqrt (vec 0 0 0) (vec 0 0 1) b = Res.ok (Dbl.ofInt 2) →
      ∀ p ∈ [b], ∀ t, object_distance B64.sqrt (vec 0 0 0) (vec 0 0 1) p = Res.ok t →
      Dbl.gt t (Dbl.lit 0) = true → Dbl.lt t (Dbl.ofInt 2 : Dbl B64) = false := by
    intro b hb p hp t ht _
    rcases List.mem_cons.mp hp with h1 | hp
    · rw [h1, hb] at ht
      rw [← Res.ok.inj ht]
      decide!
    · cases hp
  have e1 : object_distance B64.sqrt (vec 0 0 0) (vec 0 0 1) (flat 2 1 0 0)
      = Res.ok (Dbl.ofInt 2) := by decide!
  have e2 : object_distance B64.sqrt (vec 0 0 0) (vec 0 0 1) (flat 2 0 0 1)
      = Res.ok (Dbl.ofInt 2) := by decide!
  have h1 := first_of_ties_wins ieee_laws B64.sqrt 255 (vec 0 0 0) (vec 0 0 1) []
    [flat 2 0 0 1] (flat 2 1 0 0) (Dbl.ofInt 2) (hkind _ _ rfl rfl) e1 (by decide!)
    (by decide!) (fun _ h => by cases h) (hpost _ e2)
  have h2 := first_of_ties_wins ieee_laws B64.sqrt 255 (vec 0 0 0) (vec 0 0 1) []
    [flat 2 1 0 0] (flat 2 0 0 1) (Dbl.ofInt 2) (hkind _ _ rfl rfl) e2 (by decide!)
    (by decide!) (fun _ h => by cases h) (hpost _ e1)
  have c1 : (⟨to_uchar ((flat 2 1 0 0).color.x * Dbl.ofInt 255),
      to_uchar ((flat 2 1 0 0).color.y * Dbl.ofInt 255),
      to_uchar ((flat 2 1 0 0).color.z * Dbl.ofInt 255)⟩ : RGBpixel) = ⟨255, 0, 0⟩ := by
    decide!
  have c2 : (⟨to_uchar ((flat 2 0 0 1).color.x * Dbl.ofInt 255),
      to_uchar ((flat 2 0 0 1).color.y * Dbl.ofInt 255),
      to_uchar ((flat 2 0 0 1).color.z * Dbl.ofInt 255)⟩ : RGBpixel) = ⟨0, 0, 255⟩ := by
    decide!
  rw [c1] at h1
  rw [c2] at h2
  exact ⟨h1, h2⟩

end TieTheorems

/-! ## The channels of a pixel -/

section ChannelTheorems

variable {F : Type} [LinearOrderedField F] [FloorRing F]

theorem truncation_range (x : F) (h1 : -1 < x) (h2 : x < 256) :
    0 ≤ truncation x ∧ truncation x < 256 := by
  unfold truncation
  split_ifs with h
  · exact ⟨Int.floor_nonneg.mpr h, Int.floor_lt.mpr (by exact_mod_cast h2)⟩
  · have h3 : (-1 : Int) < ⌈x⌉ := Int.lt_ceil.mpr (by exact_mod_cast h1)
    have h4 : ⌈x⌉ ≤ 0 := Int.ceil_le.mpr (by exact_mod_cast le_of_lt (not_le.mp h))
    omega

end ChannelTheorems

/-! ## The channels of a pixel in binary64 arithmetic -/

section RoundLemmas

theorem bits_loop_spec (k n acc : Nat) (hn : n ≠ 0) :
    ∃ j, B64.bits_loop k n acc = acc + j + 1 ∧ 2 ^ j ≤ n := by
  induction k generalizing n acc with
  | zero =>
    refine ⟨0, ?_, Nat.one_le_iff_ne_zero.mpr hn⟩
    simp [B64.bits_loop, hn]
  | succ k ih =>
    unfold B64.bits_loop
    split_ifs with h
    · have hq : n / 2 ^ 2 ^ k ≠ 0 := by
        have hp : 0 < 2 ^ 2 ^ k := by positivity
        exact Nat.pos_iff_ne_zero.mp (Nat.div_pos h hp)
      obtain ⟨j, h1, h2⟩ := ih (n / 2 ^ 2 ^ k) (acc + 2 ^ k) hq
      refine ⟨2 ^ k + j, by rw [h1]; omega, ?_⟩
      calc 2 ^ (2 ^ k + j) = 2 ^ 2 ^ k * 2 ^ j := by rw [pow_add]
        _ ≤ 2 ^ 2 ^ k * (n / 2 ^ 2 ^ k) := Nat.mul_le_mul_left _ h2
        _ ≤ n := Nat.mul_div_le n _
    · exact ih n acc hn

theorem bits_spec (n : Nat) (hn : n ≠ 0) : ∃ j, B64.bits n = j + 1 ∧ 2 ^ j ≤ n := by
  obtain ⟨j, h1, h2⟩ := bits_loop_spec 13 n 0 hn
  exact ⟨j, by rw [B64.bits, h1, Nat.zero_add], h2⟩

theorem toRat_mk (s : Bool) (m : Nat) (e : Int) :
    B64.toRat ⟨s, m, e⟩ = (if s then -1 else 1) * (m : ℚ) * (2 : ℚ) ^ e := rfl

theorem pack_value (q : Nat) (e : Int) (he : e + 1 ≤ 971) :
    ∃ y : B64, B64.pack false q e = Dbl.fin y ∧ y.sign = false ∧
      y.toRat = (q : ℚ) * (2 : ℚ) ^ e := by
  unfold B64.pack
  have h1 : ¬ 971 < e + 1 := by omega
  have h2 : ¬ 971 < e := by omega
  by_cases hq : q = 2 ^ 53
  · rw [if_pos hq, if_neg h1]
    refine ⟨_, rfl, rfl, ?_⟩
    rw [toRat_mk, hq, zpow_add₀ (two_ne_zero)]
    norm_num
    ring
  · rw [if_neg hq, if_neg h2]
    refine ⟨_, rfl, rfl, ?_⟩
    rw [toRat_mk]
    simp

theorem round_up_cases (q r h : Nat) (hh : 0 < h) :
    B64.round_up q r h = q ∨ (B64.round_up q r h = q + 1 ∧ r ≠ 0) := by
  unfold B64.round_up
  split_ifs with hc
  · refine Or.inr ⟨rfl, ?_⟩
    rcases hc with hc | ⟨hc, -⟩ <;> omega
  · exact Or.inl rfl

theorem quotient_bound (A B Q R M : Nat) (hA : 0 < A) (hM : M ≤ B * A)
    (hdm : A * Q + R = M) : Q ≤ B ∧ (R ≠ 0 → Q + 1 ≤ B) := by
  have h1 : Q ≤ B := by
    by_contra hc
    have h3 : B + 1 ≤ Q := by omega
    have h4 : A * (B + 1) ≤ A * Q := Nat.mul_le_mul_left _ h3
    nlinarith
  refine ⟨h1, fun hR => ?_⟩
  by_contra hc
  have h3 : B ≤ Q := by omega
  have h4 : A * B ≤ A * Q := Nat.mul_le_mul_left _ h3
  have h5 : 0 < R := Nat.pos_of_ne_zero hR
  nlinarith

theorem round_le (M : Nat) (E : Int) (K : Nat) (hK : K < 2 ^ 53)
    (h : (M : ℚ) * (2 : ℚ) ^ E ≤ K) :
    ∃ y : B64, B64.round false M E = Dbl.fin y ∧ y.sign = false ∧ y.toRat ≤ K := by
  by_cases hM : M = 0
  · refine ⟨B64.zero false, by simp [B64.round, hM], rfl, ?_⟩
    simp [B64.zero, toRat_mk]
  obtain ⟨j, hj1, hj2⟩ := bits_spec M hM
  have h2pos : ∀ z : Int, (0 : ℚ) < (2 : ℚ) ^ z := fun z => zpow_pos (by norm_num) z
  -- the exponent of the leading digit is below 53
  have hjE : (j : Int) + E < 53 := by
    have h1 : ((2 : ℚ) ^ (j : Int)) * (2 : ℚ) ^ E ≤ (M : ℚ) * (2 : ℚ) ^ E := by
      apply mul_le_mul_of_nonneg_right _ (le_of_lt (h2pos E))
      rw [zpow_natCast]
      exact_mod_cast hj2
    have h3 : (2 : ℚ) ^ ((j : Int) + E) < (2 : ℚ) ^ ((53 : Nat) : Int) := by
      rw [zpow_add₀ (two_ne_zero), zpow_natCast 2 53]
      calc (2 : ℚ) ^ (j : Int) * (2 : ℚ) ^ E ≤ (M : ℚ) * (2 : ℚ) ^ E := h1
        _ ≤ (K : ℚ) := h
        _ < (2 : ℚ) ^ 53 := by exact_mod_cast hK
    have := (zpow_lt_zpow_iff_right₀ (by norm_num : (1 : ℚ) < 2)).mp h3
    simpa using this
  unfold B64.round
  rw [if_neg hM]
  simp only [hj1]
  clear hj1
  by_cases hs : max (((j + 1 : Nat) : Int) - 53) (-1074 - E) ≤ 0
  · rw [if_pos hs]
    have hE : ¬ 971 < E + max (((j + 1 : Nat) : Int) - 53) (-1074 - E) := by
      have : E < 53 := by omega
      omega
    rw [if_neg hE]
    refine ⟨_, rfl, rfl, ?_⟩
    rw [toRat_mk]
    generalize max (((j + 1 : Nat) : Int) - 53) (-1074 - E) = sh at hs ⊢
    have e1 : (2 : ℚ) ^ (E + sh) = (2 : ℚ) ^ E / (2 : ℚ) ^ (-sh).toNat := by
      rw [zpow_add₀ (two_ne_zero), ← zpow_natCast, Int.toNat_of_nonneg (by omega),
        zpow_neg, div_inv_eq_mul]
    rw [e1]
    push_cast
    have hp : ((2 : ℚ) ^ (-sh).toNat) ≠ 0 := by positivity
    have e2 : ∀ a : ℚ, a ≠ 0 →
        1 * ((M : ℚ) * a) * ((2 : ℚ) ^ E / a) = (M : ℚ) * (2 : ℚ) ^ E := by
      intro a ha
      field_simp
      ring
    rw [e2 _ hp]
    exact h
  · rw [if_neg hs]
    have hsig : E + max (((j + 1 : Nat) : Int) - 53) (-1074 - E) ≤ 0 := by
      rcases max_cases (((j + 1 : Nat) : Int) - 53) (-1074 - E) with ⟨h1, _⟩ | ⟨h1, _⟩ <;>
        rw [h1] <;> push_cast <;> omega
    generalize max (((j + 1 : Nat) : Int) - 53) (-1074 - E) = sh at hs hsig ⊢
    have hsh : 0 < sh := not_le.mp hs
    obtain ⟨s, rfl⟩ : ∃ s : Nat, sh = (s : Int) := ⟨sh.toNat, (Int.toNat_of_nonneg hsh.le).symm⟩
    have hs1 : 0 < s := by exact_mod_cast hsh
    simp only [Int.toNat_ofNat]
    obtain ⟨y, hy1, hy2, hy3⟩ := pack_value
      (B64.round_up (M / 2 ^ s) (M % 2 ^ s) (2 ^ (s - 1))) (E + (s : Int)) (by omega)
    refine ⟨y, hy1, hy2, ?_⟩
    rw [hy3]
    -- `K` in units of `2^(E+s)`
    obtain ⟨n, hn⟩ : ∃ n : Nat, -(E + (s : Int)) = (n : Int) :=
      ⟨(-(E + (s : Int))).toNat, (Int.toNat_of_nonneg (by omega)).symm⟩
    have e1 : (2 : ℚ) ^ (E + (s : Int)) = ((2 : ℚ) ^ n)⁻¹ := by
      have : E + (s : Int) = -(n : Int) := by omega
      rw [this, zpow_neg, zpow_natCast]
    have e2 : (2 : ℚ) ^ E = ((2 : ℚ) ^ n)⁻¹ * ((2 : ℚ) ^ s)⁻¹ := by
      have : E = -(n : Int) + -(s : Int) := by omega
      rw [this, zpow_add₀ (two_ne_zero), zpow_neg, zpow_neg, zpow_natCast, zpow_natCast]
    have hpn : (0 : ℚ) < (2 : ℚ) ^ n := by positivity
    have hps : (0 : ℚ) < (2 : ℚ) ^ s := by positivity
    have hM2 : M ≤ K * 2 ^ n * 2 ^ s := by
      rw [e2] at h
      have h1 : (M : ℚ) ≤ (K : ℚ) * (2 : ℚ) ^ n * (2 : ℚ) ^ s := by
        have h3 : (M : ℚ) * (((2 : ℚ) ^ n)⁻¹ * ((2 : ℚ) ^ s)⁻¹) * ((2 : ℚ) ^ n * (2 : ℚ) ^ s)
            ≤ (K : ℚ) * ((2 : ℚ) ^ n * (2 : ℚ) ^ s) :=
          mul_le_mul_of_nonneg_right h (by positivity)
        have h4 : (M : ℚ) * (((2 : ℚ) ^ n)⁻¹ * ((2 : ℚ) ^ s)⁻¹) * ((2 : ℚ) ^ n * (2 : ℚ) ^ s)
            = (M : ℚ) := by
          field_simp
        rw [h4] at h3
        linarith
      exact_mod_cast h1
    have hdm : 2 ^ s * (M / 2 ^ s) + M % 2 ^ s = M := Nat.div_add_mod M (2 ^ s)
    have hq : B64.round_up (M / 2 ^ s) (M % 2 ^ s) (2 ^ (s - 1)) ≤ K * 2 ^ n := by
      obtain ⟨h1, h2⟩ := quotient_bound (2 ^ s) (K * 2 ^ n) (M / 2 ^ s) (M % 2 ^ s) M
        (by positivity) hM2 hdm
      rcases round_up_cases (M / 2 ^ s) (M % 2 ^ s) (2 ^ (s - 1)) (by positivity) with
        h3 | ⟨h3, h4⟩
      · rw [h3]
        exact h1
      · rw [h3]
        exact h2 h4
    rw [e1]
    have h6 : ((B64.round_up (M / 2 ^ s) (M % 2 ^ s) (2 ^ (s - 1)) : Nat) : ℚ)
        ≤ (K : ℚ) * (2 : ℚ) ^ n := by exact_mod_cast hq
    rw [← div_eq_mul_inv, div_le_iff₀ hpn]
    exact h6

end RoundLemmas

section IeeeChannels

theorem round_exact (k : Nat) (hk : k < 2 ^ 53) :
    ∃ y : B64, B64.round false k 0 = Dbl.fin y ∧ y.sign = false ∧ y.toRat = k := by
  by_cases hM : k = 0
  · refine ⟨B64.zero false, by simp [B64.round, hM], rfl, ?_⟩
    simp [B64.zero, toRat_mk, hM]
  obtain ⟨j, hj1, hj2⟩ := bits_spec k hM
  have hj : j < 53 := by
    have h1 : 2 ^ j < 2 ^ 53 := lt_of_le_of_lt hj2 hk
    exact (Nat.pow_lt_pow_iff_right (by norm_num)).mp h1
  unfold B64.round
  rw [if_neg hM]
  simp only [hj1]
  clear hj1
  have hs : max (((j + 1 : Nat) : Int) - 53) (-1074 - 0) ≤ 0 := by
    exact max_le (by push_cast; omega) (by omega)
  rw [if_pos hs]
  have hE : ¬ 971 < 0 + max (((j + 1 : Nat) : Int) - 53) (-1074 - 0) := by omega
  rw [if_neg hE]
  refine ⟨_, rfl, rfl, ?_⟩
  rw [toRat_mk]
  generalize max (((j + 1 : Nat) : Int) - 53) (-1074 - 0) = sh at hs ⊢
  have e1 : (2 : ℚ) ^ (0 + sh) = ((2 : ℚ) ^ (-sh).toNat)⁻¹ := by
    rw [zero_add, ← zpow_natCast, Int.toNat_of_nonneg (by omega), zpow_neg, inv_inv]
  rw [e1]
  push_cast
  have hp : ((2 : ℚ) ^ (-sh).toNat) ≠ 0 := by positivity
  field_simp

theorem magnitude_floor (m : Nat) (e : Int) :
    ((if 0 ≤ e then m * 2 ^ e.toNat else m / 2 ^ (-e).toNat : Nat) : Int)
      = ⌊(m : ℚ) * (2 : ℚ) ^ e⌋ := by
  split_ifs with he
  · have e1 : (m : ℚ) * (2 : ℚ) ^ e = ((m * 2 ^ e.toNat : Nat) : ℚ) := by
      push_cast
      rw [← zpow_natCast, Int.toNat_of_nonneg he]
    rw [e1, Int.floor_natCast]
  · have e1 : (m : ℚ) * (2 : ℚ) ^ e = (m : ℚ) / ((2 ^ (-e).toNat : Nat) : ℚ) := by
      push_cast
      rw [← zpow_natCast, Int.toNat_of_nonneg (by omega), zpow_neg, div_inv_eq_mul]
    rw [e1, Rat.floor_natCast_div_natCast]
    rfl

theorem ieee_to_uchar_trunc (x : B64) :
    to_uchar (Dbl.fin x) = (truncation x.toRat % 256).toNat := by
  obtain ⟨s, m, e⟩ := x
  have hy : (0 : ℚ) ≤ (m : ℚ) * (2 : ℚ) ^ e := by positivity
  have ht : truncation (B64.toRat ⟨s, m, e⟩)
      = if s then -((if 0 ≤ e then m * 2 ^ e.toNat else m / 2 ^ (-e).toNat : Nat) : Int)
        else ((if 0 ≤ e then m * 2 ^ e.toNat else m / 2 ^ (-e).toNat : Nat) : Int) := by
    rw [magnitude_floor, toRat_mk]
    cases s with
    | false =>
      simp only [Bool.false_eq_true, if_false, one_mul]
      unfold truncation
      rw [if_pos hy]
    | true =>
      have e2 : (if true = true then (-1 : ℚ) else 1) * (m : ℚ) * (2 : ℚ) ^ e
          = -((m : ℚ) * (2 : ℚ) ^ e) := by
        simp only [if_true]
        ring
      rw [e2]
      simp only [if_true]
      unfold truncation
      split_ifs with h0
      · have h1 : (m : ℚ) * (2 : ℚ) ^ e = 0 := le_antisymm (by linarith) hy
        rw [h1]
        simp
      · exact Int.ceil_neg
  rw [ht]
  rfl

theorem ieee_to_uchar_lt (v : Dbl B64) : to_uchar v < 256 := by
  cases v with
  | fin x =>
    rw [ieee_to_uchar_trunc]
    generalize truncation x.toRat = z
    have h1 := Int.emod_nonneg z (by decide : (256 : Int) ≠ 0)
    have h2 := Int.emod_lt_of_pos z (by decide : (0 : Int) < 256)
    have h3 := Int.toNat_of_nonneg h1
    omega
  | pinf => exact Nat.zero_lt_succ _
  | ninf => exact Nat.zero_lt_succ _
  | nan => exact Nat.zero_lt_succ _

theorem ieee_channel_trunc (v : Dbl B64) (x : B64) (hv : v = Dbl.fin x) (h1 : -1 < x.toRat)
    (h2 : x.toRat < 256) : ((to_uchar v : Nat) : Int) = truncation x.toRat := by
  obtain ⟨h3, h4⟩ := truncation_range x.toRat h1 h2
  rw [hv, ieee_to_uchar_trunc, Int.emod_eq_of_lt h3 h4]
  exact Int.toNat_of_nonneg h3

theorem ieee_channel_le (c : B64) (K : Int) (h0 : 0 ≤ c.toRat) (h1 : c.toRat ≤ 1)
    (hK0 : 0 ≤ K) (hK : K < 2 ^ 53) :
    ((to_uchar (Dbl.fin c * Dbl.ofInt K) : Nat) : Int) ≤ K := by
  obtain ⟨k, rfl⟩ : ∃ k : Nat, K = (k : Int) := ⟨K.toNat, (Int.toNat_of_nonneg hK0).symm⟩
  have hk : k < 2 ^ 53 := by exact_mod_cast hK
  obtain ⟨x, hx, hxs, hxv⟩ := round_exact k hk
  have hof : (Dbl.ofInt (k : Int) : Dbl B64) = Dbl.fin x := by
    show B64.round (decide ((k : Int) < 0)) (k : Int).natAbs 0 = _
    have e1 : decide ((k : Int) < 0) = false := by simp
    rw [e1, Int.natAbs_ofNat, hx]
  have hmul : Dbl.fin c * Dbl.ofInt (k : Int)
      = B64.round (c.sign != x.sign) (c.m * x.m) (c.e + x.e) := by
    rw [hof]
    rfl
  rw [hmul, hxs]
  obtain ⟨cs, cm, ce⟩ := c
  obtain ⟨xs, xm, xe⟩ := x
  simp only [toRat_mk] at h0 h1 hxv
  simp only at hxs
  subst hxs
  simp only [Bool.false_eq_true, if_false, one_mul] at hxv
  by_cases hz : cm * xm = 0
  · have e0 : B64.round (cs != false) (cm * xm) (ce + xe) = Dbl.fin (B64.zero (cs != false)) := by
      simp [B64.round, hz]
    rw [e0, ieee_to_uchar_trunc]
    have e1 : truncation (B64.toRat (B64.zero (cs != false))) = 0 := by
      simp [B64.zero, toRat_mk, truncation]
    rw [e1]
    simp
  · have hcm : cm ≠ 0 := fun h => hz (by rw [h, Nat.zero_mul])
    have hpos : (0 : ℚ) < (cm : ℚ) * (2 : ℚ) ^ ce := by
      have : (0 : ℚ) < (cm : ℚ) := by exact_mod_cast Nat.pos_of_ne_zero hcm
      positivity
    have hcs : cs = false := by
      cases cs with
      | false => rfl
      | true =>
        simp only [if_true, neg_one_mul, neg_mul] at h0
        linarith
    subst hcs
    simp only [Bool.false_eq_true, if_false, one_mul] at h0 h1
    have hval : ((cm * xm : Nat) : ℚ) * (2 : ℚ) ^ (ce + xe) ≤ (k : ℚ) := by
      have e2 : ((cm * xm : Nat) : ℚ) * (2 : ℚ) ^ (ce + xe)
          = ((cm : ℚ) * (2 : ℚ) ^ ce) * ((xm : ℚ) * (2 : ℚ) ^ xe) := by
        rw [zpow_add₀ (two_ne_zero)]
        push_cast
        ring
      rw [e2, hxv]
      have hk0 : (0 : ℚ) ≤ (k : ℚ) := by positivity
      calc (cm : ℚ) * (2 : ℚ) ^ ce * (k : ℚ) ≤ 1 * (k : ℚ) :=
            mul_le_mul_of_nonneg_right h1 hk0
        _ = (k : ℚ) := one_mul _
    obtain ⟨y, hy1, hy2, hy3⟩ := round_le (cm * xm) (ce + xe) k hk hval
    have e3 : ((false != false) : Bool) = false := rfl
    rw [e3, hy1, ieee_to_uchar_trunc]
    obtain ⟨ys, ym, ye⟩ := y
    simp only at hy2
    subst hy2
    have hy0 : (0 : ℚ) ≤ B64.toRat ⟨false, ym, ye⟩ := by
      rw [toRat_mk]
      simp only [Bool.false_eq_true, if_false, one_mul]
      positivity
    have ht0 : 0 ≤ truncation (B64.toRat ⟨false, ym, ye⟩) := by
      unfold truncation
      rw [if_pos hy0]
      exact Int.floor_nonneg.mpr hy0
    have ht1 : truncation (B64.toRat ⟨false, ym, ye⟩) ≤ (k : Int) := by
      unfold truncation
      rw [if_pos hy0]
      have := Int.floor_mono hy3
      rwa [Int.floor_natCast] at this
    rw [Int.toNat_of_nonneg (Int.emod_nonneg _ (by decide))]
    omega

end IeeeChannels

section ChannelClaims

/-- C18, counterexample: in binary64 arithmetic with `maxColor = 255`, the colour component
`2` has the product `510` and the stored channel is `254`, a byte; and the colour component
`0.6`, the double `5404319552844595 / 2^53`, is stored as `153` while the integer truncation
of the product of this number and `255` is `152`: the product that is truncated is the
rounded one, `153.0`. -/
theorem overbright_channel_wraps :
    (object_pixel 255 (ball (vec 0 0 5) 1 2 0 0)).R = 254 ∧
    (Dbl.ofInt 2 * Dbl.ofInt 255 : Dbl B64) = Dbl.ofInt 510 ∧
    tinted.color.x = Dbl.fin ⟨false, 5404319552844595, -53⟩ ∧
    (object_pixel 255 tinted).R = 153 ∧
    truncation (B64.toRat ⟨false, 5404319552844595, -53⟩ * 255) = 152 := by
  refine ⟨by decide!, by decide!, by decide!, by decide!, ?_⟩
  have h0 : (0 : ℚ) ≤ B64.toRat ⟨false, 5404319552844595, -53⟩ * 255 := by
    norm_num [toRat_mk]
  unfold truncation
  rw [if_pos h0, Int.floor_eq_iff]
  norm_num [toRat_mk]

/-- C18, amended: in binary64 arithmetic every stored channel is a byte.  For every object,
the channel `k` is the conversion to `unsigned char` of the double product of the colour
component `ck` and `maxColor`: when this product is a finite double strictly between `-1` and
`256` the channel is its integer truncation; and when `ck` is a finite double in `[0,1]` and
`0 ≤ maxColor < 2^53` the channel is at most `maxColor`. -/
theorem stored_channel_truncated (maxColor : Int) (o : Object B64) :
    ((object_pixel maxColor o).R < 256 ∧ (object_pixel maxColor o).G < 256 ∧
      (object_pixel maxColor o).B < 256) ∧
    ((∀ x : B64, o.color.x * Dbl.ofInt maxColor = Dbl.fin x → -1 < x.toRat → x.toRat < 256 →
        (((object_pixel maxColor o).R : Nat) : Int) = truncation x.toRat) ∧
     (∀ x : B64, o.color.y * Dbl.ofInt maxColor = Dbl.fin x → -1 < x.toRat → x.toRat < 256 →
        (((object_pixel maxColor o).G : Nat) : Int) = truncation x.toRat) ∧
     (∀ x : B64, o.color.z * Dbl.ofInt maxColor = Dbl.fin x → -1 < x.toRat → x.toRat < 256 →
        (((object_pixel maxColor o).B : Nat) : Int) = truncation x.toRat)) ∧
    (0 ≤ maxColor → maxColor < 2 ^ 53 →
      (∀ c : B64, o.color.x = Dbl.fin c → 0 ≤ c.toRat → c.toRat ≤ 1 →
        (((object_pixel maxColor o).R : Nat) : Int) ≤ maxColor) ∧
      (∀ c : B64, o.color.y = Dbl.fin c → 0 ≤ c.toRat → c.toRat ≤ 1 →
        (((object_pixel maxColor o).G : Nat) : Int) ≤ maxColor) ∧
      (∀ c : B64, o.color.z = Dbl.fin c → 0 ≤ c.toRat → c.toRat ≤ 1 →
        (((object_pixel maxColor o).B : Nat) : Int) ≤ maxColor)) := by
  have hR : (object_pixel maxColor o).R = to_uchar (o.color.x * Dbl.ofInt maxColor) := rfl
  have hG : (object_pixel maxColor o).G = to_uchar (o.color.y * Dbl.ofInt maxColor) := rfl
  have hB : (object_pixel maxColor o).B = to_uchar (o.color.z * Dbl.ofInt maxColor) := rfl
  rw [hR, hG, hB]
  refine ⟨⟨ieee_to_uchar_lt _, ieee_to_uchar_lt _, ieee_to_uchar_lt _⟩, ⟨?_, ?_, ?_⟩,
    fun hm0 hm1 => ⟨?_, ?_, ?_⟩⟩
  · exact fun x hx h1 h2 => ieee_channel_trunc _ x hx h1 h2
  · exact fun x hx h1 h2 => ieee_channel_trunc _ x hx h1 h2
  · exact fun x hx h1 h2 => ieee_channel_trunc _ x hx h1 h2
  · intro c hc h0 h1
    rw [hc]
    exact ieee_channel_le c maxColor h0 h1 hm0 hm1
  · intro c hc h0 h1
    rw [hc]
    exact ieee_channel_le c maxColor h0 h1 hm0 hm1
  · intro c hc h0 h1
    rw [hc]
    exact ieee_channel_le c maxColor h0 h1 hm0 hm1

/-- C18, witness: in binary64 arithmetic, the colour `(0.6, 0, 0)` with `maxColor = 255`: the
product of `0.6` and `255` is the double `153`, and the red channel is `153`, its integer
truncation, and at most `255`. -/
theorem stored_channel_truncated_witness :
    tinted.color.x * Dbl.ofInt 255 = Dbl.fin ⟨false, 5383208929591296, -45⟩ ∧
    B64.toRat ⟨false, 5383208929591296, -45⟩ = 153 ∧
    (((object_pixel 255 tinted).R : Nat) : Int)
      = truncation (B64.toRat ⟨false, 5383208929591296, -45⟩) ∧
    (((object_pixel 255 tinted).R : Nat) : Int) ≤ 255 ∧
    object_pixel 255 tinted = ⟨153, 0, 0⟩ :=
  ⟨by decide!, by norm_num [toRat_mk],
    (stored_channel_truncated 255 tinted).2.1.1 ⟨false, 5383208929591296, -45⟩ (by decide!)
      (by norm_num [toRat_mk]) (by norm_num [toRat_mk]),
    ((stored_channel_truncated 255 tinted).2.2 (by decide) (by decide)).1
      ⟨false, 5404319552844595, -53⟩ (by decide!) (by norm_num [toRat_mk])
      (by norm_num [toRat_mk]),
    by decide!⟩

end ChannelClaims


/-! ## The rays of the pixels -/

section RayLemmas

variable {F : Type} [LinearOrderedField F]

end RayLemmas

/-! ## One sphere rendered at 1 by 1 -/

section RoundTrip

variable {F : Type} [LinearOrderedField F] [FloorRing F]

theorem example_lits_wf : ∀ l ∈ [camera_lit, sphere_lit], l.WF (stdio_decimal ℚ) := by
  have hnum : ∀ d : Char, isdigit d = true → (num (String.mk [d])).WF (stdio_decimal ℚ) :=
    fun d hd => digits_wf d [] (by simpa using hd)
  have hvec : ∀ a b c : Char, isdigit a = true → isdigit b = true → isdigit c = true →
      (vec3 (String.mk [a]) (String.mk [b]) (String.mk [c])).WF (stdio_decimal ℚ) :=
    fun a b c ha hb hc => ⟨white_nil, white_nil, white_nil, white_nil, white_nil, white_nil,
      hnum a ha, hnum b hb, hnum c hc⟩
  refine List.forall_mem_cons.mpr ⟨?_, List.forall_mem_cons.mpr ⟨?_, fun _ h => by cases h⟩⟩
  · refine ⟨white_space, white_nil, white_space, white_nil, white_nil,
      white_of_all _ (by decide), ?_⟩
    refine List.forall_mem_cons.mpr ⟨?_, List.forall_mem_cons.mpr ⟨?_, fun _ h => by cases h⟩⟩
    · exact ⟨white_space, white_nil, white_space, white_nil, Or.inl rfl, hnum '2' (by decide)⟩
    · exact ⟨white_space, white_nil, white_space, white_space, Or.inr rfl,
        hnum '2' (by decide)⟩
  · refine ⟨white_space, white_nil, white_space, white_nil, white_of_all _ (by decide),
      white_nil, ?_⟩
    refine List.forall_mem_cons.mpr ⟨?_, List.forall_mem_cons.mpr ⟨?_,
      List.forall_mem_cons.mpr ⟨?_, fun _ h => by cases h⟩⟩⟩
    · exact ⟨white_space, white_nil, white_space, white_nil, Or.inr rfl,
        hvec '0' '0' '5' (by decide) (by decide) (by decide)⟩
    · exact ⟨white_space, white_nil, white_space, white_nil, rfl, hnum '1' (by decide)⟩
    · exact ⟨white_space, white_nil, white_space, white_space, Or.inl rfl,
        hvec '1' '0' '0' (by decide) (by decide) (by decide)⟩

end RoundTrip

/-! ## The pixel grid -/

section ClosestLemmas

variable {F : Type} [DblArith F]

end ClosestLemmas

section GridLemmas

variable {F : Type} [DblArith F] [DblConv F]

end GridLemmas

section GridTheorems

variable {F : Type} [DblArith F] [DblConv F]

end GridTheorems

/-! ## The view dimensions -/

section CameraLemmas

variable {F : Type}

theorem getLast_getD_cons {α : Type} (a : α) (l : List α) (d : α) :
    (a :: l).getLast?.getD d = l.getLast?.getD a := by
  rw [List.getLast?_cons]
  rfl

theorem getLast_getD_append {α : Type} (xs ys : List α) (d : α) :
    (xs ++ ys).getLast?.getD d = ys.getLast?.getD (xs.getLast?.getD d) := by
  induction xs generalizing d with
  | nil => rfl
  | cons a xs ih => rw [List.cons_append, getLast_getD_cons, getLast_getD_cons, ih]

theorem fields_fold_last (fs : List (FieldLit F)) (d : Dbl F × Dbl F) :
    fs.foldl (fun d f => store_camera_field f d) d
      = ((field_values "width".toList fs).getLast?.getD d.1,
         (field_values "height".toList fs).getLast?.getD d.2) := by
  induction fs generalizing d with
  | nil => rfl
  | cons f fs ih =>
    rw [List.foldl_cons, ih]
    cases hv : f.value with
    | vector v => simp only [store_camera_field, field_values, hv]
    | number n =>
      by_cases hw : f.key = "width".toList
      · have hh : ¬ "width".toList = "height".toList := by decide
        simp only [store_camera_field, field_values, hv, hw, hh, if_true, if_false,
          getLast_getD_cons]
      · by_cases hh : f.key = "height".toList
        · have hw2 : ¬ "height".toList = "width".toList := by decide
          simp only [store_camera_field, field_values, hv, hh, hw2, if_true, if_false,
            getLast_getD_cons]
        · simp only [store_camera_field, field_values, hv, hw, hh, if_false]

theorem camera_dims_last (objs : List (ObjectLit F)) (d : Dbl F × Dbl F) :
    camera_dims objs d
      = ((camera_values "width".toList objs).getLast?.getD d.1,
         (camera_values "height".toList objs).getLast?.getD d.2) := by
  induction objs generalizing d with
  | nil => rfl
  | cons l ls ih =>
    rw [camera_dims_cons, ih]
    by_cases ht : l.type = Variant.camera
    · simp only [camera_values, ht, if_true, fields_fold_last, getLast_getD_append]
    · simp only [camera_values, ht, if_false]

theorem read_scene_dims (io : Stdio F) (w0 w1 : List Char)
    (objs : List (ObjectLit F)) (trailing : List Char) (hw0 : White w0) (hw1 : White w1)
    (hwf : ∀ l ∈ objs, l.WF io) (g : Scene F) (line : Int) (fuel : Nat)
    (hcap : count_objects objs ≤ g.objects.length)
    (hfuel : (scene_text w0 w1 objs trailing).length ≤ fuel) :
    ∃ g1, read_scene io fuel (some (scene_text w0 w1 objs trailing)) line g = Res.ok g1 ∧
      g1.cw = (camera_dims objs (g.cw, g.ch)).1 ∧ g1.ch = (camera_dims objs (g.cw, g.ch)).2 ∧
      g1.numObjects = count_objects objs ∧
      g1.objects
        = build_objects (objs.filter (fun o => o.type ≠ Variant.camera)) g.objects := by
  by_cases hne : objs = []
  · subst hne
    simp only [scene_text, objects_text, List.length_append, List.length_cons] at hfuel
    obtain ⟨k, rfl⟩ : ∃ k, fuel = k + 1 := ⟨fuel - 1, by omega⟩
    refine ⟨⟨0, g.objects, g.cw, g.ch, g.stderr ++ [Err.worstSceneFile]⟩, ?_, rfl, rfl, rfl, ?_⟩
    · unfold read_scene scene_text
      simp only [objects_text]
      obtain ⟨l1, e1⟩ := skip_ws_white w0 hw0 '[' (by decide) (w1 ++ ']' :: trailing) line
      rw [e1]
      simp only [Res.ok_bind, expect_c_head]
      obtain ⟨l2, e2⟩ := skip_ws_white w1 hw1 ']' (by decide) trailing (bump '[' l1)
      rw [e2]
      rfl
    · simp [build_objects]
  · exact ⟨described_scene objs g, read_scene_wf io w0 w1 objs trailing hw0 hw1 hwf hne g
      line fuel hcap hfuel, rfl, rfl, rfl, rfl⟩

end CameraLemmas

section CameraTheorems

variable {F : Type}

theorem set_current_dims (g g1 : Scene F) (f : Object F → Object F)
    (h : set_current g f = Res.ok g1) : g1.cw = g.cw ∧ g1.ch = g.ch := by
  unfold set_current at h
  cases hg : g.objects.get? g.numObjects with
  | none => rw [hg] at h; cases h
  | some o =>
    rw [hg] at h
    cases h
    exact ⟨rfl, rfl⟩

theorem Res.bind_ok_inv {α β : Type} (r : Res α) (f : α → Res β) (b : β)
    (h : (r >>= f) = Res.ok b) : ∃ a, r = Res.ok a ∧ f a = Res.ok b := by
  cases r with
  | ok a => exact ⟨a, rfl, h⟩
  | err e => cases h
  | outOfFuel => cases h

theorem read_field_dims (io : Stdio F) (key : List Char) (st st1 : PState F)
    (h : read_field io key st = Res.ok st1) :
    (key ≠ "width".toList → st1.g.cw = st.g.cw) ∧
    (key ≠ "height".toList → st1.g.ch = st.g.ch) ∧
    (st.camFlag = false → st1.g.cw = st.g.cw ∧ st1.g.ch = st.g.ch) := by
  have hset : ∀ (f : Object F → Object F) (cur : Cursor),
      (set_current st.g f >>= fun g => Res.ok ({ st with cur := cur, g := g } : PState F))
        = Res.ok st1 →
      (key ≠ "width".toList → st1.g.cw = st.g.cw) ∧
      (key ≠ "height".toList → st1.g.ch = st.g.ch) ∧
      (st.camFlag = false → st1.g.cw = st.g.cw ∧ st1.g.ch = st.g.ch) := by
    intro f cur h
    obtain ⟨g1, hg, h⟩ := Res.bind_ok_inv _ _ _ h
    cases h
    have := set_current_dims st.g g1 f hg
    exact ⟨fun _ => this.1, fun _ => this.2, fun _ => this⟩
  by_cases k1 : key = "width".toList
  · subst k1
    rw [read_field_width] at h
    split_ifs at h with c
    cases h
    exact ⟨fun hk => absurd rfl hk, fun _ => rfl, fun hc => by rw [hc] at c; cases c⟩
  by_cases k2 : key = "height".toList
  · subst k2
    rw [read_field_height] at h
    split_ifs at h with c
    cases h
    exact ⟨fun _ => rfl, fun hk => absurd rfl hk, fun hc => by rw [hc] at c; cases c⟩
  by_cases k3 : key = "radius".toList
  · subst k3
    rw [read_field_radius] at h
    split_ifs at h with c
    obtain ⟨kind, -, h⟩ := Res.bind_ok_inv _ _ _ h
    split_ifs at h
    exact hset _ _ h
  by_cases k4 : key = "color".toList
  · subst k4
    rw [read_field_color] at h
    obtain ⟨⟨value, cur⟩, -, h⟩ := Res.bind_ok_inv _ _ _ h
    simp only at h
    split_ifs at h
    exact hset _ _ h
  by_cases k5 : key = "position".toList
  · subst k5
    rw [read_field_position] at h
    obtain ⟨⟨value, cur⟩, -, h⟩ := Res.bind_ok_inv _ _ _ h
    simp only at h
    split_ifs at h
    obtain ⟨kind, -, h⟩ := Res.bind_ok_inv _ _ _ h
    split_ifs at h
    · exact hset _ _ h
    · exact hset _ _ h
  by_cases k6 : key = "normal".toList
  · subst k6
    rw [read_field_normal] at h
    obtain ⟨⟨value, cur⟩, -, h⟩ := Res.bind_ok_inv _ _ _ h
    simp only at h
    split_ifs at h
    obtain ⟨kind, -, h⟩ := Res.bind_ok_inv _ _ _ h
    split_ifs at h
    exact hset _ _ h
  rw [read_field_unknown io st key k1 k2 k3 k4 k5 k6] at h
  cases h

theorem field_values_nil (key : List Char) (fs : List (FieldLit F))
    (h : ∀ f ∈ fs, f.key ≠ key) : field_values key fs = [] := by
  induction fs with
  | nil => rfl
  | cons f fs ih =>
    have hf := h f (List.mem_cons_self _ _)
    have ih1 := ih (fun x hx => h x (List.mem_cons_of_mem _ hx))
    cases hv : f.value with
    | vector v => simp only [field_values, hv, ih1]
    | number n => simp only [field_values, hv, hf, if_false, ih1]

theorem camera_values_nil (key : List Char) (objs : List (ObjectLit F))
    (h : ∀ l ∈ objs, l.type = Variant.camera → ∀ f ∈ l.fields, f.key ≠ key) :
    camera_values key objs = [] := by
  induction objs with
  | nil => rfl
  | cons l ls ih =>
    have ih1 := ih (fun x hx => h x (List.mem_cons_of_mem _ hx))
    by_cases ht : l.type = Variant.camera
    · simp only [camera_values, ht, if_true, ih1,
        field_values_nil key l.fields (h l (List.mem_cons_self _ _) ht), List.append_nil]
    · simp only [camera_values, ht, if_false, ih1]

/-- C13: a well-formed scene file with any number of camera literals is read; afterwards
`cw` is the value of the last `"width"` field of a camera in the order of the file (the
value before the call if there is none) and `ch` the value of the last `"height"` field; a
camera takes no slot: `numObjects` counts the literals that are not cameras and the slots
`objects[0..numObjects-1]` are built from those literals alone. -/
theorem last_camera_wins (io : Stdio F) (w0 w1 : List Char)
    (objs : List (ObjectLit F)) (trailing : List Char) (hw0 : White w0) (hw1 : White w1)
    (hwf : ∀ l ∈ objs, l.WF io) (g : Scene F) (line : Int) (fuel : Nat)
    (hcap : count_objects objs ≤ g.objects.length)
    (hfuel : (scene_text w0 w1 objs trailing).length ≤ fuel) :
    ∃ g1, read_scene io fuel (some (scene_text w0 w1 objs trailing)) line g = Res.ok g1 ∧
      g1.cw = (camera_values "width".toList objs).getLast?.getD g.cw ∧
      g1.ch = (camera_values "height".toList objs).getLast?.getD g.ch ∧
      g1.numObjects = (objs.filter (fun o => o.type ≠ Variant.camera)).length ∧
      g1.objects.take g1.numObjects
        = List.zipWith build_object (objs.filter (fun o => o.type ≠ Variant.camera))
            g.objects := by
  obtain ⟨g1, h1, h2, h3, h4, h5⟩ :=
    read_scene_dims io w0 w1 objs trailing hw0 hw1 hwf g line fuel hcap hfuel
  rw [camera_dims_last] at h2 h3
  refine ⟨g1, h1, h2, h3, h4, ?_⟩
  rw [h4, h5]
  exact (build_objects_take (objs.filter (fun o => o.type ≠ Variant.camera)) g.objects hcap).1

/-- C14: after a well-formed scene file none of whose camera literals has a `"width"` field
(in particular a file without a camera) `cw` is what it was before the call, and likewise
`ch` for `"height"`, so that a camera with a `"width"` field alone leaves `ch` unchanged; and
wherever `read_field` returns, a key other than `"width"` has left `cw` unchanged, a key other
than `"height"` has left `ch` unchanged, and outside a camera both are unchanged. -/
theorem camera_dims_frame (io : Stdio F) (w0 w1 : List Char)
    (objs : List (ObjectLit F)) (trailing : List Char) (hw0 : White w0) (hw1 : White w1)
    (hwf : ∀ l ∈ objs, l.WF io) (g : Scene F) (line : Int) (fuel : Nat)
    (hcap : count_objects objs ≤ g.objects.length)
    (hfuel : (scene_text w0 w1 objs trailing).length ≤ fuel) :
    (∃ g1, read_scene io fuel (some (scene_text w0 w1 objs trailing)) line g = Res.ok g1 ∧
      ((∀ l ∈ objs, l.type = Variant.camera → ∀ f ∈ l.fields, f.key ≠ "width".toList) →
        g1.cw = g.cw) ∧
      ((∀ l ∈ objs, l.type = Variant.camera → ∀ f ∈ l.fields, f.key ≠ "height".toList) →
        g1.ch = g.ch)) ∧
    ∀ (key : List Char) (st st1 : PState F), read_field io key st = Res.ok st1 →
      (key ≠ "width".toList → st1.g.cw = st.g.cw) ∧
      (key ≠ "height".toList → st1.g.ch = st.g.ch) ∧
      (st.camFlag = false → st1.g.cw = st.g.cw ∧ st1.g.ch = st.g.ch) := by
  refine ⟨?_, read_field_dims io⟩
  obtain ⟨g1, h1, h2, h3, -, -⟩ :=
    read_scene_dims io w0 w1 objs trailing hw0 hw1 hwf g line fuel hcap hfuel
  rw [camera_dims_last] at h2 h3
  refine ⟨g1, h1, ?_, ?_⟩
  · intro h
    rw [h2, camera_values_nil _ objs h]
    rfl
  · intro h
    rw [h3, camera_values_nil _ objs h]
    rfl

theorem wide_camera_wf : wide_camera.WF (stdio_decimal ℚ) := by
  refine ⟨white_space, white_nil, white_space, white_nil, white_nil, white_space, ?_⟩
  refine List.forall_mem_cons.mpr ⟨?_, fun _ h => by cases h⟩
  exact ⟨white_space, white_nil, white_space, white_space, Or.inl rfl,
    digits_wf '4' [] (by decide)⟩

theorem two_cameras_text :
    scene_text [] [] [camera_lit, wide_camera, sphere_lit] [] = two_cameras_file := by decide

theorem wide_text : scene_text [] [] [wide_camera, sphere_lit] [] = wide_file := by decide

/-- C13, witness: a file with the cameras `width 2, height 2` and `width 4` and a sphere,
read with view dimensions 1 by 1 before the call: afterwards `cw = 4`, `ch = 2` and
`numObjects = 1`. -/
theorem last_camera_wins_witness :
    ∃ g1, read_scene (stdio_decimal ℚ) two_cameras_file.length (some two_cameras_file) 1
        example_globals = Res.ok g1 ∧
      g1.cw = Dbl.fin 4 ∧ g1.ch = Dbl.fin 2 ∧ g1.numObjects = 1 := by
  obtain ⟨g1, h1, h2, h3, h4, -⟩ := last_camera_wins (stdio_decimal ℚ) [] []
    [camera_lit, wide_camera, sphere_lit] [] white_nil white_nil
    (List.forall_mem_cons.mpr ⟨example_lits_wf camera_lit (by simp),
      List.forall_mem_cons.mpr ⟨wide_camera_wf,
        List.forall_mem_cons.mpr ⟨example_lits_wf sphere_lit (by simp),
          fun _ h => by cases h⟩⟩⟩)
    example_globals 1 two_cameras_file.length (by decide) (by rw [two_cameras_text])
  rw [two_cameras_text] at h1
  refine ⟨g1, h1, ?_, ?_, ?_⟩
  · rw [h2]
    simp [camera_values, field_values, camera_lit, wide_camera, sphere_lit, num,
      NumLit.digits, digits_value]
  · rw [h3]
    simp [camera_values, field_values, camera_lit, wide_camera, sphere_lit, num,
      NumLit.digits, digits_value]
  · rw [h4]
    simp [camera_lit, wide_camera, sphere_lit]

/-- C14, witness: a file whose only camera has a width and no height, read with view
dimensions 1 by 1 before the call: `ch` is still `1` afterwards. -/
theorem camera_dims_frame_witness :
    ∃ g1, read_scene (stdio_decimal ℚ) wide_file.length (some wide_file) 1 example_globals
        = Res.ok g1 ∧ g1.ch = Dbl.fin 1 := by
  obtain ⟨g1, h1, -, h3⟩ := (camera_dims_frame (stdio_decimal ℚ) [] []
    [wide_camera, sphere_lit] [] white_nil white_nil
    (List.forall_mem_cons.mpr ⟨wide_camera_wf,
      List.forall_mem_cons.mpr ⟨example_lits_wf sphere_lit (by simp),
        fun _ h => by cases h⟩⟩)
    example_globals 1 wide_file.length (by decide) (by rw [wide_text])).1
  rw [wide_text] at h1
  refine ⟨g1, h1, ?_⟩
  rw [h3 (by simp [wide_camera, sphere_lit])]
  rfl

end CameraTheorems

/-! ## The type of an object -/

section TypeLemmas

variable {F : Type}

theorem skip_ws_loop_ok (inp : List Char) (line : Int) (cur1 : Cursor)
    (h : skip_ws_loop inp line = Res.ok cur1) : ∃ w, White w ∧ inp = w ++ cur1.input := by
  induction inp generalizing line with
  | nil => cases h
  | cons c cs ih =>
    unfold skip_ws_loop at h
    split_ifs at h with hc
    · obtain ⟨w, hw, e⟩ := ih _ h
      refine ⟨c :: w, ?_, by rw [e]; rfl⟩
      intro x hx
      rcases List.mem_cons.mp hx with rfl | hx
      · exact hc
      · exact hw x hx
    · cases h
      exact ⟨[], white_nil, rfl⟩

theorem skip_ws_ok (cur cur1 : Cursor) (h : skip_ws cur = Res.ok cur1) :
    ∃ w, White w ∧ cur.input = w ++ cur1.input :=
  skip_ws_loop_ok cur.input cur.line cur1 h

theorem expect_c_ok (cur cur1 : Cursor) (d : Char) (h : expect_c cur d = Res.ok cur1) :
    cur.input = d :: cur1.input := by
  unfold expect_c next_c at h
  cases hinp : cur.input with
  | nil => rw [hinp] at h; cases h
  | cons c cs =>
    rw [hinp] at h
    simp only [Res.ok_bind] at h
    split_ifs at h with hc
    cases h
    rw [hc]

theorem next_string_ok (cur cur1 : Cursor) (s : List Char)
    (h : next_string cur = Res.ok (s, cur1)) : cur.input = '"' :: (s ++ '"' :: cur1.input) := by
  unfold next_string next_c at h
  cases hinp : cur.input with
  | nil => rw [hinp] at h; cases h
  | cons c cs =>
    rw [hinp] at h
    simp only [Res.ok_bind] at h
    split_ifs at h with hc
    obtain ⟨s1, rest, h1, h2, -, -, h5⟩ := (next_string_loop_ok_iff _ _ _ _ _).mp h
    simp only [List.nil_append] at h2
    simp only [ne_eq, not_not] at hc
    subst h2 h5 hc
    rw [h1]

theorem set_current_ok (g g1 : Scene F) (f : Object F → Object F)
    (h : set_current g f = Res.ok g1) :
    ∃ o, g.objects.get? g.numObjects = some o ∧
      g1 = { g with objects := g.objects.set g.numObjects (f o) } := by
  unfold set_current at h
  cases hg : g.objects.get? g.numObjects with
  | none => rw [hg] at h; cases h
  | some o =>
    rw [hg] at h
    cases h
    exact ⟨o, rfl, rfl⟩

theorem next_string_ne_outOfFuel (cur : Cursor) : next_string cur ≠ Res.outOfFuel := by
  intro hr
  unfold next_string next_c at hr
  cases hinp : cur.input with
  | nil => rw [hinp] at hr; cases hr
  | cons c cs =>
    rw [hinp] at hr
    simp only [Res.ok_bind] at hr
    split_ifs at hr
    exact next_string_loop_ne_outOfFuel _ _ _ hr

theorem set_current_ne_outOfFuel (g : Scene F) (f : Object F → Object F) :
    set_current g f ≠ Res.outOfFuel := by
  unfold set_current
  cases g.objects.get? g.numObjects <;> simp

theorem read_type_ne_outOfFuel (st : PState F) : read_type st ≠ Res.outOfFuel := by
  unfold read_type
  refine Res.bind_ne_outOfFuel _ _ (skip_ws_ne_outOfFuel _) (fun c0 => ?_)
  refine Res.bind_ne_outOfFuel _ _ (next_string_ne_outOfFuel _) (fun p => ?_)
  obtain ⟨key, c1⟩ := p
  simp only
  split_ifs
  · simp
  refine Res.bind_ne_outOfFuel _ _ (skip_ws_ne_outOfFuel _) (fun c2 => ?_)
  refine Res.bind_ne_outOfFuel _ _ (expect_c_ne_outOfFuel _ _) (fun c3 => ?_)
  refine Res.bind_ne_outOfFuel _ _ (skip_ws_ne_outOfFuel _) (fun c4 => ?_)
  refine Res.bind_ne_outOfFuel _ _ (next_string_ne_outOfFuel _) (fun p => ?_)
  obtain ⟨value, c5⟩ := p
  simp only
  have hend : ∀ (b : Bool) (g1 : Scene F),
      (skip_ws c5 >>= fun cur =>
        Res.ok ({ cur := cur, camFlag := b, g := g1 } : PState F))
        ≠ Res.outOfFuel :=
    fun b g1 => Res.bind_ne_outOfFuel _ _ (skip_ws_ne_outOfFuel _) (fun _ => by simp)
  split_ifs
  · simp only [Res.ok_bind]
    exact hend _ _
  · refine Res.bind_ne_outOfFuel _ _ (set_current_ne_outOfFuel _ _) (fun g1 => ?_)
    simp only [Res.ok_bind]
    exact hend _ _
  · refine Res.bind_ne_outOfFuel _ _ (set_current_ne_outOfFuel _ _) (fun g1 => ?_)
    simp only [Res.ok_bind]
    exact hend _ _
  · simp

theorem read_type_ok (st st1 : PState F) (h : read_type st = Res.ok st1) :
    ∃ (w1 w2 w3 w4 : List Char) (t : Variant), White w1 ∧ White w2 ∧ White w3 ∧ White w4 ∧
      st.cur.input = w1 ++ '"' :: ("type".toList ++ '"' :: (w2 ++ ':' :: (w3 ++
        '"' :: (t.name ++ '"' :: (w4 ++ st1.cur.input))))) ∧
      (t = Variant.camera → st1.camFlag = true ∧ st1.g = st.g) ∧
      (t ≠ Variant.camera → st1.camFlag = st.camFlag ∧
        ∃ o, st.g.objects.get? st.g.numObjects = some o ∧
          st1.g = { st.g with
            objects := st.g.objects.set st.g.numObjects { o with kind := t.kind } }) := by
  unfold read_type at h
  obtain ⟨c0, h0, h⟩ := Res.bind_ok_inv _ _ _ h
  obtain ⟨⟨key, c1⟩, h1, h⟩ := Res.bind_ok_inv _ _ _ h
  simp only at h
  split_ifs at h with hkey
  simp only [ne_eq, not_not] at hkey
  obtain ⟨c2, h2, h⟩ := Res.bind_ok_inv _ _ _ h
  obtain ⟨c3, h3, h⟩ := Res.bind_ok_inv _ _ _ h
  obtain ⟨c4, h4, h⟩ := Res.bind_ok_inv _ _ _ h
  obtain ⟨⟨value, c5⟩, h5, h⟩ := Res.bind_ok_inv _ _ _ h
  simp only at h
  obtain ⟨w1, hw1, e0⟩ := skip_ws_ok _ _ h0
  have e1 := next_string_ok _ _ _ h1
  obtain ⟨w2, hw2, e2⟩ := skip_ws_ok _ _ h2
  have e3 := expect_c_ok _ _ _ h3
  obtain ⟨w3, hw3, e4⟩ := skip_ws_ok _ _ h4
  have e5 := next_string_ok _ _ _ h5
  have htext : ∀ (t : Variant) (w4 : List Char) (c6 : Cursor), value = t.name →
      c5.input = w4 ++ c6.input →
      st.cur.input = w1 ++ '"' :: ("type".toList ++ '"' :: (w2 ++ ':' :: (w3 ++
        '"' :: (t.name ++ '"' :: (w4 ++ c6.input))))) := by
    intro t w4 c6 ht e6
    rw [e0, e1, e2, e3, e4, e5, e6, hkey, ht]
  split_ifs at h with v1 v2 v3
  · simp only [Res.ok_bind] at h
    obtain ⟨c6, h7, h⟩ := Res.bind_ok_inv _ _ _ h
    cases h
    obtain ⟨w4, hw4, e6⟩ := skip_ws_ok _ _ h7
    exact ⟨w1, w2, w3, w4, Variant.camera, hw1, hw2, hw3, hw4, htext _ w4 c6 v1 e6,
      fun _ => ⟨rfl, rfl⟩, fun hne => absurd rfl hne⟩
  · obtain ⟨g1, hg, h⟩ := Res.bind_ok_inv _ _ _ h
    simp only [Res.ok_bind] at h
    obtain ⟨c6, h7, h⟩ := Res.bind_ok_inv _ _ _ h
    cases h
    obtain ⟨w4, hw4, e6⟩ := skip_ws_ok _ _ h7
    obtain ⟨o, ho, rfl⟩ := set_current_ok _ _ _ hg
    exact ⟨w1, w2, w3, w4, Variant.sphere, hw1, hw2, hw3, hw4, htext _ w4 c6 v2 e6,
      fun hc => Variant.noConfusion hc, fun _ => ⟨rfl, o, ho, rfl⟩⟩
  · obtain ⟨g1, hg, h⟩ := Res.bind_ok_inv _ _ _ h
    simp only [Res.ok_bind] at h
    obtain ⟨c6, h7, h⟩ := Res.bind_ok_inv _ _ _ h
    cases h
    obtain ⟨w4, hw4, e6⟩ := skip_ws_ok _ _ h7
    obtain ⟨o, ho, rfl⟩ := set_current_ok _ _ _ hg
    exact ⟨w1, w2, w3, w4, Variant.plane, hw1, hw2, hw3, hw4, htext _ w4 c6 v3 e6,
      fun hc => Variant.noConfusion hc, fun _ => ⟨rfl, o, ho, rfl⟩⟩
  · cases h

theorem read_type_accepts (st : PState F) (w1 w2 w3 w4 : List Char) (t : Variant) (c : Char)
    (cs : List Char) (hw1 : White w1) (hw2 : White w2) (hw3 : White w3) (hw4 : White w4)
    (hc : isspace c = false)
    (hin : st.cur.input = w1 ++ '"' :: ("type".toList ++ '"' :: (w2 ++ ':' :: (w3 ++
        '"' :: (t.name ++ '"' :: (w4 ++ c :: cs))))))
    (ho : t ≠ Variant.camera → ∃ o, st.g.objects.get? st.g.numObjects = some o) :
    ∃ st1, read_type st = Res.ok st1 ∧ st1.cur.input = c :: cs ∧
      (t = Variant.camera → st1.camFlag = true ∧ st1.g = st.g) ∧
      (t ≠ Variant.camera → st1.camFlag = st.camFlag ∧
        ∃ o, st.g.objects.get? st.g.numObjects = some o ∧
          st1.g = { st.g with
            objects := st.g.objects.set st.g.numObjects { o with kind := t.kind } }) := by
  obtain ⟨⟨inp, line⟩, cf, g⟩ := st
  simp only at hin ho
  subst hin
  unfold read_type
  simp only
  obtain ⟨l1, e1⟩ := skip_ws_white w1 hw1 '"' (by decide)
    ("type".toList ++ '"' :: (w2 ++ ':' :: (w3 ++
        '"' :: (t.name ++ '"' :: (w4 ++ c :: cs))))) line
  rw [e1]
  simp only [Res.ok_bind]
  rw [next_string_quoted "type".toList
    (by
      intro c hc
      simp only [String.toList, List.mem_cons, List.mem_singleton, List.not_mem_nil,
        or_false] at hc
      rcases hc with rfl | rfl | rfl | rfl <;>
        exact ⟨by decide, by decide, by decide, by decide⟩)
    (by decide)]
  simp only [Res.ok_bind, ne_eq, not_true_eq_false, if_false]
  obtain ⟨l2, e2⟩ := skip_ws_white w2 hw2 ':' (by decide)
    (w3 ++ '"' :: (t.name ++ '"' :: (w4 ++ c :: cs))) l1
  rw [e2]
  simp only [Res.ok_bind, expect_c_head]
  obtain ⟨l3, e3⟩ := skip_ws_white w3 hw3 '"' (by decide)
    (t.name ++ '"' :: (w4 ++ c :: cs)) (bump ':' l2)
  rw [e3]
  simp only [Res.ok_bind]
  rw [next_string_quoted t.name (type_name_string t).1 (type_name_string t).2]
  simp only [Res.ok_bind]
  obtain ⟨l4, e4⟩ := skip_ws_white w4 hw4 c hc cs l3
  cases t with
  | camera =>
    refine ⟨_, by simp only [Variant.name, if_true, Res.ok_bind, e4]; rfl, rfl,
      fun _ => ⟨rfl, rfl⟩, fun h => absurd rfl h⟩
  | sphere =>
    obtain ⟨o, hg⟩ := ho (by decide)
    refine ⟨⟨⟨c :: cs, l4⟩, cf, map_current g (fun o => { o with kind := 1 })⟩, ?_, rfl,
      fun h => Variant.noConfusion h, fun _ => ⟨rfl, o, hg, ?_⟩⟩
    · simp [Variant.name, set_current_eq g _ o hg, e4]
    · simp only [map_current, hg, Variant.kind]
  | plane =>
    obtain ⟨o, hg⟩ := ho (by decide)
    refine ⟨⟨⟨c :: cs, l4⟩, cf, map_current g (fun o => { o with kind := 0 })⟩, ?_, rfl,
      fun h => Variant.noConfusion h, fun _ => ⟨rfl, o, hg, ?_⟩⟩
    · simp [Variant.name, set_current_eq g _ o hg, e4]
    · simp only [map_current, hg, Variant.kind]

/-- C19: the head of an object literal is read without looping; it is accepted only when the
text behind the `{` is the key `"type"`, a colon and one of the values `"camera"`,
`"sphere"`, `"plane"` (with white space between them), and then `"camera"` sets `camFlag` and
leaves the globals unchanged, while `"sphere"` and `"plane"` leave `camFlag` unchanged and set
`objects[numObjects]->kind` to `1` and `0`.  Conversely every such head in front of a
character that is not white space is accepted, with this effect, and the text behind it is
left to be read (for `"sphere"` and `"plane"` when `objects[numObjects]` is an element of the
array).  In every other case the head ends in `exit(1)`, and so do the object literal and the
loop over the objects that reads its `{`. -/
theorem object_type_required (io : Stdio F) (fuel : Nat) (st : PState F) :
    read_type st ≠ Res.outOfFuel ∧
    (∀ st1, read_type st = Res.ok st1 →
      ∃ (w1 w2 w3 w4 : List Char) (t : Variant),
        White w1 ∧ White w2 ∧ White w3 ∧ White w4 ∧
        st.cur.input = w1 ++ '"' :: ("type".toList ++ '"' :: (w2 ++ ':' :: (w3 ++
          '"' :: (t.name ++ '"' :: (w4 ++ st1.cur.input))))) ∧
        (t = Variant.camera → st1.camFlag = true ∧ st1.g = st.g) ∧
        (t ≠ Variant.camera → st1.camFlag = st.camFlag ∧
          ∃ o, st.g.objects.get? st.g.numObjects = some o ∧
            st1.g = { st.g with
              objects := st.g.objects.set st.g.numObjects { o with kind := t.kind } })) ∧
    (∀ (w1 w2 w3 w4 : List Char) (t : Variant) (c : Char) (cs : List Char),
      White w1 → White w2 → White w3 → White w4 → isspace c = false →
      st.cur.input = w1 ++ '"' :: ("type".toList ++ '"' :: (w2 ++ ':' :: (w3 ++
        '"' :: (t.name ++ '"' :: (w4 ++ c :: cs))))) →
      (t ≠ Variant.camera → ∃ o, st.g.objects.get? st.g.numObjects = some o) →
      ∃ st1, read_type st = Res.ok st1 ∧ st1.cur.input = c :: cs ∧
        (t = Variant.camera → st1.camFlag = true ∧ st1.g = st.g) ∧
        (t ≠ Variant.camera → st1.camFlag = st.camFlag ∧
          ∃ o, st.g.objects.get? st.g.numObjects = some o ∧
            st1.g = { st.g with
              objects := st.g.objects.set st.g.numObjects { o with kind := t.kind } })) ∧
    (∀ e, read_type st = Res.err e →
      read_object io fuel st = Res.err e ∧
      objects_loop io (fuel + 1) ⟨⟨'{' :: st.cur.input, st.cur.line⟩, st.camFlag, st.g⟩
        = Res.err e) := by
  refine ⟨read_type_ne_outOfFuel st, read_type_ok st, ?_, ?_⟩
  · intro w1 w2 w3 w4 t c cs hw1 hw2 hw3 hw4 hc hin ho
    exact read_type_accepts st w1 w2 w3 w4 t c cs hw1 hw2 hw3 hw4 hc hin ho
  intro e he
  have h1 : read_object io fuel st = Res.err e := by
    unfold read_object
    rw [he]
    rfl
  refine ⟨h1, ?_⟩
  simp only [objects_loop]
  rw [if_pos trivial]
  have hst : (⟨⟨st.cur.input, st.cur.line⟩, st.camFlag, st.g⟩ : PState F) = st := rfl
  rw [hst, h1]
  rfl

/-- C19, witness: an object that starts with the key `"kind"` ends the loop over the objects
and `read_scene` with the message about the `"type"` key, also as the second object of a
file; the type `"cube"` ends `read_scene` with the message about an unknown type; `"sphere"`
is accepted and sets the kind of the pending object, a plane before, to `1`; `"plane"` is
accepted and sets the kind of the pending object, a sphere before, to `0`; and `"camera"` is
accepted and sets `camFlag` alone. -/
theorem object_type_required_witness :
    objects_loop (stdio_decimal ℚ) 1
        ⟨⟨'{' :: " \"kind\": \"sphere\" \x7d".toList, 1⟩, false, example_globals⟩
      = Res.err (Err.expectedTypeKey 1) ∧
    read_scene (stdio_decimal ℚ) untyped_file.length (some untyped_file) 1 example_globals
      = Res.err (Err.expectedTypeKey 1) ∧
    read_scene (stdio_decimal ℚ) cube_file.length (some cube_file) 1 example_globals
      = Res.err (Err.unknownType "cube".toList 1) ∧
    read_type ⟨⟨" \"type\": \"sphere\" \x7d".toList, 1⟩, false,
        ⟨0, [plane_at 1 blue], Dbl.fin 2, Dbl.fin 2, []⟩⟩
      = Res.ok ⟨⟨"\x7d".toList, 1⟩, false,
          ⟨0, [{ plane_at 1 blue with kind := 1 }], Dbl.fin 2, Dbl.fin 2, []⟩⟩ ∧
    read_type (sphere_state " \"type\": \"plane\" \x7d".toList)
      = Res.ok ⟨⟨"\x7d".toList, 1⟩, false,
          ⟨0, [{ unit_sphere with kind := 0 }], Dbl.fin 2, Dbl.fin 2, []⟩⟩ ∧
    read_type ⟨⟨" \"type\": \"camera\" \x7d".toList, 1⟩, false, example_globals⟩
      = Res.ok ⟨⟨"\x7d".toList, 1⟩, true, example_globals⟩ :=
  ⟨((object_type_required (stdio_decimal ℚ) 0
      ⟨⟨" \"kind\": \"sphere\" \x7d".toList, 1⟩, false, example_globals⟩).2.2.2 _ rfl).2,
    rfl, rfl, rfl, rfl, rfl⟩

end TypeLemmas

end Raycast
